import Mathlib

/-!
# GSM 03.38 transformers (`gsm.go`): packer, unpacker, encoder, decoder

Shallow embedding of the four `transform.Transformer` implementations of
`gsm.go`.  Byte slices are lists of naturals below 256, a destination slice is
a list whose length is the capacity, an out-of-range index is the outcome
`Run.panic`, and every `for` loop is a function that is structurally recursive
on a step budget (`Run.timeout` when the budget is used up; the `Transform`
functions pass a budget that the theorems show to be enough).
-/

set_option linter.unusedVariables false

namespace Gsm

/-! ## Shared protocol -/

/-- Go `error` value returned by `Transform`: `nil` or `transform.ErrShortDst`. -/
inductive Err where
  | nil
  | ErrShortDst
  deriving DecidableEq, Repr

/-- Outcome of running a piece of Go code: a normal return, a run-time panic
(index out of range), or the step budget of the model used up. -/
inductive Run (α : Type) where
  | done (a : α)
  | panic
  | timeout
  deriving DecidableEq, Repr

/-- The named results `(nDst, nSrc, err)` of `Transform` together with the
contents of the destination slice on return. -/
structure Result where
  dst : List Nat
  nDst : Nat
  nSrc : Nat
  err : Err
  deriving DecidableEq, Repr

/-- Go `b >> k` for a `byte` value `b` and a `uint32` shift count `k`. -/
def shrByte (b k : Nat) : Nat := if k < 8 then b >>> k else 0

/-- Go `b << k` for a `byte` value `b` and a `uint32` shift count `k`
(the result is truncated to 8 bits). -/
def shlByte (b k : Nat) : Nat := if k < 8 then (b <<< k) % 256 else 0

/-- Go `uint32` subtraction `a - b` (wraps around). -/
def subU32 (a b : Nat) : Nat := (a + 4294967296 - b % 4294967296) % 4294967296

/-- Go `uint32` increment `a++` (wraps around). -/
def incU32 (a : Nat) : Nat := (a + 1) % 4294967296

/-! ## SevenBitPacker -/

/-- Go `type SevenBitPacker struct { s uint32 }`. -/
structure SevenBitPacker where
  s : Nat
  deriving DecidableEq, Repr

/-- Go `NewPacker`: the zero value of the struct. -/
def NewPacker : SevenBitPacker := { s := 0 }

/-- Go `(*SevenBitPacker).Reset`. -/
def SevenBitPacker.Reset (p : SevenBitPacker) : SevenBitPacker := { s := 1 }

/-- The `for nDst = 0; i <= len(src); nDst++` loop of
`(*SevenBitPacker).Transform`; the arguments are the loop variables `dst`,
`nDst`, `nSrc`, `i` and `p.s`.  The loop is entered with `i = 1`, so `src[i-1]`
is in range whenever `i <= len(src)`. -/
def SevenBitPacker.loop (src : List Nat) :
    Nat → List Nat → Nat → Nat → Nat → Nat → Run (Result × SevenBitPacker)
  | 0, _, _, _, _, _ => .timeout
  | fuel + 1, dst, nDst, nSrc, i, s =>
    if i ≤ src.length then
      if nDst ≥ dst.length then
        .done ({ dst := dst, nDst := nDst, nSrc := nSrc, err := .ErrShortDst }, { s := s })
      else
        -- dst[nDst] = src[i-1] >> (p.s - 1)
        let d := shrByte (src.getD (i - 1) 0) (subU32 s 1)
        -- next := byte(0); if i < len(src) { next = src[i] << (8 - p.s) }
        let next := if i < src.length then shlByte (src.getD i 0) (subU32 8 s) else 0
        -- dst[nDst] |= next
        let dst := dst.set nDst (d ||| next)
        -- p.s++; i++; nSrc++
        let s := incU32 s
        let i := i + 1
        let nSrc := nSrc + 1
        if s = 8 then
          -- p.s = 1; i++; nSrc++
          SevenBitPacker.loop src fuel dst (nDst + 1) (nSrc + 1) (i + 1) 1
        else
          SevenBitPacker.loop src fuel dst (nDst + 1) nSrc i s
    else
      .done ({ dst := dst, nDst := nDst, nSrc := nSrc, err := .nil }, { s := s })

/-- Go `(*SevenBitPacker).Transform(dst, src, atEOF)`. -/
def SevenBitPacker.Transform (p : SevenBitPacker) (dst src : List Nat) (atEOF : Bool) :
    Run (Result × SevenBitPacker) :=
  SevenBitPacker.loop src (src.length + 1) dst 0 0 1 p.s

/-! ## SevenBitUnpacker -/

/-- Go `type SevenBitUnpacker struct { borrowed byte; s uint32 }`. -/
structure SevenBitUnpacker where
  borrowed : Nat
  s : Nat
  deriving DecidableEq, Repr

/-- Go `NewUnpacker`: the zero value of the struct. -/
def NewUnpacker : SevenBitUnpacker := { borrowed := 0, s := 0 }

/-- Go `(*SevenBitUnpacker).Reset`. -/
def SevenBitUnpacker.Reset (u : SevenBitUnpacker) : SevenBitUnpacker := { borrowed := 0, s := 1 }

/-- The `for j := 0; j < len(src); j++` loop of `(*SevenBitUnpacker).Transform`;
the arguments are the loop variables. -/
def SevenBitUnpacker.loop (src : List Nat) :
    Nat → List Nat → Nat → Nat → Nat → Nat → Nat → Run (Result × SevenBitUnpacker)
  | 0, _, _, _, _, _, _ => .timeout
  | fuel + 1, dst, nDst, nSrc, j, borrowed, s =>
    if j < src.length then
      if nDst ≥ dst.length then
        .done ({ dst := dst, nDst := nDst, nSrc := nSrc, err := .ErrShortDst },
          { borrowed := borrowed, s := s })
      else
        let c := src.getD j 0
        -- dst[nDst] = src[j] << u.s; dst[nDst] >>= 1; dst[nDst] |= u.borrowed
        let dst := dst.set nDst (shrByte (shlByte c s) 1 ||| borrowed)
        -- u.borrowed = src[j] >> (8 - u.s)
        let borrowed := shrByte c (subU32 8 s)
        -- u.s++; nDst++; nSrc++
        let s := incU32 s
        let nDst := nDst + 1
        let nSrc := nSrc + 1
        if s = 8 then
          -- dst[nDst] = u.borrowed (no capacity check)
          if nDst < dst.length then
            SevenBitUnpacker.loop src fuel (dst.set nDst borrowed) (nDst + 1) nSrc (j + 1) 0 1
          else
            .panic
        else
          SevenBitUnpacker.loop src fuel dst nDst nSrc (j + 1) borrowed s
    else
      .done ({ dst := dst, nDst := nDst, nSrc := nSrc, err := .nil },
        { borrowed := borrowed, s := s })

/-- Go `(*SevenBitUnpacker).Transform(dst, src, atEOF)`. -/
def SevenBitUnpacker.Transform (u : SevenBitUnpacker) (dst src : List Nat) (atEOF : Bool) :
    Run (Result × SevenBitUnpacker) :=
  if u.s = 8 then
    -- dst[nDst] = u.borrowed; u.borrowed = 0; u.s = 1; nDst++
    if 0 < dst.length then
      SevenBitUnpacker.loop src (src.length + 1) (dst.set 0 u.borrowed) 1 0 0 0 1
    else
      .panic
  else
    SevenBitUnpacker.loop src (src.length + 1) dst 0 0 0 u.borrowed u.s

/-! ## Character tables

The tables `decode`, `escDecode`, `encode` and `escEncode` and the type
`utf8Enc` are declared in a file that is not among the sources; the
transformers take the tables as a parameter. -/

/-- Modelled from the spec: the declaration of `utf8Enc` is not among the
sources.  A table entry is a short byte sequence and its length (data model of
the specification); `Decoder.Transform` reads it as `data[j]` for `j < len`. -/
structure utf8Enc where
  len : Nat
  data : List Nat
  deriving DecidableEq, Repr

/-- Modelled from the spec: the declarations of the four package-level tables
are not among the sources.  As the transformers use them, `decode` is indexed
by a GSM byte, `escDecode` is a map from the byte after `0x1B`, and `encode`
and `escEncode` hold `uint32` entries (`gsm<<24 | rune` and
`esc<<24 | gsm<<16 | rune`). -/
structure Tables where
  decode : List utf8Enc
  escDecode : Nat → Option utf8Enc
  encode : List Nat
  escEncode : List Nat

/-- Go `dst[i] = v`; `none` when the index is out of range. -/
def store (dst : List Nat) (i v : Nat) : Option (List Nat) :=
  if i < dst.length then some (dst.set i v) else none

/-! ## Decoder -/

/-- The `for j := 0; j < n; j++ { dst[nDst] = dec.data[j]; nDst++ }` loop of
`Decoder.Transform`; returns the destination and `nDst`. -/
def Decoder.copy (dec : utf8Enc) (n : Nat) :
    Nat → List Nat → Nat → Nat → Run (List Nat × Nat)
  | 0, _, _, _ => .timeout
  | fuel + 1, dst, nDst, j =>
    if j < n then
      match dec.data[j]? with
      | none => .panic
      | some b =>
        match store dst nDst b with
        | none => .panic
        | some dst => Decoder.copy dec n fuel dst (nDst + 1) (j + 1)
    else
      .done (dst, nDst)

/-- The `for i := 0; i < len(src); i++` loop of `Decoder.Transform`; the
arguments are `dst`, `nDst`, `nSrc` and `i`. -/
def Decoder.loop (T : Tables) (src : List Nat) :
    Nat → List Nat → Nat → Nat → Nat → Run Result
  | 0, _, _, _, _ => .timeout
  | fuel + 1, dst, nDst, nSrc, i =>
    if i < src.length then
      -- c := src[i]; dec := &decode[c]
      let c := src.getD i 0
      match T.decode[c]? with
      | none => .panic
      | some dec0 =>
        -- if c == 0x1B && i+1 < len(src) { d, ok := escDecode[src[i+1]]; if ok { dec = d; i++ } }
        let esc : Option utf8Enc :=
          if c = 0x1B ∧ i + 1 < src.length then T.escDecode (src.getD (i + 1) 0) else none
        let dec := match esc with
          | some d => d
          | none => dec0
        let i := match esc with
          | some _ => i + 1
          | none => i
        let n := dec.len
        if nDst + n > dst.length then
          .done { dst := dst, nDst := nDst, nSrc := nSrc, err := .ErrShortDst }
        else
          match Decoder.copy dec n (n + 1) dst nDst 0 with
          | .done (dst, nDst) => Decoder.loop T src fuel dst nDst (i + 1) (i + 1)
          | .panic => .panic
          | .timeout => .timeout
    else
      .done { dst := dst, nDst := nDst, nSrc := nSrc, err := .nil }

/-- Go `Decoder.Transform(dst, src, atEOF)`. -/
def Decoder.Transform (T : Tables) (dst src : List Nat) (atEOF : Bool) : Run Result :=
  Decoder.loop T src (src.length + 1) dst 0 0 0

/-! ## `unicode/utf8` -/

/-- Go `utf8.RuneError`. -/
def RuneError : Nat := 0xFFFD

/-- Go `utf8.first`: information about the first byte of a UTF-8 sequence
(`as = 0xF0` ASCII, `xx = 0xF1` invalid, otherwise accept-range index in the
high nibble and size in the low one). -/
def first (b : Nat) : Nat :=
  if b < 0x80 then 0xF0
  else if b < 0xC2 then 0xF1
  else if b < 0xE0 then 0x02
  else if b = 0xE0 then 0x13
  else if b < 0xED then 0x03
  else if b = 0xED then 0x23
  else if b < 0xF0 then 0x03
  else if b = 0xF0 then 0x34
  else if b < 0xF4 then 0x04
  else if b = 0xF4 then 0x44
  else 0xF1

/-- Go `utf8.acceptRanges`: lowest and highest accepted second byte. -/
def acceptRanges (k : Nat) : Nat × Nat :=
  match k with
  | 0 => (0x80, 0xBF)
  | 1 => (0xA0, 0xBF)
  | 2 => (0x80, 0x9F)
  | 3 => (0x90, 0xBF)
  | 4 => (0x80, 0x8F)
  | _ => (0, 0)

/-- Go `utf8.DecodeRune(p)`: the first rune of `p` and its width in bytes;
`(RuneError, 1)` for an invalid or incomplete encoding, `(RuneError, 0)` for
empty input. -/
def DecodeRune (p : List Nat) : Nat × Nat :=
  match p with
  | [] => (RuneError, 0)
  | p0 :: _ =>
    let x := first p0
    if x ≥ 0xF0 then
      -- mask := rune(x) << 31 >> 31; return rune(p[0])&^mask | RuneError&mask, 1
      if x % 2 = 1 then (RuneError, 1) else (p0, 1)
    else
      let sz := x &&& 7
      let accept := acceptRanges (x >>> 4)
      if p.length < sz then (RuneError, 1)
      else
        let b1 := p.getD 1 0
        if b1 < accept.1 ∨ accept.2 < b1 then (RuneError, 1)
        else if sz ≤ 2 then (((p0 &&& 0x1F) <<< 6) ||| (b1 &&& 0x3F), 2)
        else
          let b2 := p.getD 2 0
          if b2 < 0x80 ∨ 0xBF < b2 then (RuneError, 1)
          else if sz ≤ 3 then
            (((p0 &&& 0x0F) <<< 12) ||| ((b1 &&& 0x3F) <<< 6) ||| (b2 &&& 0x3F), 3)
          else
            let b3 := p.getD 3 0
            if b3 < 0x80 ∨ 0xBF < b3 then (RuneError, 1)
            else
              (((p0 &&& 0x07) <<< 18) ||| ((b1 &&& 0x3F) <<< 12) ||| ((b2 &&& 0x3F) <<< 6)
                ||| (b3 &&& 0x3F), 4)

/-! ## Encoder -/

/-- Go `type Encoder struct { replacement byte }`. -/
structure Encoder where
  replacement : Nat
  deriving DecidableEq, Repr

/-- Go `NewEncoder(replacement)`. -/
def NewEncoder (replacement : Nat) : Encoder :=
  if replacement = 0 then { replacement := 0x3F } else { replacement := replacement }

/-- What the body of the `trans` loop of `Encoder.Transform` does after one
unit: go on with the loop (`next`, with the new `dst`, `nDst`, `nSrc`) or leave
it by `break trans` (`stop`, with the values returned). -/
inductive Step where
  | next (dst : List Nat) (nDst nSrc : Nat)
  | stop (r : Result)
  deriving DecidableEq, Repr

/-- The `low >= high` branch of the search loop: the
`for i := 0; i < len(escEncode); i++` scan of the extension table followed by
the replacement byte. -/
def Encoder.ext (T : Tables) (en : Encoder) (r size : Nat) :
    Nat → List Nat → Nat → Nat → Nat → Run Step
  | 0, _, _, _, _ => .timeout
  | fuel + 1, dst, nDst, nSrc, i =>
    if i < T.escEncode.length then
      let e := T.escEncode.getD i 0
      -- got := rune(escEncode[i] & (1<<16 - 1))
      let got := e &&& 0xFFFF
      if got = r then
        if nDst + 2 ≥ dst.length then
          -- nSrc -= size; err = transform.ErrShortDst; break trans
          .done (.stop { dst := dst, nDst := nDst, nSrc := nSrc - size, err := .ErrShortDst })
        else
          -- dst[nDst] = byte(escEncode[i] >> 24); nDst++
          match store dst nDst ((e >>> 24) % 256) with
          | none => .panic
          | some dst =>
            -- dst[nDst] = byte((escEncode[i] << 8) >> 24); nDst++; break search
            match store dst (nDst + 1) ((((e <<< 8) % 4294967296) >>> 24) % 256) with
            | none => .panic
            | some dst => .done (.next dst (nDst + 2) nSrc)
      else
        Encoder.ext T en r size fuel dst nDst nSrc (i + 1)
    else
      -- dst[nDst] = en.replacement; nDst++; break
      match store dst nDst en.replacement with
      | none => .panic
      | some dst => .done (.next dst (nDst + 1) nSrc)

/-- The `search` loop `for low, high := 0x00, 0x80; ; { ... }` of
`Encoder.Transform`: binary search in `encode[low:high]`. -/
def Encoder.search (T : Tables) (en : Encoder) (r size : Nat) (dst : List Nat)
    (nDst nSrc : Nat) : Nat → Nat → Nat → Run Step
  | 0, _, _ => .timeout
  | fuel + 1, low, high =>
    if low ≥ high then
      Encoder.ext T en r size (T.escEncode.length + 1) dst nDst nSrc 0
    else
      let mid := (low + high) / 2
      match T.encode[mid]? with
      | none => .panic
      | some got =>
        let gotRune := got &&& 0xFFFF
        if gotRune < r then
          Encoder.search T en r size dst nDst nSrc fuel (mid + 1) high
        else if gotRune > r then
          Encoder.search T en r size dst nDst nSrc fuel low mid
        else
          -- dst[nDst] = byte(got >> 24); nDst++
          let b := (got >>> 24) % 256
          match store dst nDst b with
          | none => .panic
          | some dst =>
            -- if dst[nDst-1] == 27 { dst[nDst] = 27; nDst++ }
            if b = 27 then
              match store dst (nDst + 1) 27 with
              | none => .panic
              | some dst => .done (.next dst (nDst + 2) nSrc)
            else
              .done (.next dst (nDst + 1) nSrc)

/-- The `trans` loop `for nSrc < len(src)` of `Encoder.Transform`; the
arguments are `dst`, `nDst` and `nSrc`. -/
def Encoder.loop (T : Tables) (en : Encoder) (src : List Nat) :
    Nat → List Nat → Nat → Nat → Run Result
  | 0, _, _, _ => .timeout
  | fuel + 1, dst, nDst, nSrc =>
    if nSrc < src.length then
      -- if nDst >= len(dst)-1 (signed arithmetic)
      if (nDst : Int) ≥ (dst.length : Int) - 1 then
        .done { dst := dst, nDst := nDst, nSrc := nSrc, err := .ErrShortDst }
      else
        -- r, size = utf8.DecodeRune(src[nSrc:]); nSrc += size
        let rs := DecodeRune (src.drop nSrc)
        let r := rs.1
        let size := rs.2
        let nSrc := nSrc + size
        if r = RuneError then
          -- dst[nDst] = en.replacement; nDst++; continue
          match store dst nDst en.replacement with
          | none => .panic
          | some dst => Encoder.loop T en src fuel dst (nDst + 1) nSrc
        else
          match Encoder.search T en r size dst nDst nSrc 0x81 0x00 0x80 with
          | .done (.next dst nDst nSrc) => Encoder.loop T en src fuel dst nDst nSrc
          | .done (.stop res) => .done res
          | .panic => .panic
          | .timeout => .timeout
    else
      .done { dst := dst, nDst := nDst, nSrc := nSrc, err := .nil }

/-- Go `Encoder.Transform(dst, src, atEOF)`. -/
def Encoder.Transform (T : Tables) (en : Encoder) (dst src : List Nat) (atEOF : Bool) :
    Run Result :=
  Encoder.loop T en src (src.length + 1) dst 0 0

/-- Go `utf8.EncodeRune` (as the bytes appended by `utf8.AppendRune`): the UTF-8
encoding of the rune `r`. -/
def EncodeRune (r : Nat) : List Nat :=
  if r ≤ 0x7F then [r]
  else if r ≤ 0x7FF then [0xC0 ||| ((r >>> 6) % 256), 0x80 ||| ((r % 256) &&& 0x3F)]
  else if r > 0x10FFFF ∨ (0xD800 ≤ r ∧ r ≤ 0xDFFF) then [0xEF, 0xBF, 0xBD]
  else if r ≤ 0xFFFF then
    [0xE0 ||| ((r >>> 12) % 256), 0x80 ||| (((r >>> 6) % 256) &&& 0x3F),
      0x80 ||| ((r % 256) &&& 0x3F)]
  else
    [0xF0 ||| ((r >>> 18) % 256), 0x80 ||| (((r >>> 12) % 256) &&& 0x3F),
      0x80 ||| (((r >>> 6) % 256) &&& 0x3F), 0x80 ||| ((r % 256) &&& 0x3F)]

/-- The UTF-8 bytes of a string given as its list of code points. -/
def utf8Bytes (t : List Nat) : List Nat := t.flatMap EncodeRune

/-! ## A sample instance of the tables

An instance with the shape the transformers expect: the GSM 03.38 default
alphabet and its extension table, with the published Unicode mapping
(`0x1B` paired with U+00A0).  It agrees with every row of `transTable` in
`gsm_test.go`.  The general theorems take the tables as a parameter; the
instance is where they are evaluated. -/

/-- Modelled from the spec: the table values are not among the sources.  Code
point of each GSM byte `0x00 .. 0x7F` of the sample instance. -/
def sampleAlphabet : List Nat := [
  0x0040, 0x00A3, 0x0024, 0x00A5, 0x00E8, 0x00E9, 0x00F9, 0x00EC,
  0x00F2, 0x00C7, 0x000A, 0x00D8, 0x00F8, 0x000D, 0x00C5, 0x00E5,
  0x0394, 0x005F, 0x03A6, 0x0393, 0x039B, 0x03A9, 0x03A0, 0x03A8,
  0x03A3, 0x0398, 0x039E, 0x00A0, 0x00C6, 0x00E6, 0x00DF, 0x00C9,
  0x0020, 0x0021, 0x0022, 0x0023, 0x00A4, 0x0025, 0x0026, 0x0027,
  0x0028, 0x0029, 0x002A, 0x002B, 0x002C, 0x002D, 0x002E, 0x002F,
  0x0030, 0x0031, 0x0032, 0x0033, 0x0034, 0x0035, 0x0036, 0x0037,
  0x0038, 0x0039, 0x003A, 0x003B, 0x003C, 0x003D, 0x003E, 0x003F,
  0x00A1, 0x0041, 0x0042, 0x0043, 0x0044, 0x0045, 0x0046, 0x0047,
  0x0048, 0x0049, 0x004A, 0x004B, 0x004C, 0x004D, 0x004E, 0x004F,
  0x0050, 0x0051, 0x0052, 0x0053, 0x0054, 0x0055, 0x0056, 0x0057,
  0x0058, 0x0059, 0x005A, 0x00C4, 0x00D6, 0x00D1, 0x00DC, 0x00A7,
  0x00BF, 0x0061, 0x0062, 0x0063, 0x0064, 0x0065, 0x0066, 0x0067,
  0x0068, 0x0069, 0x006A, 0x006B, 0x006C, 0x006D, 0x006E, 0x006F,
  0x0070, 0x0071, 0x0072, 0x0073, 0x0074, 0x0075, 0x0076, 0x0077,
  0x0078, 0x0079, 0x007A, 0x00E4, 0x00F6, 0x00F1, 0x00FC, 0x00E0]

/-- The `utf8Enc` entry of a code point below `0x10000`: its UTF-8 bytes
padded with zeros to three bytes, and their number. -/
def utf8EncOf (c : Nat) : utf8Enc :=
  { len := (EncodeRune c).length, data := (EncodeRune c ++ [0, 0, 0]).take 3 }

/-- Modelled from the spec: the table values are not among the sources.  Sample
`encode` table: `gsm<<24 | rune`, strictly ascending by rune. -/
def sampleEncode : List Nat := [
  0x0A00000A, 0x0D00000D, 0x20000020, 0x21000021, 0x22000022, 0x23000023,
  0x02000024, 0x25000025, 0x26000026, 0x27000027, 0x28000028, 0x29000029,
  0x2A00002A, 0x2B00002B, 0x2C00002C, 0x2D00002D, 0x2E00002E, 0x2F00002F,
  0x30000030, 0x31000031, 0x32000032, 0x33000033, 0x34000034, 0x35000035,
  0x36000036, 0x37000037, 0x38000038, 0x39000039, 0x3A00003A, 0x3B00003B,
  0x3C00003C, 0x3D00003D, 0x3E00003E, 0x3F00003F, 0x00000040, 0x41000041,
  0x42000042, 0x43000043, 0x44000044, 0x45000045, 0x46000046, 0x47000047,
  0x48000048, 0x49000049, 0x4A00004A, 0x4B00004B, 0x4C00004C, 0x4D00004D,
  0x4E00004E, 0x4F00004F, 0x50000050, 0x51000051, 0x52000052, 0x53000053,
  0x54000054, 0x55000055, 0x56000056, 0x57000057, 0x58000058, 0x59000059,
  0x5A00005A, 0x1100005F, 0x61000061, 0x62000062, 0x63000063, 0x64000064,
  0x65000065, 0x66000066, 0x67000067, 0x68000068, 0x69000069, 0x6A00006A,
  0x6B00006B, 0x6C00006C, 0x6D00006D, 0x6E00006E, 0x6F00006F, 0x70000070,
  0x71000071, 0x72000072, 0x73000073, 0x74000074, 0x75000075, 0x76000076,
  0x77000077, 0x78000078, 0x79000079, 0x7A00007A, 0x1B0000A0, 0x400000A1,
  0x010000A3, 0x240000A4, 0x030000A5, 0x5F0000A7, 0x600000BF, 0x5B0000C4,
  0x0E0000C5, 0x1C0000C6, 0x090000C7, 0x1F0000C9, 0x5D0000D1, 0x5C0000D6,
  0x0B0000D8, 0x5E0000DC, 0x1E0000DF, 0x7F0000E0, 0x7B0000E4, 0x0F0000E5,
  0x1D0000E6, 0x040000E8, 0x050000E9, 0x070000EC, 0x7D0000F1, 0x080000F2,
  0x7C0000F6, 0x0C0000F8, 0x060000F9, 0x7E0000FC, 0x13000393, 0x10000394,
  0x19000398, 0x1400039B, 0x1A00039E, 0x160003A0, 0x180003A3, 0x120003A6,
  0x170003A8, 0x150003A9]

/-- Modelled from the spec: the table values are not among the sources.  Sample
`escEncode` table: `0x1B<<24 | gsm<<16 | rune`. -/
def sampleEscEncode : List Nat := [
  0x1B0A000C, 0x1B14005E, 0x1B28007B, 0x1B29007D, 0x1B2F005C,
  0x1B3C005B, 0x1B3D007E, 0x1B3E005D, 0x1B40007C, 0x1B6520AC]

/-- Modelled from the spec: the table values are not among the sources.  Sample
`escDecode` map: the entry of the `escEncode` triple with that GSM byte, if
there is one. -/
def sampleEscDecode (g : Nat) : Option utf8Enc :=
  match sampleEscEncode.find? (fun e => ((((e <<< 8) % 4294967296) >>> 24) % 256) == g) with
  | some e => some (utf8EncOf (e &&& 0xFFFF))
  | none => none

/-- Modelled from the spec: the table values are not among the sources.  The
sample tables: 128 `decode` entries, one per GSM byte, and the tables above. -/
def sampleTables : Tables :=
  { decode := sampleAlphabet.map utf8EncOf
    escDecode := sampleEscDecode
    encode := sampleEncode
    escEncode := sampleEscEncode }

/-! ## Reference functions used in the statements -/

/-- Value of a list of bits, least significant bit first. -/
def ofBits (bs : List Bool) : Nat := bs.foldr (fun b acc => b.toNat + 2 * acc) 0

/-- Bit `p` of the bit stream of a septet sequence: bit `p % 7` of septet
`p / 7`, and 0 past the end. -/
def septetBit (S : List Nat) (p : Nat) : Bool := (S.getD (p / 7) 0).testBit (p % 7)

/-- Bit `p` of the bit stream of an octet sequence: bit `p % 8` of octet
`p / 8`, and 0 past the end. -/
def octetBit (P : List Nat) (p : Nat) : Bool := (P.getD (p / 8) 0).testBit (p % 8)

/-- Octet `k` of the reference packing: bit `j` of it is bit `8k + j` of the
septet stream. -/
def refPackByte (S : List Nat) (k : Nat) : Nat :=
  ofBits ((List.range 8).map (fun j => septetBit S (8 * k + j)))

/-- Reference 3GPP TS 23.038 packing: the septets are laid out least
significant bit first in one bit stream, padded with zero bits, and cut into
`ceil(7n/8)` octets. -/
def refPack (S : List Nat) : List Nat :=
  (List.range ((7 * S.length + 7) / 8)).map (refPackByte S)

/-- Septet `k` of the reference unpacking: the 7-bit value made of bits
`7k .. 7k+6` of the octet stream. -/
def refUnpackByte (P : List Nat) (k : Nat) : Nat :=
  ofBits ((List.range 7).map (fun j => octetBit P (7 * k + j)))

/-- Reference unpacking: the `floor(8n/7)` septets held by `n` octets read as
a bit stream, least significant bit first. -/
def refUnpack (P : List Nat) : List Nat :=
  (List.range (8 * P.length / 7)).map (refUnpackByte P)

/-- The `borrowed` byte of the unpacker after `P` has been consumed from the
Reset state: the top `n % 7` bits of the last octet. -/
def unpackCarry (P : List Nat) : Nat :=
  if P.length % 7 = 0 then 0 else P.getD (P.length - 1) 0 >>> (8 - P.length % 7)

/-- Value of the loop variable `i` of the packer at the start of iteration `k`
of a call entered with `p.s = t + 1`. -/
def packI (t k : Nat) : Nat := k + (t + k) / 7 + 1

/-- Value of `p.s` at the start of iteration `k` of a call entered with
`p.s = t + 1`. -/
def packS (t k : Nat) : Nat := (t + k) % 7 + 1

/-- The byte the packer writes in iteration `k` of a call entered with
`p.s = t + 1`. -/
def packByteAt (t : Nat) (src : List Nat) (k : Nat) : Nat :=
  shrByte (src.getD (packI t k - 1) 0) (subU32 (packS t k) 1) |||
    (if packI t k < src.length then shlByte (src.getD (packI t k) 0) (subU32 8 (packS t k))
     else 0)

/-- What one iteration of the unpacker loop does with the input byte `c` when
there is room: the bytes it writes and the new `borrowed` and `s`. -/
def unpackStep (u : SevenBitUnpacker) (c : Nat) : List Nat × SevenBitUnpacker :=
  if incU32 u.s = 8 then
    ([shrByte (shlByte c u.s) 1 ||| u.borrowed, shrByte c (subU32 8 u.s)],
      { borrowed := 0, s := 1 })
  else
    ([shrByte (shlByte c u.s) 1 ||| u.borrowed],
      { borrowed := shrByte c (subU32 8 u.s), s := incU32 u.s })

/-- The bytes written and the final state when the unpacker loop runs over
`src` with room for everything. -/
def unpackRun (u : SevenBitUnpacker) : List Nat → List Nat × SevenBitUnpacker
  | [] => ([], u)
  | c :: rest =>
    ((unpackStep u c).1 ++ (unpackRun (unpackStep u c).2 rest).1,
      (unpackRun (unpackStep u c).2 rest).2)

/-! ## Units of input

Each transformer works unit by unit: it looks at the unconsumed input, writes
the bytes of its first unit if the room left suffices, and goes on after it. -/

/-- One unit of input as a transformer sees it: the bytes written for it
(`out`), the number of input bytes it takes (`width`), and the room that must
be left in the destination for the transformer to process it (`need`). -/
structure Segment where
  out : List Nat
  width : Nat
  need : Nat
  deriving DecidableEq, Repr

/-- The units of `src`, the first unit of a non-empty input being given by
`first`; the first argument bounds the number of units (`src.length` is
enough). -/
def segmentsAux (first : List Nat → Segment) : Nat → List Nat → List Segment
  | 0, _ => []
  | _ + 1, [] => []
  | fuel + 1, c :: rest =>
    first (c :: rest) :: segmentsAux first fuel ((c :: rest).drop (first (c :: rest)).width)

/-- The units of `src`. -/
def segments (first : List Nat → Segment) (src : List Nat) : List Segment :=
  segmentsAux first src.length src

/-- Go `copy(dst[n:], out)` for `out` that fits: the destination with `out`
written at index `n`. -/
def writeAt (dst : List Nat) (n : Nat) (out : List Nat) : List Nat :=
  dst.take n ++ out ++ dst.drop (n + out.length)

/-- Unit-level run of a transformer: process the units in order while the room
left in `dst` is at least the `need` of the next unit; the result is what
`Transform` returns. -/
def runSegs : List Segment → List Nat → Nat → Nat → Result
  | [], dst, nDst, nSrc => { dst := dst, nDst := nDst, nSrc := nSrc, err := .nil }
  | u :: us, dst, nDst, nSrc =>
    if dst.length - nDst < u.need then
      { dst := dst, nDst := nDst, nSrc := nSrc, err := .ErrShortDst }
    else
      runSegs us (writeAt dst nDst u.out) (nDst + u.out.length) (nSrc + u.width)

/-- The bytes of a table entry: `data[:len]`. -/
def utf8Enc.bytes (e : utf8Enc) : List Nat := e.data.take e.len

/-- The table entry that decodes the unit starting with the GSM byte `c`
followed by `next` (if any), and the number of bytes of the unit: the
escape-table entry and 2 when `c` is `0x1B` and `next` is present in the escape
table, otherwise the ordinary entry of `c` and 1. -/
def decEntry (T : Tables) (c : Nat) (next : Option Nat) : utf8Enc × Nat :=
  match (if c = 0x1B then next.bind T.escDecode else none) with
  | some e => (e, 2)
  | none => (T.decode.getD c { len := 0, data := [] }, 1)

/-- First unit of a GSM byte sequence as the decoder sees it. -/
def decFirst (T : Tables) (p : List Nat) : Segment :=
  match p with
  | [] => { out := [], width := 0, need := 0 }
  | c :: rest =>
    { out := (decEntry T c rest.head?).1.bytes, width := (decEntry T c rest.head?).2,
      need := (decEntry T c rest.head?).1.len }

/-- The tables are defined on `src`: every byte of `src` indexes an entry of
`decode`, and every entry that can be used holds at least `len` bytes. -/
def decodeDefinedOn (T : Tables) (src : List Nat) : Prop :=
  (∀ c ∈ src, c < T.decode.length) ∧ (∀ e ∈ T.decode, e.len ≤ e.data.length) ∧
    (∀ k e, T.escDecode k = some e → e.len ≤ e.data.length)

/-- Number of leading units that are processed when `cap` bytes of room are
left: a unit is processed when the room left is at least its `need`. -/
def fitCount : Nat → List Segment → Nat
  | _, [] => 0
  | cap, u :: us => if cap < u.need then 0 else 1 + fitCount (cap - u.out.length) us

/-- The bytes written for a list of units. -/
def outOf (us : List Segment) : List Nat := us.flatMap (fun u => u.out)

/-- The number of input bytes taken by a list of units. -/
def widthOf (us : List Segment) : Nat := (us.map (fun u => u.width)).sum

/-! ## Encoder: units -/

/-- Plain linear lookup of the rune `r` in the 128 entries of `encode` that
the encoder searches: the first entry whose low 16 bits are `r`. -/
def encLookup (T : Tables) (r : Nat) : Option Nat :=
  (T.encode.take 0x80).find? (fun e => e &&& 0xFFFF == r)

/-- Linear scan of `escEncode` for the rune `r`: the first entry whose low 16
bits are `r`. -/
def extLookup (T : Tables) (r : Nat) : Option Nat :=
  T.escEncode.find? (fun e => e &&& 0xFFFF == r)

/-- First unit of a UTF-8 byte sequence as the encoder sees it: the rune that
`utf8.DecodeRune` returns and its width.  A unit decoded as U+FFFD (an invalid
unit, or the encoding `EF BF BD` itself) gives the replacement byte; a rune
found in `encode` gives its GSM byte (twice when it is `0x1B`); otherwise the
first `escEncode` entry with that rune gives the pair (escape byte, GSM byte),
which the encoder writes only when three bytes of room are left; otherwise the
replacement byte. -/
def encFirst (T : Tables) (en : Encoder) (p : List Nat) : Segment :=
  if (DecodeRune p).1 = RuneError then
    { out := [en.replacement], width := (DecodeRune p).2, need := 2 }
  else
    match encLookup T (DecodeRune p).1 with
    | some got =>
      { out := if (got >>> 24) % 256 = 27 then [27, 27] else [(got >>> 24) % 256],
        width := (DecodeRune p).2, need := 2 }
    | none =>
      match extLookup T (DecodeRune p).1 with
      | some e =>
        { out := [(e >>> 24) % 256, (((e <<< 8) % 4294967296) >>> 24) % 256],
          width := (DecodeRune p).2, need := 3 }
      | none => { out := [en.replacement], width := (DecodeRune p).2, need := 2 }

/-- Reference encoding of the first unit of a UTF-8 byte sequence, in the
words of the specification: an invalid UTF-8 unit (`DecodeRune` reports
`RuneError` with width 1) gives the replacement byte; a code point present in
the encode table with GSM byte `b` gives `[b]`, or `[0x1B, 0x1B]` when `b` is
`0x1B`; otherwise the first extension entry with that code point gives
`[escape byte, GSM byte]`; otherwise the replacement byte. -/
def refEncFirst (T : Tables) (en : Encoder) (p : List Nat) : Segment :=
  if (DecodeRune p).1 = RuneError ∧ (DecodeRune p).2 = 1 then
    { out := [en.replacement], width := (DecodeRune p).2, need := 2 }
  else
    match encLookup T (DecodeRune p).1 with
    | some got =>
      { out := if (got >>> 24) % 256 = 27 then [27, 27] else [(got >>> 24) % 256],
        width := (DecodeRune p).2, need := 2 }
    | none =>
      match extLookup T (DecodeRune p).1 with
      | some e =>
        { out := [(e >>> 24) % 256, (((e <<< 8) % 4294967296) >>> 24) % 256],
          width := (DecodeRune p).2, need := 3 }
      | none => { out := [en.replacement], width := (DecodeRune p).2, need := 2 }

/-- The encode table has the 128 entries that the encoder searches, strictly
ascending by code point (the low 16 bits of an entry). -/
def encodeSorted (T : Tables) : Prop :=
  128 ≤ T.encode.length ∧
    ∀ i, i < 127 → T.encode.getD i 0 &&& 0xFFFF < T.encode.getD (i + 1) 0 &&& 0xFFFF

/-- Modelled from the spec: the table values are not among the sources.  The
sample tables with the last entry of `encode` (GSM byte `0x15`) paired with
U+FFFD instead of U+03A9; the table is still strictly ascending. -/
def fffdTables : Tables :=
  { decode := sampleTables.decode
    escDecode := sampleEscDecode
    encode := sampleEncode.take 127 ++ [0x1500FFFD]
    escEncode := sampleEscEncode }

/-! ## Tables that agree with each other -/

/-- GSM byte of an `escEncode` entry: Go `byte((e << 8) >> 24)` on a `uint32`. -/
def extGsm (e : Nat) : Nat := (((e <<< 8) % 4294967296) >>> 24) % 256

/-- The tables have the shape of the data model and agree with each other:
`decode` has an entry for each of the 128 GSM bytes; every entry holds `len` bytes; the `decode` entry of
the GSM byte of each of the 128 `encode` entries is the UTF-8 encoding of the
code point of that entry; and every `escEncode` entry has the escape byte
`0x1B`, a GSM byte below 128, and an `escDecode` entry that is the UTF-8
encoding of its code point. -/
def tablesConsistent (T : Tables) : Prop :=
  128 ≤ T.decode.length ∧
  (∀ e ∈ T.decode, e.len ≤ e.data.length) ∧
  (∀ k e, T.escDecode k = some e → e.len ≤ e.data.length) ∧
  (∀ e ∈ T.encode.take 0x80, (e >>> 24) % 256 < 128 ∧
    (T.decode.getD ((e >>> 24) % 256) { len := 0, data := [] }).bytes =
      EncodeRune (e &&& 0xFFFF)) ∧
  (∀ e ∈ T.escEncode, (e >>> 24) % 256 = 0x1B ∧ extGsm e < 128 ∧
    (T.escDecode (extGsm e)).map utf8Enc.bytes = some (EncodeRune (e &&& 0xFFFF)))

/-- The code point `c` can be written in the GSM alphabet of the tables and
read back: it is a Unicode scalar value other than U+FFFD, it occurs in
`encode` (among the 128 entries searched) or in `escEncode`, and if `encode`
pairs it with the GSM byte `0x1B`, which the encoder writes twice, then the
`escDecode` entry of `0x1B` is the UTF-8 encoding of `c`, so that the decoder
reads `1B 1B` as one unit that gives `c` back. -/
def representable (T : Tables) (c : Nat) : Prop :=
  c ≠ RuneError ∧ (c < 0xD800 ∨ 0xE000 ≤ c) ∧
  (∀ e ∈ T.encode.take 0x80, e &&& 0xFFFF = c → (e >>> 24) % 256 = 27 →
    (T.escDecode 27).map utf8Enc.bytes = some (EncodeRune c)) ∧
  ((∃ e ∈ T.encode.take 0x80, e &&& 0xFFFF = c) ∨ (∃ e ∈ T.escEncode, e &&& 0xFFFF = c))

/-- Modelled from the spec: the table values are not among the sources.  The
sample tables with one more `escDecode` entry: the GSM byte `0x1B` after the
escape byte `0x1B` gives U+00A0, the code point that `encode` pairs with
`0x1B`. -/
def escTables : Tables :=
  { decode := sampleTables.decode
    escDecode := fun g => if g = 0x1B then some (utf8EncOf 0xA0) else sampleEscDecode g
    encode := sampleEncode
    escEncode := sampleEscEncode }

/-- Modelled from the spec: the table values are not among the sources.  The
sample tables with the GSM byte `0x15` paired with U+FFFD instead of U+03A9 in
both directions: in `encode` (as in `fffdTables`) and in `decode`. -/
def fffdAgreeTables : Tables :=
  { decode := (sampleAlphabet.set 0x15 0xFFFD).map utf8EncOf
    escDecode := sampleEscDecode
    encode := sampleEncode.take 127 ++ [0x1500FFFD]
    escEncode := sampleEscEncode }


/-! ## Sequences of calls -/

/-- A finite sequence of `Transform` calls on one packer: each call is given
as `(dst, src, atEOF)`, the state left by a call is the state the next one
starts from; the result is the state after the last call. -/
def SevenBitPacker.calls (p : SevenBitPacker) :
    List (List Nat × List Nat × Bool) → Run SevenBitPacker
  | [] => .done p
  | c :: rest =>
    match p.Transform c.1 c.2.1 c.2.2 with
    | .done (_, p') => SevenBitPacker.calls p' rest
    | .panic => .panic
    | .timeout => .timeout

/-- A finite sequence of `Transform` calls on one unpacker, as
`SevenBitPacker.calls`. -/
def SevenBitUnpacker.calls (u : SevenBitUnpacker) :
    List (List Nat × List Nat × Bool) → Run SevenBitUnpacker
  | [] => .done u
  | c :: rest =>
    match u.Transform c.1 c.2.1 c.2.2 with
    | .done (_, u') => SevenBitUnpacker.calls u' rest
    | .panic => .panic
    | .timeout => .timeout


/-! ## Encoder: units without an assumption on the order of the table -/

/-- The search loop of `Encoder.Transform` as a function: the entry of
`encode[low:high]` at which the binary search stops, or `none` when it ends
with `low >= high`; the first argument bounds the number of iterations. -/
def Encoder.find (T : Tables) (r : Nat) : Nat → Nat → Nat → Option Nat
  | 0, _, _ => none
  | fuel + 1, low, high =>
    if low ≥ high then none
    else if T.encode.getD ((low + high) / 2) 0 &&& 0xFFFF < r then
      Encoder.find T r fuel ((low + high) / 2 + 1) high
    else if T.encode.getD ((low + high) / 2) 0 &&& 0xFFFF > r then
      Encoder.find T r fuel low ((low + high) / 2)
    else some (T.encode.getD ((low + high) / 2) 0)

/-- First unit of a UTF-8 byte sequence as the encoder sees it, with the
binary search of the encoder itself in place of the linear lookup of
`encFirst`; the two agree when the table is strictly ascending. -/
def encUnit (T : Tables) (en : Encoder) (p : List Nat) : Segment :=
  if (DecodeRune p).1 = RuneError then
    { out := [en.replacement], width := (DecodeRune p).2, need := 2 }
  else
    match Encoder.find T (DecodeRune p).1 0x81 0x00 0x80 with
    | some got =>
      { out := if (got >>> 24) % 256 = 27 then [27, 27] else [(got >>> 24) % 256],
        width := (DecodeRune p).2, need := 2 }
    | none =>
      match extLookup T (DecodeRune p).1 with
      | some e =>
        { out := [(e >>> 24) % 256, (((e <<< 8) % 4294967296) >>> 24) % 256],
          width := (DecodeRune p).2, need := 3 }
      | none => { out := [en.replacement], width := (DecodeRune p).2, need := 2 }


/-- Driving a packer through DestinationFull: `Transform` is called on the
input that is still unconsumed with the next destination buffer until a call
returns status OK or the buffers run out.  The result is the written parts of
the buffers concatenated, the sum of the consumed counts, the status of the
last call (DestinationFull when no buffer is left) and the final state. -/
def SevenBitPacker.drive (atEOF : Bool) :
    List (List Nat) → SevenBitPacker → List Nat → Run (List Nat × Nat × Err × SevenBitPacker)
  | [], p, _ => .done ([], 0, .ErrShortDst, p)
  | dst :: rest, p, src =>
    match p.Transform dst src atEOF with
    | .done (r, p') =>
      if r.err = .nil then .done (r.dst.take r.nDst, r.nSrc, .nil, p')
      else
        match SevenBitPacker.drive atEOF rest p' (src.drop r.nSrc) with
        | .done (out, n, e, q) => .done (r.dst.take r.nDst ++ out, r.nSrc + n, e, q)
        | .panic => .panic
        | .timeout => .timeout
    | .panic => .panic
    | .timeout => .timeout

end Gsm


namespace Gsm

/-! ## Lists as destination slices -/

theorem take_set_succ (dst : List Nat) (n v : Nat) (h : n < dst.length) :
    (dst.set n v).take (n + 1) = dst.take n ++ [v] := by
  induction dst generalizing n with
  | nil => simp at h
  | cons a l ih =>
    cases n with
    | zero => simp
    | succ m =>
      simp only [List.length_cons, Nat.add_lt_add_iff_right] at h
      simp [List.set_cons_succ, List.take_succ_cons, ih m h]

theorem drop_set_gt (dst : List Nat) (n m v : Nat) (h : n < m) :
    (dst.set n v).drop m = dst.drop m := by
  induction dst generalizing n m with
  | nil => simp
  | cons a l ih =>
    cases m with
    | zero => omega
    | succ m' =>
      cases n with
      | zero => simp
      | succ n' => simp [List.set_cons_succ, ih n' m' (by omega)]

/-! ## SevenBitPacker: the loop -/

theorem pack_loop_steps (src : List Nat) (t : Nat) (cnt : Nat) :
    ∀ (fuel k nDst : Nat) (dst : List Nat),
      (cnt = 0 ∨ packI t (k + cnt - 1) ≤ src.length) →
      nDst + cnt ≤ dst.length →
      SevenBitPacker.loop src (fuel + cnt) dst nDst (packI t k - 1) (packI t k) (packS t k) =
        SevenBitPacker.loop src fuel
          (dst.take nDst ++ (List.range' k cnt).map (packByteAt t src) ++ dst.drop (nDst + cnt))
          (nDst + cnt) (packI t (k + cnt) - 1) (packI t (k + cnt)) (packS t (k + cnt)) := by
  induction cnt with
  | zero => intro fuel k nDst dst _ _; simp
  | succ c ih =>
    intro fuel k nDst dst hc hd
    have hi : packI t k ≤ src.length := by
      rcases hc with hc | hc
      · omega
      · unfold packI at hc ⊢; omega
    have hn : ¬ nDst ≥ dst.length := by omega
    have hs : packS t k < 8 := by unfold packS; omega
    rw [show fuel + (c + 1) = (fuel + c) + 1 from rfl, SevenBitPacker.loop]
    simp only [hi, hn, if_true, if_false]
    have hstep : ∀ d : List Nat,
        (if incU32 (packS t k) = 8 then
          SevenBitPacker.loop src (fuel + c) d (nDst + 1) (packI t k - 1 + 1 + 1)
            (packI t k + 1 + 1) 1
        else
          SevenBitPacker.loop src (fuel + c) d (nDst + 1) (packI t k - 1 + 1)
            (packI t k + 1) (incU32 (packS t k))) =
        SevenBitPacker.loop src (fuel + c) d (nDst + 1) (packI t (k + 1) - 1)
          (packI t (k + 1)) (packS t (k + 1)) := by
      intro d
      by_cases h6 : (t + k) % 7 = 6
      · have e1 : incU32 (packS t k) = 8 := by unfold incU32 packS; omega
        have e2 : packI t k + 1 + 1 = packI t (k + 1) := by unfold packI; omega
        have e3 : packI t k - 1 + 1 + 1 = packI t (k + 1) - 1 := by unfold packI; omega
        have e4 : packS t (k + 1) = 1 := by unfold packS; omega
        rw [if_pos e1, e2, e3, e4]
      · have e1 : incU32 (packS t k) = packS t (k + 1) := by unfold incU32 packS; omega
        have e1b : ¬ incU32 (packS t k) = 8 := by unfold incU32 packS; omega
        have e2 : packI t k + 1 = packI t (k + 1) := by unfold packI; omega
        have e3 : packI t k - 1 + 1 = packI t (k + 1) - 1 := by unfold packI; omega
        rw [if_neg e1b, e1, e2, e3]
    rw [hstep]
    have hc2 : c = 0 ∨ packI t (k + 1 + c - 1) ≤ src.length := by
      rcases hc with hc | hc
      · omega
      · right
        have : k + 1 + c - 1 = k + (c + 1) - 1 := by omega
        rw [this]; exact hc
    have hd2 : nDst + 1 + c ≤ (dst.set nDst (packByteAt t src k)).length := by
      simp only [List.length_set]; omega
    have := ih fuel (k + 1) (nDst + 1) (dst.set nDst (packByteAt t src k)) hc2 hd2
    unfold packByteAt at this ⊢
    rw [this]
    have hl : nDst < dst.length := by omega
    rw [take_set_succ _ _ _ hl, drop_set_gt _ _ _ _ (by omega : nDst < nDst + 1 + c)]
    simp only [List.range'_succ, List.map_cons, List.append_assoc, List.singleton_append,
      List.cons_append, List.nil_append]
    have a1 : nDst + 1 + c = nDst + (c + 1) := by omega
    have a2 : k + 1 + c = k + (c + 1) := by omega
    rw [a1, a2]

/-- One call of the packer entered with `p.s = t + 1` and room for all `M`
output bytes. -/
theorem pack_transform_from (src dst : List Nat) (atEOF : Bool) (t M : Nat) (ht : t < 7)
    (hM1 : M = 0 ∨ packI t (M - 1) ≤ src.length) (hM2 : src.length < packI t M)
    (hd : M ≤ dst.length) :
    SevenBitPacker.Transform { s := t + 1 } dst src atEOF =
      .done ({ dst := (List.range M).map (packByteAt t src) ++ dst.drop M, nDst := M,
               nSrc := packI t M - 1, err := .nil }, { s := packS t M }) := by
  have hMn : M ≤ src.length := by
    rcases hM1 with h | h
    · omega
    · unfold packI at h; omega
  have h0 : packI t 0 = 1 := by unfold packI; omega
  have hs0 : packS t 0 = t + 1 := by unfold packS; omega
  have key := pack_loop_steps src t M (src.length + 1 - M) 0 0 dst
    (by rcases hM1 with h | h
        · left; exact h
        · right; simpa using h)
    (by omega)
  rw [h0, hs0] at key
  unfold SevenBitPacker.Transform
  rw [show src.length + 1 = src.length + 1 - M + M by omega]
  simp only [Nat.sub_self] at key
  rw [key]
  obtain ⟨f, hf⟩ : ∃ f, src.length + 1 - M = f + 1 := ⟨src.length - M, by omega⟩
  rw [hf, SevenBitPacker.loop]
  have hne : ¬ packI t M ≤ src.length := by omega
  simp only [Nat.zero_add, List.take_zero, List.nil_append, List.range_eq_range', hne, if_false]

theorem getD_lt_of_forall (S : List Nat) (b : Nat) (hb : 0 < b) (hS : ∀ x ∈ S, x < b)
    (i : Nat) : S.getD i 0 < b := by
  rw [List.getD_eq_getElem?_getD]
  cases h : S[i]? with
  | none => simpa using hb
  | some v =>
    have := List.getElem?_mem h
    simpa using hS v this

theorem testBit_false_of_lt (a n i : Nat) (ha : a < 2 ^ n) (hi : n ≤ i) : a.testBit i = false :=
  Nat.testBit_lt_two_pow (Nat.lt_of_lt_of_le ha (Nat.pow_le_pow_right (by decide) hi))

theorem getD_eq_zero_of_le (S : List Nat) (i : Nat) (h : S.length ≤ i) : S.getD i 0 = 0 := by
  rw [List.getD_eq_getElem?_getD, List.getElem?_eq_none h]; rfl

/-- Bit `j` of the `k`-th byte written from the Reset state is bit `8k + j` of
the septet stream. -/
theorem packByteAt_testBit (S : List Nat) (hS : ∀ x ∈ S, x < 128) (k j : Nat) (hj : j < 8) :
    (packByteAt 0 S k).testBit j = septetBit S (8 * k + j) := by
  have hr : k % 7 < 7 := Nat.mod_lt _ (by decide)
  have e1 : subU32 (packS 0 k) 1 = k % 7 := by unfold subU32 packS; omega
  have e2 : subU32 8 (packS 0 k) = 7 - k % 7 := by unfold subU32 packS; omega
  have e3 : packI 0 k - 1 = k + k / 7 := by unfold packI; omega
  have e4 : packI 0 k = k + k / 7 + 1 := by unfold packI; omega
  have hnext : (if packI 0 k < S.length then
        shlByte (S.getD (packI 0 k) 0) (subU32 8 (packS 0 k)) else 0) =
      shlByte (S.getD (packI 0 k) 0) (subU32 8 (packS 0 k)) := by
    split
    · rfl
    · rw [getD_eq_zero_of_le S _ (by omega)]
      unfold shlByte; split <;> simp
  unfold packByteAt
  rw [hnext, e1, e2, e3, e4]
  unfold shrByte shlByte septetBit
  rw [if_pos (by omega), if_pos (by omega)]
  have ha := getD_lt_of_forall S 128 (by decide) hS (k + k / 7)
  rw [Nat.testBit_or, Nat.testBit_shiftRight, show (256 : Nat) = 2 ^ 8 from rfl,
    Nat.testBit_mod_two_pow, Nat.testBit_shiftLeft]
  by_cases hlt : k % 7 + j < 7
  · have d1 : (8 * k + j) / 7 = k + k / 7 := by omega
    have d2 : (8 * k + j) % 7 = k % 7 + j := by omega
    rw [d1, d2]
    have : ¬ j ≥ 7 - k % 7 := by omega
    simp [this]
  · have d1 : (8 * k + j) / 7 = k + k / 7 + 1 := by omega
    have d2 : (8 * k + j) % 7 = j - (7 - k % 7) := by omega
    rw [d1, d2, testBit_false_of_lt _ 7 _ ha (by omega)]
    have : j ≥ 7 - k % 7 := by omega
    simp [this, hj]

theorem packByteAt_lt (S : List Nat) (hS : ∀ x ∈ S, x < 128) (t k : Nat) :
    packByteAt t S k < 256 := by
  unfold packByteAt
  apply Nat.or_lt_two_pow (n := 8)
  · unfold shrByte
    split
    · exact Nat.lt_of_le_of_lt (by rw [Nat.shiftRight_eq_div_pow]; exact Nat.div_le_self _ _)
        (Nat.lt_trans (getD_lt_of_forall S 128 (by decide) hS _) (by decide))
    · decide
  · split
    · unfold shlByte
      split
      · exact Nat.mod_lt _ (by decide)
      · decide
    · decide

set_option maxRecDepth 100000 in
theorem ofBits_testBit_8 : ∀ x < 256, ofBits ((List.range 8).map (fun j => x.testBit j)) = x := by
  decide

set_option maxRecDepth 100000 in
theorem ofBits_testBit_7 : ∀ x < 128, ofBits ((List.range 7).map (fun j => x.testBit j)) = x := by
  decide

theorem packByteAt_eq_ref (S : List Nat) (hS : ∀ x ∈ S, x < 128) (k : Nat) :
    packByteAt 0 S k = refPackByte S k := by
  unfold refPackByte
  have h := ofBits_testBit_8 _ (packByteAt_lt S hS 0 k)
  rw [← h]
  refine congrArg ofBits (List.map_congr_left ?_)
  intro j hj
  exact packByteAt_testBit S hS k j (by simpa using hj)

/-- The packer from the Reset state with enough room writes the reference
packing. -/
theorem pack_reset_eq (S dst : List Nat) (atEOF : Bool) (hS : ∀ x ∈ S, x < 128)
    (hd : (7 * S.length + 7) / 8 ≤ dst.length) :
    SevenBitPacker.Transform { s := 1 } dst S atEOF =
      .done ({ dst := refPack S ++ dst.drop ((7 * S.length + 7) / 8),
               nDst := (7 * S.length + 7) / 8,
               nSrc := packI 0 ((7 * S.length + 7) / 8) - 1, err := .nil },
             { s := packS 0 ((7 * S.length + 7) / 8) }) := by
  have h := pack_transform_from S dst atEOF 0 ((7 * S.length + 7) / 8) (by decide)
    (by unfold packI; omega) (by unfold packI; omega) hd
  rw [show (0 : Nat) + 1 = 1 from rfl] at h
  rw [h]
  have : (List.range ((7 * S.length + 7) / 8)).map (packByteAt 0 S) = refPack S := by
    unfold refPack
    apply List.map_congr_left
    intro k _
    exact packByteAt_eq_ref S hS k
  rw [this]

/-! ## SevenBitUnpacker: the loop -/

theorem take_append_drop_set (dst : List Nat) (n v : Nat) (out : List Nat)
    (h : n < dst.length) :
    (dst.set n v).take (n + 1) ++ out ++ (dst.set n v).drop (n + 1 + out.length) =
      dst.take n ++ (v :: out) ++ dst.drop (n + (v :: out).length) := by
  rw [take_set_succ _ _ _ h, drop_set_gt _ _ _ _ (by omega)]
  simp only [List.append_assoc, List.singleton_append, List.length_cons]
  rw [show n + 1 + out.length = n + (out.length + 1) by omega]

theorem unpack_loop_eq (src : List Nat) :
    ∀ (fuel j nDst nSrc b s : Nat) (dst : List Nat),
      src.length < fuel + j → j ≤ src.length →
      nDst + (unpackRun { borrowed := b, s := s } (src.drop j)).1.length ≤ dst.length →
      SevenBitUnpacker.loop src fuel dst nDst nSrc j b s =
        .done ({ dst := dst.take nDst ++ (unpackRun { borrowed := b, s := s } (src.drop j)).1 ++
                   dst.drop (nDst + (unpackRun { borrowed := b, s := s } (src.drop j)).1.length),
                 nDst := nDst + (unpackRun { borrowed := b, s := s } (src.drop j)).1.length,
                 nSrc := nSrc + (src.length - j), err := .nil },
               (unpackRun { borrowed := b, s := s } (src.drop j)).2) := by
  intro fuel
  induction fuel with
  | zero => intro j nDst nSrc b s dst hf hjl; omega
  | succ f ih =>
    intro j nDst nSrc b s dst hf hjl hroom
    rw [SevenBitUnpacker.loop]
    by_cases hj : j < src.length
    · have hdrop : src.drop j = src.getD j 0 :: src.drop (j + 1) := by
        rw [List.drop_eq_getElem_cons hj]
        congr 1
        rw [List.getD_eq_getElem?_getD, List.getElem?_eq_getElem hj]; rfl
      rw [hdrop] at hroom ⊢
      simp only [unpackRun] at hroom ⊢
      simp only [hj, if_true]
      by_cases h8 : incU32 s = 8
      · have hst : unpackStep { borrowed := b, s := s } (src.getD j 0) =
            ([shrByte (shlByte (src.getD j 0) s) 1 ||| b, shrByte (src.getD j 0) (subU32 8 s)],
              { borrowed := 0, s := 1 }) := by
          unfold unpackStep; simp [h8]
        rw [hst] at hroom ⊢
        simp only [List.length_append, List.length_cons, List.length_nil] at hroom
        have h1 : ¬ nDst ≥ dst.length := by omega
        have h2 : nDst + 1 < (dst.set nDst
            (shrByte (shlByte (src.getD j 0) s) 1 ||| b)).length := by
          simp only [List.length_set]; omega
        simp only [h1, if_false, h8, if_true, h2]
        rw [ih (j + 1) (nDst + 1 + 1) (nSrc + 1) 0 1 _ (by omega) (by omega)
          (by simp only [List.length_set]; omega)]
        congr 1
        congr 1
        · congr 1
          · have hl : nDst < dst.length := by omega
            have hl2 : nDst + 1 < (dst.set nDst
                (shrByte (shlByte (src.getD j 0) s) 1 ||| b)).length := h2
            rw [take_append_drop_set _ _ _ _ hl2, take_append_drop_set _ _ _ _ hl]
            simp
          · simp only [List.length_append, List.length_cons, List.length_nil]; omega
          · omega
      · have hst : unpackStep { borrowed := b, s := s } (src.getD j 0) =
            ([shrByte (shlByte (src.getD j 0) s) 1 ||| b],
              { borrowed := shrByte (src.getD j 0) (subU32 8 s), s := incU32 s }) := by
          unfold unpackStep; simp [h8]
        rw [hst] at hroom ⊢
        simp only [List.length_append, List.length_cons, List.length_nil] at hroom
        have h1 : ¬ nDst ≥ dst.length := by omega
        simp only [h1, if_false, h8]
        rw [ih (j + 1) (nDst + 1) (nSrc + 1) _ _ _ (by omega) (by omega)
          (by simp only [List.length_set]; omega)]
        congr 1
        congr 1
        · congr 1
          · have hl : nDst < dst.length := by omega
            rw [take_append_drop_set _ _ _ _ hl]
            simp
          · simp only [List.length_append, List.length_cons, List.length_nil]; omega
          · omega
    · have hnil : src.drop j = [] := List.drop_eq_nil_of_le (by omega)
      rw [hnil]
      simp only [hj, if_false, unpackRun, List.length_nil, Nat.add_zero, List.append_nil,
        List.take_append_drop]
      have : src.length - j = 0 := by omega
      rw [this]
      rfl

theorem unpackRun_append (u : SevenBitUnpacker) (A B : List Nat) :
    unpackRun u (A ++ B) =
      ((unpackRun u A).1 ++ (unpackRun (unpackRun u A).2 B).1,
        (unpackRun (unpackRun u A).2 B).2) := by
  induction A generalizing u with
  | nil => simp [unpackRun]
  | cons a l ih => simp [unpackRun, ih]

/-- One call of the unpacker entered with `s != 8` and room for everything. -/
theorem unpack_transform_eq (u : SevenBitUnpacker) (dst src : List Nat) (atEOF : Bool)
    (hs : u.s ≠ 8) (hroom : (unpackRun u src).1.length ≤ dst.length) :
    SevenBitUnpacker.Transform u dst src atEOF =
      .done ({ dst := (unpackRun u src).1 ++ dst.drop (unpackRun u src).1.length,
               nDst := (unpackRun u src).1.length, nSrc := src.length, err := .nil },
             (unpackRun u src).2) := by
  unfold SevenBitUnpacker.Transform
  rw [if_neg hs]
  have := unpack_loop_eq src (src.length + 1) 0 0 0 u.borrowed u.s dst (by omega) (by omega)
    (by simpa using hroom)
  simpa using this

/-! ## SevenBitUnpacker: bits -/

theorem eight_mul_div_seven (n : Nat) : 8 * n / 7 = n + n / 7 := by omega

theorem octetBit_append_left (P : List Nat) (c p : Nat) (h : p < 8 * P.length) :
    octetBit (P ++ [c]) p = octetBit P p := by
  unfold octetBit
  rw [List.getD_append _ _ _ _ (by omega)]

theorem refUnpackByte_append_left (P : List Nat) (c k : Nat) (h : 7 * k + 7 ≤ 8 * P.length) :
    refUnpackByte (P ++ [c]) k = refUnpackByte P k := by
  unfold refUnpackByte
  refine congrArg ofBits (List.map_congr_left ?_)
  intro j hj
  have : j < 7 := by simpa using hj
  exact octetBit_append_left P c _ (by omega)

/-- The first byte written for the input byte `c` that follows `P`. -/
theorem unpack_first_eq (P : List Nat) (c : Nat) (hP : ∀ x ∈ P, x < 256) (hc : c < 256) :
    shrByte (shlByte c (P.length % 7 + 1)) 1 ||| unpackCarry P =
      refUnpackByte (P ++ [c]) (8 * P.length / 7) := by
  have hr : P.length % 7 < 7 := Nat.mod_lt _ (by decide)
  have hv := getD_lt_of_forall P 256 (by decide) hP (P.length - 1)
  have hcar : unpackCarry P < 2 ^ 7 := by
    unfold unpackCarry
    split
    · decide
    · rw [Nat.shiftRight_eq_div_pow]
      have h2 : 2 ^ 2 ≤ 2 ^ (8 - P.length % 7) := Nat.pow_le_pow_right (by decide) (by omega)
      have h3 : P.getD (P.length - 1) 0 / 2 ^ (8 - P.length % 7) ≤
          P.getD (P.length - 1) 0 / 2 ^ 2 := Nat.div_le_div_left h2 (by decide)
      have h4 : P.getD (P.length - 1) 0 / 2 ^ 2 < 2 ^ 7 := by
        rw [Nat.div_lt_iff_lt_mul (by decide)]
        exact Nat.lt_trans hv (by decide)
      omega
  have hout : shrByte (shlByte c (P.length % 7 + 1)) 1 ||| unpackCarry P < 128 := by
    apply Nat.or_lt_two_pow (n := 7) _ hcar
    unfold shrByte shlByte
    rw [if_pos (by decide), if_pos (by omega), Nat.shiftRight_eq_div_pow]
    have := Nat.mod_lt (c <<< (P.length % 7 + 1)) (by decide : 0 < 256)
    omega
  unfold refUnpackByte
  rw [← ofBits_testBit_7 _ hout]
  refine congrArg ofBits (List.map_congr_left ?_)
  intro j hj
  have hj7 : j < 7 := by simpa using hj
  rw [eight_mul_div_seven]
  unfold shrByte shlByte octetBit
  rw [if_pos (by decide), if_pos (by omega), Nat.testBit_or, Nat.testBit_shiftRight,
    show (256 : Nat) = 2 ^ 8 from rfl, Nat.testBit_mod_two_pow, Nat.testBit_shiftLeft]
  by_cases hlt : j < P.length % 7
  · have hn : 0 < P.length := by
      rcases Nat.eq_zero_or_pos P.length with h | h
      · rw [h] at hlt; omega
      · exact h
    have d1 : (7 * (P.length + P.length / 7) + j) / 8 = P.length - 1 := by omega
    have d2 : (7 * (P.length + P.length / 7) + j) % 8 = 8 - P.length % 7 + j := by omega
    rw [d1, d2, List.getD_append _ _ _ _ (by omega)]
    have hne : ¬ P.length % 7 = 0 := by omega
    have : ¬ 1 + j ≥ P.length % 7 + 1 := by omega
    unfold unpackCarry
    rw [if_neg hne, Nat.testBit_shiftRight]
    simp [this]
  · have d1 : (7 * (P.length + P.length / 7) + j) / 8 = P.length := by omega
    have d2 : (7 * (P.length + P.length / 7) + j) % 8 = j - P.length % 7 := by omega
    rw [d1, d2, List.getD_append_right _ _ _ _ (by omega)]
    have hz : (unpackCarry P).testBit j = false := by
      unfold unpackCarry
      split
      · simp
      · rw [Nat.testBit_shiftRight]
        exact testBit_false_of_lt _ 8 _ hv (by omega)
    have h1 : 1 + j < 8 := by omega
    have h2 : 1 + j ≥ P.length % 7 + 1 := by omega
    have h3 : 1 + j - (P.length % 7 + 1) = j - P.length % 7 := by omega
    rw [hz]
    simp [h1, h2, h3]

/-- The second byte written for the seventh input byte of a group. -/
theorem unpack_second_eq (P : List Nat) (c : Nat) (hc : c < 256) (h6 : P.length % 7 = 6) :
    shrByte c 1 = refUnpackByte (P ++ [c]) (8 * P.length / 7 + 1) := by
  have hout : shrByte c 1 < 128 := by
    unfold shrByte
    rw [if_pos (by decide), Nat.shiftRight_eq_div_pow]
    omega
  unfold refUnpackByte
  rw [← ofBits_testBit_7 _ hout]
  refine congrArg ofBits (List.map_congr_left ?_)
  intro j hj
  have hj7 : j < 7 := by simpa using hj
  rw [eight_mul_div_seven]
  unfold shrByte octetBit
  rw [if_pos (by decide), Nat.testBit_shiftRight]
  have d1 : (7 * (P.length + P.length / 7 + 1) + j) / 8 = P.length := by omega
  have d2 : (7 * (P.length + P.length / 7 + 1) + j) % 8 = 1 + j := by omega
  rw [d1, d2, List.getD_append_right _ _ _ _ (by omega)]
  simp

theorem refUnpack_snoc (P : List Nat) (c : Nat) :
    refUnpack (P ++ [c]) =
      refUnpack P ++
        (if P.length % 7 = 6 then
          [refUnpackByte (P ++ [c]) (8 * P.length / 7),
            refUnpackByte (P ++ [c]) (8 * P.length / 7 + 1)]
        else [refUnpackByte (P ++ [c]) (8 * P.length / 7)]) := by
  have hpre : (List.range (8 * P.length / 7)).map (refUnpackByte (P ++ [c])) = refUnpack P := by
    unfold refUnpack
    apply List.map_congr_left
    intro k hk
    have : k < 8 * P.length / 7 := by simpa using hk
    exact refUnpackByte_append_left P c k (by omega)
  unfold refUnpack at hpre ⊢
  rw [List.length_append, List.length_singleton]
  split
  · rename_i h6
    have e : 8 * (P.length + 1) / 7 = (8 * P.length / 7 + 1) + 1 := by
      rw [eight_mul_div_seven, eight_mul_div_seven]; omega
    rw [e, List.range_succ, List.range_succ]
    simp only [List.map_append, List.map_cons, List.map_nil, hpre, List.append_assoc,
      List.singleton_append]
  · rename_i h6
    have e : 8 * (P.length + 1) / 7 = 8 * P.length / 7 + 1 := by
      rw [eight_mul_div_seven, eight_mul_div_seven]; omega
    rw [e, List.range_succ]
    simp only [List.map_append, List.map_cons, List.map_nil, hpre]

/-- From the Reset state the unpacker writes the reference unpacking and ends
with `s = n % 7 + 1` and the top bits of the last octet as `borrowed`. -/
theorem unpackRun_reset (P : List Nat) (hP : ∀ x ∈ P, x < 256) :
    unpackRun { borrowed := 0, s := 1 } P =
      (refUnpack P, { borrowed := unpackCarry P, s := P.length % 7 + 1 }) := by
  induction P using List.reverseRecOn with
  | nil => rfl
  | append_singleton P c ih =>
    have hP' : ∀ x ∈ P, x < 256 := fun x hx => hP x (by simp [hx])
    have hc : c < 256 := hP c (by simp)
    have hr : P.length % 7 < 7 := Nat.mod_lt _ (by decide)
    rw [unpackRun_append, ih hP']
    simp only [unpackRun, List.append_nil]
    rw [refUnpack_snoc]
    have hlen : (P ++ [c]).length = P.length + 1 := by
      rw [List.length_append, List.length_singleton]
    by_cases h6 : P.length % 7 = 6
    · have e8 : incU32 (P.length % 7 + 1) = 8 := by unfold incU32; omega
      have es : subU32 8 (P.length % 7 + 1) = 1 := by unfold subU32; omega
      have ec : unpackCarry (P ++ [c]) = 0 := by
        unfold unpackCarry
        rw [hlen, if_pos (by omega)]
      have el : (P ++ [c]).length % 7 + 1 = 1 := by rw [hlen]; omega
      have eo := unpack_first_eq P c hP' hc
      have eo2 := unpack_second_eq P c hc h6
      unfold unpackStep
      simp only [e8, if_true, es, if_pos h6]
      rw [eo, eo2, ec, el]
    · have e8 : ¬ incU32 (P.length % 7 + 1) = 8 := by unfold incU32; omega
      have e9 : incU32 (P.length % 7 + 1) = (P ++ [c]).length % 7 + 1 := by
        rw [hlen]; unfold incU32; omega
      have es : subU32 8 (P.length % 7 + 1) = 8 - (P.length + 1) % 7 := by
        unfold subU32; omega
      have ec : unpackCarry (P ++ [c]) = shrByte c (8 - (P.length + 1) % 7) := by
        unfold unpackCarry shrByte
        rw [hlen, if_neg (by omega), if_pos (by omega),
          List.getD_append_right _ _ _ _ (by omega)]
        simp
      have eo := unpack_first_eq P c hP' hc
      unfold unpackStep
      simp only [e8, if_false, es, if_neg h6]
      rw [eo, ec, e9]

theorem refUnpack_length (P : List Nat) : (refUnpack P).length = 8 * P.length / 7 := by
  unfold refUnpack; simp

theorem refPack_length (S : List Nat) : (refPack S).length = (7 * S.length + 7) / 8 := by
  unfold refPack; simp

/-- The unpacker from the Reset state with enough room writes the reference
unpacking. -/
theorem unpack_reset_eq (P dst : List Nat) (atEOF : Bool) (hP : ∀ x ∈ P, x < 256)
    (hd : 8 * P.length / 7 ≤ dst.length) :
    SevenBitUnpacker.Transform { borrowed := 0, s := 1 } dst P atEOF =
      .done ({ dst := refUnpack P ++ dst.drop (8 * P.length / 7),
               nDst := 8 * P.length / 7, nSrc := P.length, err := .nil },
             { borrowed := unpackCarry P, s := P.length % 7 + 1 }) := by
  have h := unpack_transform_eq { borrowed := 0, s := 1 } dst P atEOF (by decide)
    (by rw [unpackRun_reset P hP]; simpa [refUnpack_length] using hd)
  rw [h, unpackRun_reset P hP]
  simp only [refUnpack_length]

/-! ## Packing followed by unpacking -/

theorem ofBits_lt (bs : List Bool) : ofBits bs < 2 ^ bs.length := by
  induction bs with
  | nil => simp [ofBits]
  | cons b l ih =>
    have h : ofBits (b :: l) = b.toNat + 2 * ofBits l := rfl
    have hb : b.toNat ≤ 1 := Bool.toNat_le b
    rw [h, List.length_cons, Nat.pow_succ]
    omega

theorem refUnpackByte_lt (P : List Nat) (k : Nat) : refUnpackByte P k < 128 := by
  have := ofBits_lt ((List.range 7).map (fun j => octetBit P (7 * k + j)))
  simpa [refUnpackByte] using this

theorem refPackByte_lt (S : List Nat) (k : Nat) : refPackByte S k < 256 := by
  have := ofBits_lt ((List.range 8).map (fun j => septetBit S (8 * k + j)))
  simpa [refPackByte] using this

theorem refPack_lt (S : List Nat) : ∀ x ∈ refPack S, x < 256 := by
  intro x hx
  unfold refPack at hx
  rw [List.mem_map] at hx
  obtain ⟨k, _, rfl⟩ := hx
  exact refPackByte_lt S k

theorem refUnpack_lt (P : List Nat) : ∀ x ∈ refUnpack P, x < 128 := by
  intro x hx
  unfold refUnpack at hx
  rw [List.mem_map] at hx
  obtain ⟨k, _, rfl⟩ := hx
  exact refUnpackByte_lt P k

theorem getD_map_range (f : Nat → Nat) (M i : Nat) (h : i < M) :
    ((List.range M).map f).getD i 0 = f i := by
  rw [List.getD_eq_getElem?_getD, List.getElem?_map, List.getElem?_range h]
  rfl

/-- Bit `p` of the octet stream of the reference packing is bit `p` of the
septet stream. -/
theorem octetBit_refPack (S : List Nat) (hS : ∀ x ∈ S, x < 128) (p : Nat)
    (hp : p / 8 < (7 * S.length + 7) / 8) :
    octetBit (refPack S) p = septetBit S p := by
  unfold octetBit refPack
  rw [getD_map_range _ _ _ hp, ← packByteAt_eq_ref S hS,
    packByteAt_testBit S hS _ _ (Nat.mod_lt _ (by decide))]
  congr 1
  omega

/-- Unpacking the reference packing gives back the septets, read with 0 past
the end, for as many septets as the packed octets hold. -/
theorem refUnpack_refPack (S : List Nat) (hS : ∀ x ∈ S, x < 128) :
    refUnpack (refPack S) =
      (List.range (8 * ((7 * S.length + 7) / 8) / 7)).map (fun k => S.getD k 0) := by
  unfold refUnpack
  rw [refPack_length]
  apply List.map_congr_left
  intro k hk
  have hk' : k < 8 * ((7 * S.length + 7) / 8) / 7 := by simpa using hk
  unfold refUnpackByte
  rw [← ofBits_testBit_7 _ (getD_lt_of_forall S 128 (by decide) hS k)]
  refine congrArg ofBits (List.map_congr_left ?_)
  intro j hj
  have hj7 : j < 7 := by simpa using hj
  rw [octetBit_refPack S hS _ (by omega)]
  unfold septetBit
  have d1 : (7 * k + j) / 7 = k := by omega
  have d2 : (7 * k + j) % 7 = j := by omega
  rw [d1, d2]

theorem map_getD_range_length (S : List Nat) :
    (List.range S.length).map (fun k => S.getD k 0) = S := by
  apply List.ext_getElem
  · simp
  · intro i h1 h2
    simp only [List.getElem_map, List.getElem_range]
    rw [List.getD_eq_getElem?_getD, List.getElem?_eq_getElem h2]
    rfl

theorem take_append_length (a b : List Nat) (n : Nat) (h : n = a.length) :
    (a ++ b).take n = a := by
  subst h; simp

/-! ## Properties of the packer and the unpacker -/

/-- C1 (as stated, refuted): seven septets are packed into seven octets, and
unpacking seven octets yields eight septets, so the round trip of
`[1,2,3,4,5,6,7]` ends with an extra `0x00` and is not the input. -/
theorem pack_unpack_seven_septets :
    SevenBitPacker.Transform (SevenBitPacker.Reset NewPacker) (List.replicate 16 0)
        [1, 2, 3, 4, 5, 6, 7] true =
      .done ({ dst := [1, 193, 128, 80, 48, 28, 0] ++ List.replicate 9 0, nDst := 7, nSrc := 8,
               err := .nil }, { s := 1 }) ∧
    SevenBitUnpacker.Transform (SevenBitUnpacker.Reset NewUnpacker) (List.replicate 16 0)
        [1, 193, 128, 80, 48, 28, 0] true =
      .done ({ dst := [1, 2, 3, 4, 5, 6, 7, 0] ++ List.replicate 8 0, nDst := 8, nSrc := 7,
               err := .nil }, { borrowed := 0, s := 1 }) ∧
    ([1, 2, 3, 4, 5, 6, 7, 0] ++ List.replicate 8 0).take 8 ≠ [1, 2, 3, 4, 5, 6, 7] := by
  decide

/-- C1 (amended): for septets below 128 whose number is not 7 modulo 8,
packing from the Reset state with enough room and then unpacking the written
octets from the Reset state with enough room returns status OK twice and
yields exactly the septets. -/
theorem pack_unpack_roundtrip (p0 : SevenBitPacker) (u0 : SevenBitUnpacker)
    (S dst1 dst2 : List Nat) (e1 e2 : Bool)
    (hS : ∀ x ∈ S, x < 128) (h7 : S.length % 8 ≠ 7)
    (hd1 : S.length ≤ dst1.length) (hd2 : S.length ≤ dst2.length) :
    ∃ r1 p r2 u,
      SevenBitPacker.Transform (SevenBitPacker.Reset p0) dst1 S e1 = .done (r1, p) ∧
      r1.err = .nil ∧
      SevenBitUnpacker.Transform (SevenBitUnpacker.Reset u0) dst2 (r1.dst.take r1.nDst) e2 =
        .done (r2, u) ∧
      r2.err = .nil ∧ r2.dst.take r2.nDst = S := by
  have hM1 : (7 * S.length + 7) / 8 = 7 * (S.length / 8) + S.length % 8 := by omega
  have hM : 8 * ((7 * S.length + 7) / 8) / 7 = S.length := by rw [hM1]; omega
  have hp := pack_reset_eq S dst1 e1 hS (by omega)
  have htake : (refPack S ++ dst1.drop ((7 * S.length + 7) / 8)).take
      ((7 * S.length + 7) / 8) = refPack S :=
    take_append_length _ _ _ (refPack_length S).symm
  have hu := unpack_reset_eq (refPack S) dst2 e2 (refPack_lt S)
    (by rw [refPack_length, hM]; exact hd2)
  rw [refPack_length, hM] at hu
  refine ⟨_, _,
    { dst := refUnpack (refPack S) ++ dst2.drop S.length, nDst := S.length,
      nSrc := (7 * S.length + 7) / 8, err := .nil },
    { borrowed := unpackCarry (refPack S), s := (7 * S.length + 7) / 8 % 7 + 1 },
    hp, ?_, ?_, ?_, ?_⟩
  · rfl
  · simp only [htake]
    exact hu
  · rfl
  · simp only []
    rw [take_append_length _ _ _ (by rw [refUnpack_length, refPack_length, hM]),
      refUnpack_refPack S hS, hM, map_getD_range_length]

/-- Witness of `pack_unpack_roundtrip`: the two septets of the first row of
`packingTable`. -/
theorem pack_unpack_roundtrip_witness :
    ∃ r1 p r2 u,
      SevenBitPacker.Transform (SevenBitPacker.Reset NewPacker) [0, 0] [0x31, 0x32] true =
        .done (r1, p) ∧
      r1.err = .nil ∧
      SevenBitUnpacker.Transform (SevenBitUnpacker.Reset NewUnpacker) [0, 0]
        (r1.dst.take r1.nDst) true = .done (r2, u) ∧
      r2.err = .nil ∧ r2.dst.take r2.nDst = [0x31, 0x32] :=
  pack_unpack_roundtrip NewPacker NewUnpacker [0x31, 0x32] [0, 0] [0, 0] true true
    (by decide) (by decide) (by decide) (by decide)

/-- C2: for septets below 128 and an output capacity of at least their number
`n`, one `Transform` call of the packer from the Reset state returns status OK
and writes exactly `ceil(7n/8)` bytes, which are the reference 3GPP packing
(bit `j` of byte `k` is bit `8k+j` of the septet bit stream, 0 past the end). -/
theorem packer_writes_reference (p0 : SevenBitPacker) (S dst : List Nat) (atEOF : Bool)
    (hS : ∀ x ∈ S, x < 128) (hd : S.length ≤ dst.length) :
    ∃ r p,
      SevenBitPacker.Transform (SevenBitPacker.Reset p0) dst S atEOF = .done (r, p) ∧
      r.err = .nil ∧ r.nDst = (7 * S.length + 7) / 8 ∧ r.dst.take r.nDst = refPack S ∧
      ∀ k j, k < r.nDst → j < 8 →
        (r.dst.getD k 0).testBit j = (S.getD ((8 * k + j) / 7) 0).testBit ((8 * k + j) % 7) := by
  have hp := pack_reset_eq S dst atEOF hS (by omega)
  have htake : (refPack S ++ dst.drop ((7 * S.length + 7) / 8)).take
      ((7 * S.length + 7) / 8) = refPack S :=
    take_append_length _ _ _ (refPack_length S).symm
  refine ⟨_, _, hp, ?_, ?_, htake, ?_⟩
  · rfl
  · rfl
  intro k j hk hj
  simp only [] at hk ⊢
  rw [List.getD_append _ _ _ _ (by rw [refPack_length]; exact hk)]
  unfold refPack
  rw [getD_map_range _ _ _ hk, ← packByteAt_eq_ref S hS, packByteAt_testBit S hS k j hj]
  rfl

/-- Witness of `packer_writes_reference`: the first two rows of
`packingTable`, with the bytes the reference packing has there. -/
theorem packer_writes_reference_witness :
    (∃ r p,
      SevenBitPacker.Transform (SevenBitPacker.Reset NewPacker) [0, 0] [0x31, 0x32] true =
        .done (r, p) ∧
      r.err = .nil ∧ r.nDst = (7 * 2 + 7) / 8 ∧ r.dst.take r.nDst = refPack [0x31, 0x32] ∧
      ∀ k j, k < r.nDst → j < 8 →
        (r.dst.getD k 0).testBit j =
          (([0x31, 0x32] : List Nat).getD ((8 * k + j) / 7) 0).testBit ((8 * k + j) % 7)) ∧
    refPack [0x31, 0x32] = [0x31, 0x19] ∧
    refPack [0x31, 0x32, 0x33, 0x34, 0x35, 0x36, 0x37, 0x38, 0x39] =
      [0x31, 0xD9, 0x8C, 0x56, 0xB3, 0xDD, 0x70, 0x39] :=
  ⟨packer_writes_reference NewPacker [0x31, 0x32] [0, 0] true (by decide) (by decide),
    by decide, by decide⟩

theorem ofBits_testBit (bs : List Bool) : ∀ j, (ofBits bs).testBit j = bs.getD j false := by
  induction bs with
  | nil => intro j; simp [ofBits]
  | cons b l ih =>
    intro j
    have h : ofBits (b :: l) = b.toNat + 2 * ofBits l := rfl
    have hb : b.toNat ≤ 1 := Bool.toNat_le b
    cases j with
    | zero =>
      rw [h, Nat.testBit_zero, List.getD_cons_zero]
      cases b <;> simp
    | succ k =>
      rw [h, Nat.testBit_succ, List.getD_cons_succ, ← ih k]
      congr 1
      omega

theorem getD_map_range_bool (f : Nat → Bool) (M i : Nat) (h : i < M) :
    ((List.range M).map f).getD i false = f i := by
  rw [List.getD_eq_getElem?_getD, List.getElem?_map, List.getElem?_range h]
  rfl

/-- C3: for octets (values below 256) and an output capacity of at least
`n + floor(n/7) + 1`, one `Transform` call of the unpacker from the Reset state
returns status OK, consumes all `n` bytes and writes exactly `floor(8n/7)`
bytes; byte `k` is the value of bits `7k .. 7k+6` of the octet bit stream (bit
`j` of it is bit `(7k+j) mod 8` of octet `floor((7k+j)/8)`), and every byte
written is below 128. -/
theorem unpacker_writes_reference (u0 : SevenBitUnpacker) (P dst : List Nat) (atEOF : Bool)
    (hP : ∀ x ∈ P, x < 256) (hd : P.length + P.length / 7 + 1 ≤ dst.length) :
    ∃ r u,
      SevenBitUnpacker.Transform (SevenBitUnpacker.Reset u0) dst P atEOF = .done (r, u) ∧
      r.err = .nil ∧ r.nSrc = P.length ∧ r.nDst = 8 * P.length / 7 ∧
      r.dst.take r.nDst = refUnpack P ∧ (∀ x ∈ r.dst.take r.nDst, x < 128) ∧
      ∀ k j, k < r.nDst → j < 7 →
        (r.dst.getD k 0).testBit j = (P.getD ((7 * k + j) / 8) 0).testBit ((7 * k + j) % 8) := by
  have h87 := eight_mul_div_seven P.length
  have hu := unpack_reset_eq P dst atEOF hP (by omega)
  have htake : (refUnpack P ++ dst.drop (8 * P.length / 7)).take (8 * P.length / 7) =
      refUnpack P := take_append_length _ _ _ (refUnpack_length P).symm
  refine ⟨_, _, hu, ?_, ?_, ?_, htake, ?_, ?_⟩
  · rfl
  · rfl
  · rfl
  · simp only [htake]
    exact refUnpack_lt P
  · intro k j hk hj
    simp only [] at hk ⊢
    rw [List.getD_append _ _ _ _ (by rw [refUnpack_length]; exact hk)]
    unfold refUnpack
    rw [getD_map_range _ _ _ hk]
    unfold refUnpackByte
    rw [ofBits_testBit, getD_map_range_bool _ _ _ hj]
    rfl

/-- Witness of `unpacker_writes_reference`: the first row of `packingTable`. -/
theorem unpacker_writes_reference_witness :
    (∃ r u,
      SevenBitUnpacker.Transform (SevenBitUnpacker.Reset NewUnpacker) [0, 0, 0] [0x31, 0x19]
        true = .done (r, u) ∧
      r.err = .nil ∧ r.nSrc = 2 ∧ r.nDst = 8 * 2 / 7 ∧
      r.dst.take r.nDst = refUnpack [0x31, 0x19] ∧ (∀ x ∈ r.dst.take r.nDst, x < 128) ∧
      ∀ k j, k < r.nDst → j < 7 →
        (r.dst.getD k 0).testBit j =
          (([0x31, 0x19] : List Nat).getD ((7 * k + j) / 8) 0).testBit ((7 * k + j) % 8)) ∧
    refUnpack [0x31, 0x19] = [0x31, 0x32] :=
  ⟨unpacker_writes_reference NewUnpacker [0x31, 0x19] [0, 0, 0] true (by decide) (by decide),
    by decide⟩

/-- Number of bytes written and final `s` of the unpacker loop entered with
`s = r + 1`: one byte per input byte and one more each time `s` wraps. -/
theorem unpackRun_length_state (A : List Nat) :
    ∀ (b r : Nat), r < 7 →
      (unpackRun { borrowed := b, s := r + 1 } A).1.length = A.length + (r + A.length) / 7 ∧
      (unpackRun { borrowed := b, s := r + 1 } A).2.s = (r + A.length) % 7 + 1 := by
  induction A with
  | nil => intro b r hr; simp only [unpackRun, List.length_nil]; omega
  | cons a l ih =>
    intro b r hr
    simp only [unpackRun, List.length_append, List.length_cons]
    by_cases h6 : r = 6
    · have e8 : incU32 (r + 1) = 8 := by unfold incU32; omega
      have hst : unpackStep { borrowed := b, s := r + 1 } a =
          ([shrByte (shlByte a (r + 1)) 1 ||| b, shrByte a (subU32 8 (r + 1))],
            { borrowed := 0, s := 0 + 1 }) := by
        unfold unpackStep; simp [e8]
      rw [hst]
      have := ih 0 0 (by decide)
      simp only [List.length_cons, List.length_nil]
      omega
    · have e8 : ¬ incU32 (r + 1) = 8 := by unfold incU32; omega
      have e9 : incU32 (r + 1) = (r + 1) + 1 := by unfold incU32; omega
      have hst : unpackStep { borrowed := b, s := r + 1 } a =
          ([shrByte (shlByte a (r + 1)) 1 ||| b],
            { borrowed := shrByte a (subU32 8 (r + 1)), s := (r + 1) + 1 }) := by
        unfold unpackStep; simp [e8, e9, h6]
      rw [hst]
      have := ih (shrByte a (subU32 8 (r + 1))) (r + 1) (by omega)
      simp only [List.length_cons, List.length_nil]
      omega

/-- C7 (the code breaks it): packing `[0x31, 0x33]` in one call from the Reset
state writes `[0xB1, 0x19]`, but packing `[0x31]` and then `[0x33]` with the
same instance writes `[0x31]` and `[0x19]`: the low bit of the second septet,
which belongs in the top bit of the first octet, is lost at the chunk
boundary. -/
theorem packer_chunked_output_differs :
    SevenBitPacker.Transform (SevenBitPacker.Reset NewPacker) [0, 0] [0x31, 0x33] true =
      .done ({ dst := [0xB1, 0x19], nDst := 2, nSrc := 2, err := .nil }, { s := 3 }) ∧
    SevenBitPacker.Transform (SevenBitPacker.Reset NewPacker) [0, 0] [0x31] false =
      .done ({ dst := [0x31, 0], nDst := 1, nSrc := 1, err := .nil }, { s := 2 }) ∧
    SevenBitPacker.Transform { s := 2 } [0, 0] [0x33] true =
      .done ({ dst := [0x19, 0], nDst := 1, nSrc := 1, err := .nil }, { s := 3 }) ∧
    ([0x31, 0].take 1 ++ [0x19, 0].take 1 : List Nat) ≠ [0xB1, 0x19].take 2 := by
  decide

/-- C8: the unpacker is chunking invariant.  For every split `A ++ B` of the
input, calling `Transform` on `A` from the Reset state and then on `B` with the
same instance (each output buffer at least one byte longer than the number of
septets of that call) returns OK twice, and the written bytes concatenated are
the bytes written by one call on `A ++ B` from the Reset state, which also ends
with the same `s` and `borrowed`. -/
theorem unpacker_chunking_invariant (u0 : SevenBitUnpacker) (A B dstA dstB dst : List Nat)
    (eA eB e : Bool)
    (hA : 8 * A.length / 7 + 1 ≤ dstA.length)
    (hB : 8 * (A.length + B.length) / 7 - 8 * A.length / 7 + 1 ≤ dstB.length)
    (hd : 8 * (A.length + B.length) / 7 + 1 ≤ dst.length) :
    ∃ rA uA rB uB r u,
      SevenBitUnpacker.Transform (SevenBitUnpacker.Reset u0) dstA A eA = .done (rA, uA) ∧
      rA.err = .nil ∧ rA.nSrc = A.length ∧
      SevenBitUnpacker.Transform uA dstB B eB = .done (rB, uB) ∧
      rB.err = .nil ∧ rB.nSrc = B.length ∧
      SevenBitUnpacker.Transform (SevenBitUnpacker.Reset u0) dst (A ++ B) e = .done (r, u) ∧
      r.err = .nil ∧
      rA.dst.take rA.nDst ++ rB.dst.take rB.nDst = r.dst.take r.nDst ∧ uB = u := by
  have h87a := eight_mul_div_seven A.length
  have h87 := eight_mul_div_seven (A.length + B.length)
  obtain ⟨lA, sA⟩ := unpackRun_length_state A 0 0 (by decide)
  obtain ⟨lB, sB⟩ := unpackRun_length_state B
    (unpackRun { borrowed := 0, s := 1 } A).2.borrowed (A.length % 7)
    (Nat.mod_lt _ (by decide))
  obtain ⟨lAB, sAB⟩ := unpackRun_length_state (A ++ B) 0 0 (by decide)
  simp only [Nat.zero_add, List.length_append] at lA sA lAB sAB
  have hstate : (unpackRun { borrowed := 0, s := 1 } A).2 =
      { borrowed := (unpackRun { borrowed := 0, s := 1 } A).2.borrowed,
        s := A.length % 7 + 1 } := by
    rw [← sA]
  rw [← hstate] at lB sB
  have tA := unpack_transform_eq { borrowed := 0, s := 1 } dstA A eA (by decide)
    (by rw [lA]; omega)
  have tB := unpack_transform_eq (unpackRun { borrowed := 0, s := 1 } A).2 dstB B eB
    (by rw [sA]; omega) (by rw [lB]; omega)
  have tAB := unpack_transform_eq { borrowed := 0, s := 1 } dst (A ++ B) e (by decide)
    (by rw [lAB]; omega)
  refine ⟨_, _, _, _, _, _, tA, ?_, ?_, tB, ?_, ?_, tAB, ?_, ?_, ?_⟩
  · rfl
  · rfl
  · rfl
  · rfl
  · rfl
  · simp only [List.take_left']
    rw [unpackRun_append]
  · rw [unpackRun_append]

/-- Witness of `unpacker_chunking_invariant`: the octets `0x31 0xD9 0x8C` split
after the first one. -/
theorem unpacker_chunking_invariant_witness :
    ∃ rA uA rB uB r u,
      SevenBitUnpacker.Transform (SevenBitUnpacker.Reset NewUnpacker) [0, 0] [0x31] false =
        .done (rA, uA) ∧
      rA.err = .nil ∧ rA.nSrc = 1 ∧
      SevenBitUnpacker.Transform uA [0, 0, 0] [0xD9, 0x8C] true = .done (rB, uB) ∧
      rB.err = .nil ∧ rB.nSrc = 2 ∧
      SevenBitUnpacker.Transform (SevenBitUnpacker.Reset NewUnpacker) [0, 0, 0, 0]
        ([0x31] ++ [0xD9, 0x8C]) true = .done (r, u) ∧
      r.err = .nil ∧
      rA.dst.take rA.nDst ++ rB.dst.take rB.nDst = r.dst.take r.nDst ∧ uB = u :=
  unpacker_chunking_invariant NewUnpacker [0x31] [0xD9, 0x8C] [0, 0] [0, 0, 0] [0, 0, 0, 0]
    false true true (by decide) (by decide) (by decide)

/-! ## Units: general facts -/

theorem writeAt_length (dst : List Nat) (n : Nat) (out : List Nat)
    (h : n + out.length ≤ dst.length) : (writeAt dst n out).length = dst.length := by
  unfold writeAt
  simp only [List.length_append, List.length_take, List.length_drop]
  omega

theorem writeAt_nil (dst : List Nat) (n : Nat) : writeAt dst n [] = dst := by
  unfold writeAt; simp

theorem writeAt_writeAt (dst : List Nat) (n : Nat) (a b : List Nat)
    (h : n + a.length + b.length ≤ dst.length) :
    writeAt (writeAt dst n a) (n + a.length) b = writeAt dst n (a ++ b) := by
  unfold writeAt
  have h1 : (dst.take n ++ a ++ dst.drop (n + a.length)).take (n + a.length) = dst.take n ++ a := by
    rw [List.take_append_of_le_length (by simp; omega)]
    apply List.take_of_length_le
    simp
  have h2 : (dst.take n ++ a ++ dst.drop (n + a.length)).drop (n + a.length + b.length) =
      dst.drop (n + (a ++ b).length) := by
    rw [List.drop_append_eq_append_drop]
    have : (dst.take n ++ a).length = n + a.length := by simp; omega
    rw [List.drop_of_length_le (by omega), this, List.drop_drop, List.length_append]
    simp only [List.nil_append]
    congr 1
    omega
  rw [h1, h2]
  simp only [List.append_assoc]

theorem store_writeAt (dst : List Nat) (n v : Nat) (h : n < dst.length) :
    store dst n v = some (writeAt dst n [v]) := by
  unfold store writeAt
  rw [if_pos h]
  congr 1
  rw [← take_set_succ dst n v h, List.length_singleton, ← drop_set_gt dst n (n + 1) v (by omega),
    List.take_append_drop]

theorem segmentsAux_fuel (first : List Nat → Segment)
    (hw : ∀ c rest, 1 ≤ (first (c :: rest)).width) :
    ∀ (fuel : Nat) (src : List Nat), src.length ≤ fuel →
      segmentsAux first fuel src = segments first src := by
  intro fuel
  induction fuel using Nat.strong_induction_on with
  | _ fuel ih =>
    intro src hf
    unfold segments
    cases src with
    | nil => cases fuel <;> rfl
    | cons c rest =>
      cases fuel with
      | zero => simp at hf
      | succ f =>
        simp only [List.length_cons, segmentsAux]
        have h1 := hw c rest
        have hl : ((c :: rest).drop (first (c :: rest)).width).length ≤ rest.length := by
          simp only [List.length_drop, List.length_cons]; omega
        rw [ih f (by omega) _ (by simp only [List.length_cons] at hf; omega),
          ih rest.length (by simp only [List.length_cons] at hf; omega) _ hl]

theorem segments_cons (first : List Nat → Segment)
    (hw : ∀ c rest, 1 ≤ (first (c :: rest)).width) (c : Nat) (rest : List Nat) :
    segments first (c :: rest) =
      first (c :: rest) :: segments first ((c :: rest).drop (first (c :: rest)).width) := by
  have h1 := hw c rest
  have hl : ((c :: rest).drop (first (c :: rest)).width).length ≤ rest.length := by
    simp only [List.length_drop, List.length_cons]; omega
  show segmentsAux first (rest.length + 1) (c :: rest) = _
  rw [segmentsAux, segmentsAux_fuel first hw _ _ hl]

theorem segments_nil (first : List Nat → Segment) : segments first [] = [] := rfl
/-! ## Decoder: the loops -/

theorem copy_eq (dec : utf8Enc) (n : Nat) (hn : n ≤ dec.data.length) :
    ∀ (fuel j nDst : Nat) (dst : List Nat), j ≤ n → n < fuel + j → nDst + (n - j) ≤ dst.length →
      Decoder.copy dec n fuel dst nDst j =
        .done (writeAt dst nDst ((dec.data.take n).drop j), nDst + (n - j)) := by
  intro fuel
  induction fuel with
  | zero => intro j nDst dst h1 h2; omega
  | succ f ih =>
    intro j nDst dst h1 h2 h3
    rw [Decoder.copy]
    by_cases hj : j < n
    · have hjd : j < dec.data.length := by omega
      have hjt : j < (dec.data.take n).length := by simp only [List.length_take]; omega
      rw [if_pos hj, List.getElem?_eq_getElem hjd]
      simp only []
      rw [store_writeAt dst nDst _ (by omega)]
      simp only []
      rw [ih (j + 1) (nDst + 1) _ (by omega) (by omega)
        (by rw [writeAt_length _ _ _ (by simp only [List.length_singleton]; omega)]; omega)]
      have := writeAt_writeAt dst nDst [dec.data[j]] ((dec.data.take n).drop (j + 1))
        (by simp only [List.length_singleton, List.length_drop, List.length_take]; omega)
      simp only [List.length_singleton] at this
      rw [this, List.drop_eq_getElem_cons hjt, List.getElem_take]
      congr 2
      omega
    · have : j = n := by omega
      subst this
      rw [if_neg hj, List.drop_of_length_le (by simp), writeAt_nil]
      simp

theorem getD_drop_head (src : List Nat) (i : Nat) (h : i < src.length) :
    src.drop i = src.getD i 0 :: src.drop (i + 1) := by
  rw [List.drop_eq_getElem_cons h]
  congr 1
  rw [List.getD_eq_getElem?_getD, List.getElem?_eq_getElem h]; rfl

theorem head?_drop_eq (src : List Nat) (i : Nat) :
    (src.drop i).head? = if i < src.length then some (src.getD i 0) else none := by
  split
  · rename_i h
    rw [getD_drop_head src i h]; rfl
  · rename_i h
    rw [List.drop_of_length_le (by omega)]; rfl

theorem decFirst_width_pos (T : Tables) (c : Nat) (rest : List Nat) :
    1 ≤ (decFirst T (c :: rest)).width := by
  unfold decFirst decEntry
  simp only []
  split <;> simp

theorem decoder_loop_eq (T : Tables) (src : List Nat) (hT : decodeDefinedOn T src) :
    ∀ (fuel i nDst : Nat) (dst : List Nat), i ≤ src.length → src.length < fuel + i →
      nDst ≤ dst.length →
      Decoder.loop T src fuel dst nDst i i =
        .done (runSegs (segments (decFirst T) (src.drop i)) dst nDst i) := by
  obtain ⟨hsrc, hdec, hesc⟩ := hT
  intro fuel
  induction fuel with
  | zero => intro i nDst dst h1 h2; omega
  | succ f ih =>
    intro i nDst dst h1 h2 h3
    rw [Decoder.loop]
    by_cases hi : i < src.length
    · rw [if_pos hi, getD_drop_head src i hi, segments_cons _ (decFirst_width_pos T)]
      have hc : src.getD i 0 < T.decode.length := by
        apply hsrc
        rw [List.getD_eq_getElem?_getD, List.getElem?_eq_getElem hi]
        exact List.getElem_mem hi
      have hd0 : T.decode[src.getD i 0]? = some (T.decode.getD (src.getD i 0) ⟨0, []⟩) := by
        rw [List.getD_eq_getElem _ _ hc, List.getElem?_eq_getElem hc]
      have hd0m : T.decode.getD (src.getD i 0) ⟨0, []⟩ ∈ T.decode := by
        rw [List.getD_eq_getElem _ _ hc]
        exact List.getElem_mem hc
      simp only [hd0]
      have hesc_eq : (if src.getD i 0 = 0x1B ∧ i + 1 < src.length then
            T.escDecode (src.getD (i + 1) 0) else none) =
          (if src.getD i 0 = 0x1B then (src.drop (i + 1)).head?.bind T.escDecode else none) := by
        rw [head?_drop_eq]
        by_cases hc1 : src.getD i 0 = 0x1B <;> by_cases hc2 : i + 1 < src.length <;>
          simp [hc1, hc2]
      rw [hesc_eq]
      unfold runSegs decFirst decEntry
      simp only []
      cases he : (if src.getD i 0 = 0x1B then (src.drop (i + 1)).head?.bind T.escDecode
          else none) with
      | none =>
        simp only []
        have hlen := hdec _ hd0m
        by_cases hfull : nDst + (T.decode.getD (src.getD i 0) ⟨0, []⟩).len > dst.length
        · rw [if_pos hfull, if_pos (by omega)]
        · rw [if_neg hfull, if_neg (by omega), copy_eq _ _ hlen _ _ _ _ (by omega) (by omega)
            (by omega)]
          simp only [List.drop_zero, Nat.sub_zero]
          rw [ih (i + 1) _ _ (by omega) (by omega)
            (by rw [writeAt_length _ _ _ (by simp only [List.length_take]; omega)]; omega)]
          simp only [utf8Enc.bytes, List.length_take, List.drop_succ_cons, List.drop_zero]
          rw [Nat.min_eq_left hlen]
          rfl
      | some e =>
        simp only []
        have hlen : e.len ≤ e.data.length := by
          by_cases hc1 : src.getD i 0 = 0x1B
          · rw [if_pos hc1] at he
            cases hh : (src.drop (i + 1)).head? with
            | none => rw [hh] at he; simp at he
            | some d => rw [hh] at he; exact hesc d e (by simpa using he)
          · rw [if_neg hc1] at he; simp at he
        have hi2 : i + 1 < src.length := by
          by_cases hc1 : src.getD i 0 = 0x1B
          · rw [if_pos hc1, head?_drop_eq] at he
            by_cases hc2 : i + 1 < src.length
            · exact hc2
            · rw [if_neg hc2] at he; simp at he
          · rw [if_neg hc1] at he; simp at he
        by_cases hfull : nDst + e.len > dst.length
        · rw [if_pos hfull, if_pos (by omega)]
        · rw [if_neg hfull, if_neg (by omega), copy_eq _ _ hlen _ _ _ _ (by omega) (by omega)
            (by omega)]
          simp only [List.drop_zero, Nat.sub_zero]
          rw [ih (i + 1 + 1) _ _ (by omega) (by omega)
            (by rw [writeAt_length _ _ _ (by simp only [List.length_take]; omega)]; omega)]
          simp only [utf8Enc.bytes, List.length_take, List.drop_succ_cons, List.drop_zero]
          rw [Nat.min_eq_left hlen, getD_drop_head src (i + 1) hi2]
          simp only [List.drop_succ_cons, List.drop_zero]
          rfl
    · have : i = src.length := by omega
      subst this
      rw [if_neg hi, List.drop_length, segments_nil]
      rfl
/-! ## Units: the unit-level run -/

theorem outOf_cons (u : Segment) (us : List Segment) : outOf (u :: us) = u.out ++ outOf us := by
  simp [outOf]

theorem widthOf_cons (u : Segment) (us : List Segment) :
    widthOf (u :: us) = u.width + widthOf us := by
  simp [widthOf]

theorem fitCount_le (us : List Segment) : ∀ cap, fitCount cap us ≤ us.length := by
  induction us with
  | nil => intro cap; simp [fitCount]
  | cons u us ih =>
    intro cap
    simp only [fitCount, List.length_cons]
    split
    · omega
    · have := ih (cap - u.out.length); omega

theorem outOf_fit_le (us : List Segment) (hu : ∀ u ∈ us, u.out.length ≤ u.need) :
    ∀ cap, (outOf (us.take (fitCount cap us))).length ≤ cap := by
  induction us with
  | nil => intro cap; simp [fitCount, outOf]
  | cons u us ih =>
    intro cap
    simp only [fitCount]
    split
    · simp [outOf]
    · rename_i h
      have h1 := hu u (by simp)
      have h2 := ih (fun v hv => hu v (by simp [hv])) (cap - u.out.length)
      rw [show 1 + fitCount (cap - u.out.length) us = fitCount (cap - u.out.length) us + 1 by omega,
        List.take_succ_cons, outOf_cons, List.length_append]
      omega

/-- The unit at which the run stops needs more room than is left. -/
theorem fitCount_stop (us : List Segment) (hu : ∀ u ∈ us, u.out.length ≤ u.need) :
    ∀ cap, fitCount cap us < us.length →
      cap - (outOf (us.take (fitCount cap us))).length <
        ((us.drop (fitCount cap us)).headD { out := [], width := 0, need := 0 }).need := by
  induction us with
  | nil => intro cap h; simp at h
  | cons u us ih =>
    intro cap h
    simp only [fitCount] at h ⊢
    split
    · rename_i hc
      simp [outOf, hc]
    · rename_i hc
      rw [if_neg hc] at h
      have h1 := hu u (by simp)
      have h2 := ih (fun v hv => hu v (by simp [hv])) (cap - u.out.length)
        (by simp only [List.length_cons] at h; omega)
      rw [show 1 + fitCount (cap - u.out.length) us = fitCount (cap - u.out.length) us + 1 by omega,
        List.take_succ_cons, List.drop_succ_cons, outOf_cons, List.length_append]
      omega

theorem runSegs_eq (us : List Segment) (hu : ∀ u ∈ us, u.out.length ≤ u.need) :
    ∀ (dst : List Nat) (nDst nSrc : Nat), nDst ≤ dst.length →
      runSegs us dst nDst nSrc =
        { dst := writeAt dst nDst (outOf (us.take (fitCount (dst.length - nDst) us))),
          nDst := nDst + (outOf (us.take (fitCount (dst.length - nDst) us))).length,
          nSrc := nSrc + widthOf (us.take (fitCount (dst.length - nDst) us)),
          err := if fitCount (dst.length - nDst) us < us.length then .ErrShortDst else .nil } := by
  induction us with
  | nil =>
    intro dst nDst nSrc h
    simp [runSegs, fitCount, outOf, widthOf, writeAt_nil]
  | cons u us ih =>
    intro dst nDst nSrc h
    simp only [runSegs, fitCount]
    split
    · simp [outOf, widthOf, writeAt_nil]
    · rename_i hc
      have h1 := hu u (by simp)
      have hfit : nDst + u.out.length ≤ dst.length := by omega
      have hlen : (writeAt dst nDst u.out).length = dst.length := writeAt_length _ _ _ hfit
      rw [ih (fun v hv => hu v (by simp [hv])) _ _ _ (by rw [hlen]; exact hfit), hlen]
      have hcap : dst.length - (nDst + u.out.length) = dst.length - nDst - u.out.length := by
        omega
      rw [hcap]
      have h2 := outOf_fit_le us (fun v hv => hu v (by simp [hv]))
        (dst.length - nDst - u.out.length)
      rw [show 1 + fitCount (dst.length - nDst - u.out.length) us =
          fitCount (dst.length - nDst - u.out.length) us + 1 by omega,
        List.take_succ_cons, outOf_cons, widthOf_cons, List.length_append, List.length_cons,
        writeAt_writeAt _ _ _ _ (by omega)]
      simp only [Nat.add_assoc, Nat.add_lt_add_iff_right]

theorem fitCount_all_of_bound (a b : Nat) (us : List Segment)
    (hu : ∀ u ∈ us, u.out.length ≤ a ∧ u.need ≤ b) :
    ∀ cap, a * us.length + b ≤ cap + a → fitCount cap us = us.length := by
  induction us with
  | nil => intro cap h; rfl
  | cons u us ih =>
    intro cap h
    obtain ⟨h1, h2⟩ := hu u (by simp)
    simp only [List.length_cons, Nat.mul_add, Nat.mul_one] at h
    simp only [fitCount, List.length_cons]
    rw [if_neg (by omega), ih (fun v hv => hu v (by simp [hv])) _ (by omega)]
    omega

theorem fitCount_all_of_total (us : List Segment) (hu : ∀ u ∈ us, u.need = u.out.length) :
    ∀ cap, (outOf us).length ≤ cap → fitCount cap us = us.length := by
  induction us with
  | nil => intro cap h; rfl
  | cons u us ih =>
    intro cap h
    have h1 := hu u (by simp)
    rw [outOf_cons, List.length_append] at h
    simp only [fitCount, List.length_cons]
    rw [if_neg (by omega), ih (fun v hv => hu v (by simp [hv])) _ (by omega)]
    omega

/-! ## Units: parsing -/

theorem widthOf_segments (first : List Nat → Segment)
    (hw : ∀ c rest, 1 ≤ (first (c :: rest)).width ∧
      (first (c :: rest)).width ≤ (c :: rest).length) :
    ∀ (n : Nat) (src : List Nat), src.length = n → widthOf (segments first src) = src.length := by
  intro n
  induction n using Nat.strong_induction_on with
  | _ n ih =>
    intro src hn
    cases src with
    | nil => rfl
    | cons c rest =>
      obtain ⟨h1, h2⟩ := hw c rest
      rw [segments_cons first (fun c rest => (hw c rest).1), widthOf_cons,
        ih _ _ _ rfl]
      · simp only [List.length_drop]; omega
      · simp only [List.length_drop, ← hn]
        simp only [List.length_cons] at h2 ⊢
        omega

theorem widthOf_take_le (us : List Segment) (m : Nat) : widthOf (us.take m) ≤ widthOf us := by
  induction us generalizing m with
  | nil => simp [widthOf]
  | cons u us ih =>
    cases m with
    | zero => simp [widthOf]
    | succ k =>
      rw [List.take_succ_cons, widthOf_cons, widthOf_cons]
      have := ih k
      omega

theorem widthOf_take_lt (us : List Segment) (hw : ∀ u ∈ us, 1 ≤ u.width) (m : Nat)
    (h : m < us.length) : widthOf (us.take m) < widthOf us := by
  induction us generalizing m with
  | nil => simp at h
  | cons u us ih =>
    cases m with
    | zero =>
      have := hw u (by simp)
      simp only [List.take_zero, widthOf_cons]
      simp only [widthOf, List.map_nil, List.sum_nil]
      omega
    | succ k =>
      rw [List.take_succ_cons, widthOf_cons, widthOf_cons]
      have := ih (fun v hv => hw v (by simp [hv])) k
        (by simp only [List.length_cons] at h; omega)
      omega

theorem segments_width_pos (first : List Nat → Segment)
    (hw : ∀ c rest, 1 ≤ (first (c :: rest)).width) :
    ∀ (n : Nat) (src : List Nat), src.length = n → ∀ u ∈ segments first src, 1 ≤ u.width := by
  intro n
  induction n using Nat.strong_induction_on with
  | _ n ih =>
    intro src hn u hu
    cases src with
    | nil => simp [segments_nil] at hu
    | cons c rest =>
      rw [segments_cons first hw] at hu
      rcases List.mem_cons.mp hu with h | h
      · rw [h]; exact hw c rest
      · have h1 := hw c rest
        exact ih _ (by
          simp only [List.length_drop, ← hn, List.length_cons]; omega) _ rfl u h

/-- Dropping the input bytes of the first `m` units drops the first `m` units. -/
theorem segments_drop (first : List Nat → Segment)
    (hw : ∀ c rest, 1 ≤ (first (c :: rest)).width) :
    ∀ (m : Nat) (src : List Nat),
      segments first (src.drop (widthOf ((segments first src).take m))) =
        (segments first src).drop m := by
  intro m
  induction m with
  | zero => intro src; simp [widthOf]
  | succ k ih =>
    intro src
    cases src with
    | nil => simp [segments_nil, widthOf]
    | cons c rest =>
      rw [segments_cons first hw, List.take_succ_cons, List.drop_succ_cons, widthOf_cons,
        ← ih, List.drop_drop]

/-- Taking the input bytes of the first `m` units gives the first `m` units,
when the first unit of an input does not change if the input is cut at or
after the end of that unit. -/
theorem segments_take (first : List Nat → Segment)
    (hw : ∀ c rest, 1 ≤ (first (c :: rest)).width)
    (hp : ∀ p n, (first p).width ≤ n → first (p.take n) = first p) :
    ∀ (m : Nat) (src : List Nat),
      segments first (src.take (widthOf ((segments first src).take m))) =
        (segments first src).take m := by
  intro m
  induction m with
  | zero => intro src; simp [widthOf, segments_nil]
  | succ k ih =>
    intro src
    cases src with
    | nil => simp [segments_nil, widthOf]
    | cons c rest =>
      have h1 := hw c rest
      rw [segments_cons first hw, List.take_succ_cons, widthOf_cons]
      obtain ⟨w, hwd⟩ : ∃ w, (first (c :: rest)).width +
          widthOf ((segments first ((c :: rest).drop (first (c :: rest)).width)).take k) =
            w + 1 :=
        ⟨(first (c :: rest)).width +
          widthOf ((segments first ((c :: rest).drop (first (c :: rest)).width)).take k) - 1,
          by omega⟩
      have hf := hp (c :: rest) (w + 1) (by omega)
      rw [hwd]
      rw [List.take_succ_cons] at hf ⊢
      rw [segments_cons first hw, hf, ← List.take_succ_cons, List.drop_take, ← ih]
      congr 3
      omega
/-! ## Decoder: units -/

theorem decFirst_width_le (T : Tables) (c : Nat) (rest : List Nat) :
    (decFirst T (c :: rest)).width ≤ (c :: rest).length := by
  unfold decFirst decEntry
  simp only [List.length_cons]
  cases rest with
  | nil => simp
  | cons d l =>
    simp only [List.head?_cons, List.length_cons]
    split <;> simp

theorem decFirst_take (T : Tables) (p : List Nat) (n : Nat)
    (h : (decFirst T p).width ≤ n) : decFirst T (p.take n) = decFirst T p := by
  cases p with
  | nil => simp
  | cons c rest =>
    cases n with
    | zero =>
      have := decFirst_width_pos T c rest
      omega
    | succ k =>
      rw [List.take_succ_cons]
      cases rest with
      | nil => simp
      | cons d l =>
        cases k with
        | succ k' => simp [decFirst]
        | zero =>
          simp only [List.take_zero]
          unfold decFirst decEntry at h ⊢
          simp only [List.head?_cons, List.head?_nil, Option.some_bind, Option.none_bind,
            ite_self] at h ⊢
          cases he : (if c = 27 then T.escDecode d else none) with
          | none => rfl
          | some e => rw [he] at h; simp at h

theorem decFirst_need (T : Tables) (p : List Nat) (hT : decodeDefinedOn T p) :
    (decFirst T p).out.length = (decFirst T p).need := by
  obtain ⟨hsrc, hdec, hesc⟩ := hT
  cases p with
  | nil => rfl
  | cons c rest =>
    have hc : c < T.decode.length := hsrc c (by simp)
    have hm : T.decode.getD c ⟨0, []⟩ ∈ T.decode := by
      rw [List.getD_eq_getElem _ _ hc]
      exact List.getElem_mem hc
    unfold decFirst decEntry utf8Enc.bytes
    simp only [List.length_take]
    cases he : (if c = 27 then rest.head?.bind T.escDecode else none) with
    | none => exact Nat.min_eq_left (hdec _ hm)
    | some e =>
      simp only []
      apply Nat.min_eq_left
      by_cases hc1 : c = 27
      · rw [if_pos hc1] at he
        cases hh : rest.head? with
        | none => rw [hh] at he; simp at he
        | some d => rw [hh] at he; exact hesc d e (by simpa using he)
      · rw [if_neg hc1] at he; simp at he

theorem decodeDefinedOn_drop (T : Tables) (src : List Nat) (n : Nat)
    (hT : decodeDefinedOn T src) : decodeDefinedOn T (src.drop n) :=
  ⟨fun c hc => hT.1 c (List.mem_of_mem_drop hc), hT.2⟩

theorem decSegments_need (T : Tables) :
    ∀ (n : Nat) (src : List Nat), src.length = n → decodeDefinedOn T src →
      ∀ u ∈ segments (decFirst T) src, u.out.length = u.need := by
  intro n
  induction n using Nat.strong_induction_on with
  | _ n ih =>
    intro src hn hT u hu
    cases src with
    | nil => simp [segments_nil] at hu
    | cons c rest =>
      rw [segments_cons _ (decFirst_width_pos T)] at hu
      rcases List.mem_cons.mp hu with h | h
      · rw [h]; exact decFirst_need T _ hT
      · have h1 := decFirst_width_pos T c rest
        exact ih _ (by simp only [List.length_drop, ← hn, List.length_cons]; omega) _ rfl
          (decodeDefinedOn_drop T _ _ hT) u h

theorem take_writeAt_zero (dst out : List Nat) :
    (writeAt dst 0 out).take (0 + out.length) = out := by
  unfold writeAt
  simp

theorem drop_writeAt_zero (dst out : List Nat) (h : out.length ≤ dst.length) :
    (writeAt dst 0 out).drop (0 + out.length) = dst.drop (0 + out.length) := by
  unfold writeAt
  simp

/-- What one call of the decoder returns, in terms of the units of `src`. -/
theorem decoder_transform_eq (T : Tables) (dst src : List Nat) (atEOF : Bool)
    (hT : decodeDefinedOn T src) :
    Decoder.Transform T dst src atEOF =
      .done { dst := writeAt dst 0
                (outOf ((segments (decFirst T) src).take
                  (fitCount dst.length (segments (decFirst T) src)))),
              nDst := 0 + (outOf ((segments (decFirst T) src).take
                  (fitCount dst.length (segments (decFirst T) src)))).length,
              nSrc := 0 + widthOf ((segments (decFirst T) src).take
                  (fitCount dst.length (segments (decFirst T) src))),
              err := if fitCount dst.length (segments (decFirst T) src) <
                  (segments (decFirst T) src).length then .ErrShortDst else .nil } := by
  unfold Decoder.Transform
  rw [decoder_loop_eq T src hT _ _ _ _ (by omega) (by omega) (by omega), List.drop_zero,
    runSegs_eq _ (fun u hu => Nat.le_of_eq (decSegments_need T _ src rfl hT u hu)) _ _ _
      (by omega)]
  rfl

/-- C6: for every GSM byte sequence on which the decode tables are defined and
every output capacity, `Decoder.Transform` returns with `nDst <= len(dst)` and
`nSrc <= len(src)`; `dst[:nDst]` is the concatenation of the table entries of
the units of `src[:nSrc]` and the rest of `dst` is untouched; the status is
`ErrShortDst` exactly when `nSrc < len(src)`, and then the entry of the unit
that starts at `src[nSrc]` is longer than the remaining capacity; otherwise the
status is OK and `nSrc = len(src)`. -/
theorem decoder_transform_spec (T : Tables) (dst src : List Nat) (atEOF : Bool)
    (hT : decodeDefinedOn T src) :
    ∃ r, Decoder.Transform T dst src atEOF = .done r ∧
      r.nDst ≤ dst.length ∧ r.nSrc ≤ src.length ∧
      r.dst.take r.nDst = outOf (segments (decFirst T) (src.take r.nSrc)) ∧
      r.dst.drop r.nDst = dst.drop r.nDst ∧
      (r.err = .ErrShortDst ↔ r.nSrc < src.length) ∧
      (r.nSrc < src.length →
        dst.length - r.nDst < (decFirst T (src.drop r.nSrc)).need ∧
        (decFirst T (src.drop r.nSrc)).need = (decFirst T (src.drop r.nSrc)).out.length) ∧
      (r.err = .nil ↔ r.nSrc = src.length) := by
  have hneed := decSegments_need T _ src rfl hT
  have hle := outOf_fit_le (segments (decFirst T) src)
    (fun u hu => Nat.le_of_eq (hneed u hu)) dst.length
  have hwtot := widthOf_segments (decFirst T)
    (fun c rest => ⟨decFirst_width_pos T c rest, decFirst_width_le T c rest⟩) _ src rfl
  have hwle := widthOf_take_le (segments (decFirst T) src)
    (fitCount dst.length (segments (decFirst T) src))
  have hpos := segments_width_pos (decFirst T) (decFirst_width_pos T) _ src rfl
  have hfc := fitCount_le (segments (decFirst T) src) dst.length
  have hiff : fitCount dst.length (segments (decFirst T) src) <
        (segments (decFirst T) src).length ↔
      widthOf ((segments (decFirst T) src).take
        (fitCount dst.length (segments (decFirst T) src))) < src.length := by
    constructor
    · intro h
      have := widthOf_take_lt _ hpos _ h
      omega
    · intro h
      by_contra hn
      rw [List.take_of_length_le (by omega)] at h
      omega
  refine ⟨_, decoder_transform_eq T dst src atEOF hT, ?_, ?_, ?_, ?_, ?_, ?_, ?_⟩
  · simp only [Nat.zero_add]; exact hle
  · simp only [Nat.zero_add]; omega
  · simp only []
    rw [take_writeAt_zero, Nat.zero_add,
      segments_take (decFirst T) (decFirst_width_pos T) (decFirst_take T)]
  · simp only []
    rw [drop_writeAt_zero _ _ hle]
  · simp only [Nat.zero_add]
    rw [← hiff]
    by_cases hlt : fitCount dst.length (segments (decFirst T) src) <
        (segments (decFirst T) src).length
    · rw [if_pos hlt]
      exact ⟨fun _ => hlt, fun _ => rfl⟩
    · rw [if_neg hlt]
      exact ⟨fun h => (by cases h), fun h => absurd h hlt⟩
  · simp only [Nat.zero_add]
    intro h
    have hlt := hiff.mpr h
    have hstop := fitCount_stop (segments (decFirst T) src)
      (fun u hu => Nat.le_of_eq (hneed u hu)) dst.length hlt
    have hdrop := segments_drop (decFirst T) (decFirst_width_pos T)
      (fitCount dst.length (segments (decFirst T) src)) src
    obtain ⟨c, rest, hcr⟩ : ∃ c rest, src.drop (widthOf ((segments (decFirst T) src).take
        (fitCount dst.length (segments (decFirst T) src)))) = c :: rest := by
      cases hd : src.drop (widthOf ((segments (decFirst T) src).take
        (fitCount dst.length (segments (decFirst T) src)))) with
      | nil =>
        have := congrArg List.length hd
        simp only [List.length_drop, List.length_nil] at this
        omega
      | cons c rest => exact ⟨c, rest, rfl⟩
    rw [hcr] at hdrop ⊢
    rw [segments_cons _ (decFirst_width_pos T)] at hdrop
    rw [← hdrop] at hstop
    simp only [List.headD_cons] at hstop
    refine ⟨hstop, ?_⟩
    have hT' := decodeDefinedOn_drop T src (widthOf ((segments (decFirst T) src).take
        (fitCount dst.length (segments (decFirst T) src)))) hT
    rw [hcr] at hT'
    exact (decFirst_need T _ hT').symm
  · simp only [Nat.zero_add]
    constructor
    · intro h
      by_contra hne
      have hlt : widthOf ((segments (decFirst T) src).take
        (fitCount dst.length (segments (decFirst T) src))) < src.length := by omega
      rw [if_pos (hiff.mpr hlt)] at h
      cases h
    · intro h
      have : ¬ fitCount dst.length (segments (decFirst T) src) <
          (segments (decFirst T) src).length := by
        rw [hiff]; omega
      rw [if_neg this]

/-! ## The sample tables are well formed -/

theorem EncodeRune_length_le (c : Nat) (h : c ≤ 0xFFFF) : (EncodeRune c).length ≤ 3 := by
  unfold EncodeRune
  split_ifs <;> first | omega | simp

theorem utf8EncOf_len_le (c : Nat) (h : c ≤ 0xFFFF) :
    (utf8EncOf c).len ≤ (utf8EncOf c).data.length := by
  have := EncodeRune_length_le c h
  unfold utf8EncOf
  simp only [List.length_take, List.length_append, List.length_cons, List.length_nil]
  omega

theorem utf8EncOf_bytes (c : Nat) (h : c ≤ 0xFFFF) : (utf8EncOf c).bytes = EncodeRune c := by
  have := EncodeRune_length_le c h
  unfold utf8Enc.bytes utf8EncOf
  simp only []
  rw [List.take_take, Nat.min_eq_left (by omega), List.take_append_of_le_length (by omega),
    List.take_of_length_le (by omega)]

theorem sampleEscDecode_eq (g : Nat) (e : utf8Enc) (h : sampleEscDecode g = some e) :
    ∃ c, c ≤ 0xFFFF ∧ e = utf8EncOf c := by
  unfold sampleEscDecode at h
  split at h
  · rename_i x _
    refine ⟨x &&& 0xFFFF, Nat.and_le_right, ?_⟩
    simpa using h.symm
  · simp at h

set_option maxRecDepth 100000 in
theorem sampleAlphabet_le : ∀ c ∈ sampleAlphabet, c ≤ 0xFFFF := by decide

theorem sampleTables_defined (src : List Nat) (h : ∀ c ∈ src, c < 128) :
    decodeDefinedOn sampleTables src := by
  refine ⟨?_, ?_, ?_⟩
  · intro c hc
    have : sampleTables.decode.length = 128 := by
      simp [sampleTables, sampleAlphabet]
    rw [this]
    exact h c hc
  · intro e he
    simp only [sampleTables, List.mem_map] at he
    obtain ⟨c, hc, rfl⟩ := he
    exact utf8EncOf_len_le c (sampleAlphabet_le c hc)
  · intro k e he
    obtain ⟨c, hc, rfl⟩ := sampleEscDecode_eq k e he
    exact utf8EncOf_len_le c hc

set_option maxRecDepth 100000 in
/-- Witness of `decoder_transform_spec`: the third row of `transTable` decoded
into three bytes of room; the Euro sign does not fit and is left unconsumed. -/
theorem decoder_transform_spec_witness :
    decodeDefinedOn sampleTables [0x1B, 0x0A, 0x1B, 0x14, 0x1B, 0x65] ∧
    (∃ r, Decoder.Transform sampleTables [0, 0, 0] [0x1B, 0x0A, 0x1B, 0x14, 0x1B, 0x65] true =
        .done r ∧
      r.nDst ≤ ([0, 0, 0] : List Nat).length ∧
      r.nSrc ≤ ([0x1B, 0x0A, 0x1B, 0x14, 0x1B, 0x65] : List Nat).length ∧
      r.dst.take r.nDst =
        outOf (segments (decFirst sampleTables)
          (([0x1B, 0x0A, 0x1B, 0x14, 0x1B, 0x65] : List Nat).take r.nSrc)) ∧
      r.dst.drop r.nDst = ([0, 0, 0] : List Nat).drop r.nDst ∧
      (r.err = .ErrShortDst ↔
        r.nSrc < ([0x1B, 0x0A, 0x1B, 0x14, 0x1B, 0x65] : List Nat).length) ∧
      (r.nSrc < ([0x1B, 0x0A, 0x1B, 0x14, 0x1B, 0x65] : List Nat).length →
        ([0, 0, 0] : List Nat).length - r.nDst <
          (decFirst sampleTables
            (([0x1B, 0x0A, 0x1B, 0x14, 0x1B, 0x65] : List Nat).drop r.nSrc)).need ∧
        (decFirst sampleTables
            (([0x1B, 0x0A, 0x1B, 0x14, 0x1B, 0x65] : List Nat).drop r.nSrc)).need =
          (decFirst sampleTables
            (([0x1B, 0x0A, 0x1B, 0x14, 0x1B, 0x65] : List Nat).drop r.nSrc)).out.length) ∧
      (r.err = .nil ↔ r.nSrc = ([0x1B, 0x0A, 0x1B, 0x14, 0x1B, 0x65] : List Nat).length)) ∧
    Decoder.Transform sampleTables [0, 0, 0] [0x1B, 0x0A, 0x1B, 0x14, 0x1B, 0x65] true =
      .done { dst := [0x0C, 0x5E, 0], nDst := 2, nSrc := 4, err := .ErrShortDst } :=
  ⟨sampleTables_defined _ (by decide),
    decoder_transform_spec sampleTables [0, 0, 0] [0x1B, 0x0A, 0x1B, 0x14, 0x1B, 0x65] true
      (sampleTables_defined _ (by decide)),
    by decide⟩

set_option maxRecDepth 100000 in
/-- C10 (the code breaks it): with the sample tables, decoding `1B 0A` in one
call writes the form feed `0C`, but decoding `1B` and then the rest `0A` in a
second call writes the entry of `1B` followed by the line feed `0A`: an escape
byte that ends a chunk is decoded on its own instead of being left
unconsumed. -/
theorem decoder_chunked_output_differs :
    Decoder.Transform sampleTables [0, 0, 0, 0] [0x1B, 0x0A] true =
      .done { dst := [0x0C, 0, 0, 0], nDst := 1, nSrc := 2, err := .nil } ∧
    Decoder.Transform sampleTables [0, 0, 0, 0] [0x1B] false =
      .done { dst := [0xC2, 0xA0, 0, 0], nDst := 2, nSrc := 1, err := .nil } ∧
    Decoder.Transform sampleTables [0, 0, 0, 0] (([0x1B] : List Nat).drop 1 ++ [0x0A]) true =
      .done { dst := [0x0A, 0, 0, 0], nDst := 1, nSrc := 1, err := .nil } ∧
    ([0xC2, 0xA0, 0, 0].take 2 ++ [0x0A, 0, 0, 0].take 1 : List Nat) ≠ [0x0C, 0, 0, 0].take 1 := by
  decide

/-! ## `utf8.DecodeRune`: width -/

theorem first_cases (b : Nat) :
    first b = 0xF0 ∨ first b = 0xF1 ∨ first b = 0x02 ∨ first b = 0x13 ∨ first b = 0x03 ∨
      first b = 0x23 ∨ first b = 0x34 ∨ first b = 0x04 ∨ first b = 0x44 := by
  unfold first
  split_ifs <;> simp

theorem first_size (b : Nat) :
    first b ≥ 0xF0 ∨ (first b < 0xF0 ∧
      (first b &&& 7 = 2 ∨ first b &&& 7 = 3 ∨ first b &&& 7 = 4)) := by
  rcases first_cases b with h | h | h | h | h | h | h | h | h <;> rw [h] <;> decide

theorem DecodeRune_width (c : Nat) (rest : List Nat) :
    1 ≤ (DecodeRune (c :: rest)).2 ∧ (DecodeRune (c :: rest)).2 ≤ (c :: rest).length := by
  unfold DecodeRune
  simp only [List.length_cons]
  rcases first_size c with h | ⟨h, hz⟩
  · rw [if_pos h]
    split_ifs
    · exact ⟨Nat.le_refl 1, by simp⟩
    · exact ⟨Nat.le_refl 1, by simp⟩
  · rw [if_neg (by omega)]
    generalize first c &&& 7 = sz at hz
    generalize acceptRanges (first c >>> 4) = acc
    rcases hz with hz | hz | hz <;> subst hz <;> split_ifs <;> simp <;> omega

/-! ## Encoder: the search loop -/

theorem encode_sorted_all (T : Tables) (hs : encodeSorted T) :
    ∀ j i, i < j → j < 128 →
      T.encode.getD i 0 &&& 0xFFFF < T.encode.getD j 0 &&& 0xFFFF := by
  intro j
  induction j with
  | zero => intro i h; omega
  | succ k ih =>
    intro i h1 h2
    have hk := hs.2 k (by omega)
    rcases Nat.lt_or_ge i k with h | h
    · exact Nat.lt_trans (ih i h (by omega)) hk
    · have : i = k := by omega
      rw [this]; exact hk

theorem encode_getElem? (T : Tables) (hs : encodeSorted T) (k : Nat) (hk : k < 128) :
    T.encode[k]? = some (T.encode.getD k 0) := by
  have : k < T.encode.length := Nat.lt_of_lt_of_le hk hs.1
  rw [List.getD_eq_getElem _ _ this, List.getElem?_eq_getElem this]

theorem encLookup_of_index (T : Tables) (hs : encodeSorted T) (r k : Nat) (hk : k < 128)
    (hr : T.encode.getD k 0 &&& 0xFFFF = r) :
    encLookup T r = some (T.encode.getD k 0) := by
  have hlen : k < T.encode.length := Nat.lt_of_lt_of_le hk hs.1
  have hlen' : k < (T.encode.take 0x80).length := by
    have := hs.1
    rw [List.length_take]; omega
  unfold encLookup
  rw [List.find?_eq_some]
  refine ⟨by simpa using hr, (T.encode.take 0x80).take k, (T.encode.take 0x80).drop (k + 1),
    ?_, ?_⟩
  · have h1 : (T.encode.take 0x80).drop k =
        T.encode.getD k 0 :: (T.encode.take 0x80).drop (k + 1) := by
      rw [List.drop_eq_getElem_cons hlen', List.getElem_take, List.getD_eq_getElem _ _ hlen]
    rw [← h1, List.take_append_drop]
  · intro a ha
    obtain ⟨n, hn, rfl⟩ := List.getElem_of_mem ha
    have hnk : n < k := by
      simp only [List.length_take] at hn; omega
    have := encode_sorted_all T hs k n hnk hk
    rw [List.getElem_take, List.getElem_take,
      ← List.getD_eq_getElem _ 0 (by omega : n < T.encode.length)]
    simp only [Bool.not_eq_true', beq_eq_false_iff_ne, ne_eq]
    omega

theorem encLookup_none (T : Tables) (hs : encodeSorted T) (r : Nat)
    (h : ∀ k, k < 128 → T.encode.getD k 0 &&& 0xFFFF ≠ r) : encLookup T r = none := by
  unfold encLookup
  rw [List.find?_eq_none]
  intro x hx
  obtain ⟨n, hn, rfl⟩ := List.getElem_of_mem hx
  have hn' : n < 128 := by simp only [List.length_take] at hn; omega
  have := h n hn'
  rw [List.getElem_take, ← List.getD_eq_getElem _ 0 (Nat.lt_of_lt_of_le hn' hs.1)]
  simpa using this

theorem search_eq (T : Tables) (hs : encodeSorted T) (en : Encoder) (r size : Nat)
    (dst : List Nat) (nDst nSrc : Nat) :
    ∀ (fuel low high : Nat), low ≤ high → high ≤ 128 → high < fuel + low →
      (∀ k, k < 128 → T.encode.getD k 0 &&& 0xFFFF = r → low ≤ k ∧ k < high) →
      Encoder.search T en r size dst nDst nSrc fuel low high =
        match encLookup T r with
        | some got =>
          (match store dst nDst ((got >>> 24) % 256) with
          | none => .panic
          | some dst1 =>
            if (got >>> 24) % 256 = 27 then
              (match store dst1 (nDst + 1) 27 with
              | none => .panic
              | some dst2 => .done (.next dst2 (nDst + 2) nSrc))
            else .done (.next dst1 (nDst + 1) nSrc))
        | none => Encoder.ext T en r size (T.escEncode.length + 1) dst nDst nSrc 0 := by
  intro fuel
  induction fuel with
  | zero => intro low high h0 h1 h2; omega
  | succ f ih =>
    intro low high h0 h1 h2 hinv
    rw [Encoder.search]
    by_cases hlh : low ≥ high
    · rw [if_pos hlh, encLookup_none T hs r (by
        intro k hk hr
        have := hinv k hk hr
        omega)]
    · rw [if_neg hlh]
      have hmid : (low + high) / 2 < 128 := by omega
      simp only [encode_getElem? T hs _ hmid]
      by_cases hlt : T.encode.getD ((low + high) / 2) 0 &&& 0xFFFF < r
      · rw [if_pos hlt]
        apply ih _ _ (by omega) h1 (by omega)
        intro k hk hr
        have hk2 := hinv k hk hr
        refine ⟨?_, hk2.2⟩
        by_contra hc
        rcases Nat.lt_or_ge k ((low + high) / 2) with h | h
        · have := encode_sorted_all T hs _ _ h hmid
          omega
        · have : k = (low + high) / 2 := by omega
          rw [this] at hr
          omega
      · rw [if_neg hlt]
        by_cases hgt : T.encode.getD ((low + high) / 2) 0 &&& 0xFFFF > r
        · rw [if_pos hgt]
          apply ih _ _ (by omega) (by omega) (by omega)
          intro k hk hr
          have hk2 := hinv k hk hr
          refine ⟨hk2.1, ?_⟩
          by_contra hc
          rcases Nat.lt_or_ge ((low + high) / 2) k with h | h
          · have := encode_sorted_all T hs _ _ h hk
            omega
          · have : k = (low + high) / 2 := by omega
            rw [this] at hr
            omega
        · rw [if_neg hgt, encLookup_of_index T hs r _ hmid (by omega)]

/-! ## Encoder: the extension scan -/

theorem ext_eq (T : Tables) (en : Encoder) (r size : Nat) (dst : List Nat) (nDst nSrc : Nat) :
    ∀ (fuel i : Nat), i ≤ T.escEncode.length → T.escEncode.length < fuel + i →
      Encoder.ext T en r size fuel dst nDst nSrc i =
        match (T.escEncode.drop i).find? (fun e => e &&& 0xFFFF == r) with
        | some e =>
          if nDst + 2 ≥ dst.length then
            .done (.stop { dst := dst, nDst := nDst, nSrc := nSrc - size, err := .ErrShortDst })
          else
            (match store dst nDst ((e >>> 24) % 256) with
            | none => .panic
            | some dst1 =>
              match store dst1 (nDst + 1) ((((e <<< 8) % 4294967296) >>> 24) % 256) with
              | none => .panic
              | some dst2 => .done (.next dst2 (nDst + 2) nSrc))
        | none =>
          (match store dst nDst en.replacement with
          | none => .panic
          | some dst1 => .done (.next dst1 (nDst + 1) nSrc)) := by
  intro fuel
  induction fuel with
  | zero => intro i h1 h2; omega
  | succ f ih =>
    intro i h1 h2
    rw [Encoder.ext]
    by_cases hi : i < T.escEncode.length
    · rw [if_pos hi, List.drop_eq_getElem_cons hi,
        ← List.getD_eq_getElem _ 0 hi]
      simp only []
      by_cases hr : T.escEncode.getD i 0 &&& 0xFFFF = r
      · rw [if_pos hr, List.find?_cons_of_pos _ (by simpa using hr)]
      · rw [if_neg hr, List.find?_cons_of_neg _ (by simpa using hr)]
        exact ih (i + 1) (by omega) (by omega)
    · rw [if_neg hi, List.drop_of_length_le (by omega)]
      rfl

/-! ## Encoder: the loop -/

theorem encFirst_width (T : Tables) (en : Encoder) (p : List Nat) :
    (encFirst T en p).width = (DecodeRune p).2 := by
  unfold encFirst
  split
  · rfl
  · split
    · rfl
    · split <;> rfl

theorem encFirst_width_pos (T : Tables) (en : Encoder) (c : Nat) (rest : List Nat) :
    1 ≤ (encFirst T en (c :: rest)).width := by
  rw [encFirst_width]; exact (DecodeRune_width c rest).1

theorem encFirst_width_le (T : Tables) (en : Encoder) (c : Nat) (rest : List Nat) :
    (encFirst T en (c :: rest)).width ≤ (c :: rest).length := by
  rw [encFirst_width]; exact (DecodeRune_width c rest).2

theorem encFirst_out_need (T : Tables) (en : Encoder) (p : List Nat) :
    (encFirst T en p).out.length ≤ 2 ∧ (encFirst T en p).need ≤ 3 ∧
      (encFirst T en p).out.length ≤ (encFirst T en p).need := by
  unfold encFirst
  split
  · simp
  · split
    · split <;> simp
    · split <;> simp

theorem encSegments_bound (T : Tables) (en : Encoder) :
    ∀ (n : Nat) (src : List Nat), src.length = n →
      ∀ u ∈ segments (encFirst T en) src,
        u.out.length ≤ 2 ∧ u.need ≤ 3 ∧ u.out.length ≤ u.need := by
  intro n
  induction n using Nat.strong_induction_on with
  | _ n ih =>
    intro src hn u hu
    cases src with
    | nil => simp [segments_nil] at hu
    | cons c rest =>
      rw [segments_cons _ (encFirst_width_pos T en)] at hu
      rcases List.mem_cons.mp hu with h | h
      · rw [h]; exact encFirst_out_need T en _
      · have h1 := encFirst_width_pos T en c rest
        exact ih _ (by simp only [List.length_drop, ← hn, List.length_cons]; omega) _ rfl u h

theorem writeAt_two (dst : List Nat) (n a b : Nat) (h : n + 2 ≤ dst.length) :
    writeAt (writeAt dst n [a]) (n + 1) [b] = writeAt dst n [a, b] := by
  have := writeAt_writeAt dst n [a] [b] (by simp only [List.length_singleton]; omega)
  simpa using this

theorem encoder_loop_eq (T : Tables) (hs : encodeSorted T) (en : Encoder) (src : List Nat) :
    ∀ (fuel nSrc nDst : Nat) (dst : List Nat), nSrc ≤ src.length → src.length < fuel + nSrc →
      nDst ≤ dst.length →
      Encoder.loop T en src fuel dst nDst nSrc =
        .done (runSegs (segments (encFirst T en) (src.drop nSrc)) dst nDst nSrc) := by
  intro fuel
  induction fuel with
  | zero => intro nSrc nDst dst h1 h2; omega
  | succ f ih =>
    intro nSrc nDst dst h1 h2 h3
    rw [Encoder.loop]
    by_cases hi : nSrc < src.length
    · rw [if_pos hi]
      obtain ⟨c, rest, hcr⟩ : ∃ c rest, src.drop nSrc = c :: rest :=
        ⟨_, _, getD_drop_head src nSrc hi⟩
      have hlenr : (c :: rest).length = src.length - nSrc := by
        rw [← hcr, List.length_drop]
      obtain ⟨hw1, hw2⟩ := DecodeRune_width c rest
      rw [hlenr] at hw2
      rw [hcr, segments_cons _ (encFirst_width_pos T en), runSegs]
      have hdrop : (c :: rest).drop (encFirst T en (c :: rest)).width =
          src.drop (nSrc + (DecodeRune (c :: rest)).2) := by
        rw [encFirst_width, ← hcr, List.drop_drop]
      rw [hdrop]
      obtain ⟨ho2, hn3, hon⟩ := encFirst_out_need T en (c :: rest)
      by_cases hroom : (nDst : Int) ≥ (dst.length : Int) - 1
      · have hn2 : 2 ≤ (encFirst T en (c :: rest)).need := by
          unfold encFirst
          split
          · simp
          · split
            · simp
            · split <;> simp
        rw [if_pos hroom, if_pos (by omega)]
      · rw [if_neg hroom]
        have hr2 : nDst + 2 ≤ dst.length := by omega
        have hwl1 : ∀ v, (writeAt dst nDst [v]).length = dst.length := fun v =>
          writeAt_length _ _ _ (by simp only [List.length_singleton]; omega)
        have hwl2 : ∀ a b, (writeAt dst nDst [a, b]).length = dst.length := fun a b =>
          writeAt_length _ _ _ (by simp only [List.length_cons, List.length_nil]; omega)
        simp only []
        by_cases hre : (DecodeRune (c :: rest)).1 = RuneError
        · have hf : encFirst T en (c :: rest) =
              { out := [en.replacement], width := (DecodeRune (c :: rest)).2, need := 2 } := by
            unfold encFirst; rw [if_pos hre]
          rw [if_pos hre, store_writeAt _ _ _ (by omega), hf]
          simp only [List.length_singleton]
          rw [if_neg (by omega), ih _ _ _ (by omega) (by omega)
            (by rw [hwl1]; omega)]
        · rw [if_neg hre, search_eq T hs en _ _ _ _ _ _ _ _ (by omega) (by omega) (by omega)
            (fun k hk _ => ⟨by omega, hk⟩)]
          cases hlook : encLookup T (DecodeRune (c :: rest)).1 with
          | some got =>
            have hf : encFirst T en (c :: rest) =
                { out := if (got >>> 24) % 256 = 27 then [27, 27] else [(got >>> 24) % 256],
                  width := (DecodeRune (c :: rest)).2, need := 2 } := by
              unfold encFirst; rw [if_neg hre, hlook]
            rw [hf]
            simp only []
            rw [store_writeAt _ _ _ (by omega), if_neg (by omega)]
            simp only []
            by_cases h27 : (got >>> 24) % 256 = 27
            · rw [if_pos h27, if_pos h27, store_writeAt _ _ _
                (by rw [hwl1]; omega), h27, writeAt_two _ _ _ _ hr2]
              simp only [List.length_cons, List.length_nil]
              rw [ih _ _ _ (by omega) (by omega)
                (by rw [hwl2]; omega)]
            · rw [if_neg h27, if_neg h27]
              simp only [List.length_singleton]
              rw [ih _ _ _ (by omega) (by omega)
                (by rw [hwl1]; omega)]
          | none =>
            simp only []
            rw [ext_eq T en _ _ _ _ _ _ 0 (by omega) (by omega), List.drop_zero]
            cases hext : extLookup T (DecodeRune (c :: rest)).1 with
            | some e =>
              have hf : encFirst T en (c :: rest) =
                  { out := [(e >>> 24) % 256, (((e <<< 8) % 4294967296) >>> 24) % 256],
                    width := (DecodeRune (c :: rest)).2, need := 3 } := by
                unfold encFirst; rw [if_neg hre, hlook]; simp only []; rw [hext]
              unfold extLookup at hext
              rw [hf, hext]
              simp only []
              by_cases hfull : nDst + 2 ≥ dst.length
              · rw [if_pos hfull, if_pos (by omega)]
                simp only [Nat.add_sub_cancel]
              · rw [if_neg hfull, if_neg (by omega), store_writeAt _ _ _ (by omega)]
                simp only []
                rw [store_writeAt _ _ _
                  (by rw [hwl1]; omega), writeAt_two _ _ _ _ hr2]
                simp only [List.length_cons, List.length_nil]
                rw [ih _ _ _ (by omega) (by omega)
                  (by rw [hwl2]; omega)]
            | none =>
              have hf : encFirst T en (c :: rest) =
                  { out := [en.replacement], width := (DecodeRune (c :: rest)).2, need := 2 } := by
                unfold encFirst; rw [if_neg hre, hlook]; simp only []; rw [hext]
              unfold extLookup at hext
              rw [hf, hext]
              simp only []
              rw [store_writeAt _ _ _ (by omega)]
              simp only [List.length_singleton]
              rw [if_neg (by omega), ih _ _ _ (by omega) (by omega)
                (by rw [hwl1]; omega)]
    · have : nSrc = src.length := by omega
      subst this
      rw [if_neg hi, List.drop_length, segments_nil]
      rfl

/-- What one call of the encoder returns, in terms of the units of `src`. -/
theorem encoder_transform_eq (T : Tables) (hs : encodeSorted T) (en : Encoder)
    (dst src : List Nat) (atEOF : Bool) :
    Encoder.Transform T en dst src atEOF =
      .done { dst := writeAt dst 0
                (outOf ((segments (encFirst T en) src).take
                  (fitCount dst.length (segments (encFirst T en) src)))),
              nDst := 0 + (outOf ((segments (encFirst T en) src).take
                  (fitCount dst.length (segments (encFirst T en) src)))).length,
              nSrc := 0 + widthOf ((segments (encFirst T en) src).take
                  (fitCount dst.length (segments (encFirst T en) src))),
              err := if fitCount dst.length (segments (encFirst T en) src) <
                  (segments (encFirst T en) src).length then .ErrShortDst else .nil } := by
  unfold Encoder.Transform
  rw [encoder_loop_eq T hs en src _ _ _ _ (by omega) (by omega) (by omega), List.drop_zero,
    runSegs_eq _ (fun u hu => (encSegments_bound T en _ src rfl u hu).2.2) _ _ _ (by omega)]
  rfl

theorem segments_length_le (first : List Nat → Segment)
    (hw : ∀ c rest, 1 ≤ (first (c :: rest)).width ∧
      (first (c :: rest)).width ≤ (c :: rest).length) (src : List Nat) :
    (segments first src).length ≤ src.length := by
  have h1 := widthOf_segments first hw _ src rfl
  have h2 := segments_width_pos first (fun c rest => (hw c rest).1) _ src rfl
  have : ∀ us : List Segment, (∀ u ∈ us, 1 ≤ u.width) → us.length ≤ widthOf us := by
    intro us
    induction us with
    | nil => intro _; simp
    | cons u us ih =>
      intro h
      have := ih (fun v hv => h v (by simp [hv]))
      have := h u (by simp)
      rw [widthOf_cons, List.length_cons]
      omega
  have := this _ h2
  omega

/-- With room for two bytes per input byte and two more, the encoder consumes
everything and writes the encoding of every unit. -/
theorem encoder_transform_full (T : Tables) (hs : encodeSorted T) (en : Encoder)
    (dst src : List Nat) (atEOF : Bool) (hd : 2 * src.length + 2 ≤ dst.length) :
    Encoder.Transform T en dst src atEOF =
      .done { dst := writeAt dst 0 (outOf (segments (encFirst T en) src)),
              nDst := (outOf (segments (encFirst T en) src)).length,
              nSrc := src.length, err := .nil } := by
  have hw : ∀ c rest, 1 ≤ (encFirst T en (c :: rest)).width ∧
      (encFirst T en (c :: rest)).width ≤ (c :: rest).length :=
    fun c rest => ⟨encFirst_width_pos T en c rest, encFirst_width_le T en c rest⟩
  have hlen := segments_length_le (encFirst T en) hw src
  have hall := fitCount_all_of_bound 2 3 (segments (encFirst T en) src)
    (fun u hu => ⟨(encSegments_bound T en _ src rfl u hu).1,
      (encSegments_bound T en _ src rfl u hu).2.1⟩) dst.length (by omega)
  rw [encoder_transform_eq T hs, hall, List.take_length,
    widthOf_segments (encFirst T en) hw _ src rfl]
  simp

/-! ## Properties of the encoder -/

set_option maxRecDepth 100000 in
theorem sampleTables_sorted : encodeSorted sampleTables := by
  unfold encodeSorted
  exact ⟨by decide, by decide⟩

set_option maxRecDepth 100000 in
theorem fffdTables_sorted : encodeSorted fffdTables := by
  unfold encodeSorted
  exact ⟨by decide, by decide⟩

/-- The reference encoding of a unit in the words of the specification is what
the encoder does, when U+FFFD is in neither table. -/
theorem refEncFirst_eq (T : Tables) (en : Encoder)
    (h1 : ∀ e ∈ T.encode.take 0x80, e &&& 0xFFFF ≠ RuneError)
    (h2 : ∀ e ∈ T.escEncode, e &&& 0xFFFF ≠ RuneError) :
    refEncFirst T en = encFirst T en := by
  funext p
  unfold refEncFirst encFirst
  by_cases hr : (DecodeRune p).1 = RuneError
  · have l1 : encLookup T RuneError = none := by
      unfold encLookup
      rw [List.find?_eq_none]
      intro x hx
      simpa using h1 x hx
    have l2 : extLookup T RuneError = none := by
      unfold extLookup
      rw [List.find?_eq_none]
      intro x hx
      simpa using h2 x hx
    rw [if_pos hr]
    split
    · rfl
    · rw [hr, l1]
      simp only []
      rw [l2]
  · rw [if_neg hr, if_neg (fun h => hr h.1)]

set_option maxRecDepth 100000 in
/-- C5 (as stated, refuted): with an encode table of 128 strictly ascending
entries that pairs GSM byte `0x15` with U+FFFD, the valid UTF-8 unit `EF BF BD`
has the reference encoding `[0x15]`, but the encoder writes the replacement
byte `0x3F`: a rune equal to `utf8.RuneError` is never looked up. -/
theorem encoder_fffd_not_looked_up :
    encodeSorted fffdTables ∧
    DecodeRune [0xEF, 0xBF, 0xBD] = (0xFFFD, 3) ∧
    outOf (segments (refEncFirst fffdTables (NewEncoder 0)) [0xEF, 0xBF, 0xBD]) = [0x15] ∧
    Encoder.Transform fffdTables (NewEncoder 0) (List.replicate 8 0) [0xEF, 0xBF, 0xBD] true =
      .done { dst := 0x3F :: List.replicate 7 0, nDst := 1, nSrc := 3, err := .nil } ∧
    (0x3F :: List.replicate 7 0).take 1 ≠ [0x15] :=
  ⟨fffdTables_sorted, by decide, by decide, by decide, by decide⟩

/-- C5 (amended): when the encode table has 128 entries strictly ascending by
code point, one `Encoder.Transform` call with output capacity at least
`2*len(src)+2` returns OK with `nSrc = len(src)`, and its output is the
concatenation over the units of `src` of: the replacement byte for a unit that
`DecodeRune` reports as U+FFFD (an invalid unit, or the encoding of U+FFFD
itself); `[b]`, or `[0x1B, 0x1B]` when `b = 0x1B`, for a code point found by
linear lookup in the encode table with GSM byte `b`; otherwise the pair of the
first extension entry with that code point; otherwise the replacement byte.
When U+FFFD is in neither table this is the reference encoding of the
specification. -/
theorem encoder_writes_units (T : Tables) (en : Encoder) (dst src : List Nat) (atEOF : Bool)
    (hs : encodeSorted T) (hd : 2 * src.length + 2 ≤ dst.length) :
    ∃ r, Encoder.Transform T en dst src atEOF = .done r ∧
      r.err = .nil ∧ r.nSrc = src.length ∧
      r.dst.take r.nDst = outOf (segments (encFirst T en) src) ∧
      ((∀ e ∈ T.encode.take 0x80, e &&& 0xFFFF ≠ RuneError) →
        (∀ e ∈ T.escEncode, e &&& 0xFFFF ≠ RuneError) →
        r.dst.take r.nDst = outOf (segments (refEncFirst T en) src)) := by
  have ht : (writeAt dst 0 (outOf (segments (encFirst T en) src))).take
      (outOf (segments (encFirst T en) src)).length = outOf (segments (encFirst T en) src) := by
    have := take_writeAt_zero dst (outOf (segments (encFirst T en) src))
    rwa [Nat.zero_add] at this
  refine ⟨_, encoder_transform_full T hs en dst src atEOF hd, ?_, ?_, ht, ?_⟩
  · rfl
  · rfl
  · intro h1 h2
    rw [refEncFirst_eq T en h1 h2]
    exact ht

set_option maxRecDepth 100000 in
/-- Witness of `encoder_writes_units`: the third row of `transTable` with the
sample tables, and the outputs of the three rows. -/
theorem encoder_writes_units_witness :
    (∃ r, Encoder.Transform sampleTables (NewEncoder 0) (List.replicate 12 0)
        [0x0C, 0x5E, 0xE2, 0x82, 0xAC] true = .done r ∧
      r.err = .nil ∧ r.nSrc = ([0x0C, 0x5E, 0xE2, 0x82, 0xAC] : List Nat).length ∧
      r.dst.take r.nDst =
        outOf (segments (encFirst sampleTables (NewEncoder 0)) [0x0C, 0x5E, 0xE2, 0x82, 0xAC]) ∧
      ((∀ e ∈ sampleTables.encode.take 0x80, e &&& 0xFFFF ≠ RuneError) →
        (∀ e ∈ sampleTables.escEncode, e &&& 0xFFFF ≠ RuneError) →
        r.dst.take r.nDst =
          outOf (segments (refEncFirst sampleTables (NewEncoder 0))
            [0x0C, 0x5E, 0xE2, 0x82, 0xAC]))) ∧
    outOf (segments (refEncFirst sampleTables (NewEncoder 0)) [0x0C, 0x5E, 0xE2, 0x82, 0xAC]) =
      [0x1B, 0x0A, 0x1B, 0x14, 0x1B, 0x65] ∧
    outOf (segments (refEncFirst sampleTables (NewEncoder 0))
      [0xC3, 0xA8, 0xC3, 0xA9, 0xC3, 0x98, 0xCE, 0xA6]) = [0x04, 0x05, 0x0B, 0x12] ∧
    outOf (segments (refEncFirst sampleTables (NewEncoder 0)) [0x61, 0x53, 0x6B, 0x49, 0x69]) =
      [0x61, 0x53, 0x6B, 0x49, 0x69] :=
  ⟨encoder_writes_units sampleTables (NewEncoder 0) (List.replicate 12 0)
      [0x0C, 0x5E, 0xE2, 0x82, 0xAC] true sampleTables_sorted (by decide),
    by decide, by decide, by decide⟩

set_option maxRecDepth 100000 in
/-- C9 (the code breaks it): `C3 A8` in one call is encoded as `04` (sample
tables), but split between its two bytes each call sees an invalid unit: the
first call, on `C3` with the final-chunk flag false, writes the replacement
byte and reports the byte consumed, whatever the tables; the second call, on
the rest `A8`, writes the replacement byte again. -/
theorem encoder_chunked_output_differs :
    (∀ T : Tables,
      Encoder.Transform T (NewEncoder 0) [0, 0, 0, 0] [0xC3] false =
        .done { dst := [0x3F, 0, 0, 0], nDst := 1, nSrc := 1, err := .nil } ∧
      Encoder.Transform T (NewEncoder 0) [0, 0, 0, 0] (([0xC3] : List Nat).drop 1 ++ [0xA8])
          true =
        .done { dst := [0x3F, 0, 0, 0], nDst := 1, nSrc := 1, err := .nil }) ∧
    Encoder.Transform sampleTables (NewEncoder 0) [0, 0, 0, 0] [0xC3, 0xA8] true =
      .done { dst := [0x04, 0, 0, 0], nDst := 1, nSrc := 2, err := .nil } ∧
    ([0x3F, 0, 0, 0].take 1 ++ [0x3F, 0, 0, 0].take 1 : List Nat) ≠ [0x04, 0, 0, 0].take 1 :=
  ⟨fun T => ⟨rfl, rfl⟩, by decide, by decide⟩

/-! ## `utf8`: decoding an encoded rune -/

theorem or_C0 : ∀ x < 32, 0xC0 ||| x = 0xC0 + x := by decide
theorem or_E0 : ∀ x < 16, 0xE0 ||| x = 0xE0 + x := by decide
theorem or_80 : ∀ x < 64, 0x80 ||| x = 0x80 + x := by decide
theorem and_C0_1F : ∀ x < 32, (0xC0 + x) &&& 0x1F = x := by decide
theorem and_E0_0F : ∀ x < 16, (0xE0 + x) &&& 0x0F = x := by decide
theorem and_80_3F : ∀ x < 64, (0x80 + x) &&& 0x3F = x := by decide

theorem and_3F (x : Nat) : x &&& 0x3F = x % 64 :=
  Nat.and_pow_two_sub_one_eq_mod x 6

theorem EncodeRune_one (c : Nat) (h : c ≤ 0x7F) : EncodeRune c = [c] := by
  unfold EncodeRune; rw [if_pos h]

theorem shr_6 (c : Nat) : c >>> 6 = c / 64 := Nat.shiftRight_eq_div_pow c 6

theorem shr_12 (c : Nat) : c >>> 12 = c / 4096 := Nat.shiftRight_eq_div_pow c 12

theorem EncodeRune_two (c : Nat) (h1 : 0x80 ≤ c) (h2 : c ≤ 0x7FF) :
    EncodeRune c = [0xC0 + c / 64, 0x80 + c % 64] := by
  have b0 : 0xC0 ||| ((c >>> 6) % 256) = 0xC0 + c / 64 := by
    rw [shr_6, or_C0 _ (by omega)]; omega
  have b1 : 0x80 ||| ((c % 256) &&& 0x3F) = 0x80 + c % 64 := by
    rw [and_3F, or_80 _ (by omega)]; omega
  unfold EncodeRune
  rw [if_neg (by omega), if_pos h2, b0, b1]

theorem EncodeRune_three (c : Nat) (h1 : 0x800 ≤ c) (h2 : c ≤ 0xFFFF)
    (hs : c < 0xD800 ∨ 0xE000 ≤ c) :
    EncodeRune c = [0xE0 + c / 4096, 0x80 + c / 64 % 64, 0x80 + c % 64] := by
  have b0 : 0xE0 ||| ((c >>> 12) % 256) = 0xE0 + c / 4096 := by
    rw [shr_12, or_E0 _ (by omega)]; omega
  have b1 : 0x80 ||| (((c >>> 6) % 256) &&& 0x3F) = 0x80 + c / 64 % 64 := by
    rw [shr_6, and_3F, or_80 _ (by omega)]; omega
  have b2 : 0x80 ||| ((c % 256) &&& 0x3F) = 0x80 + c % 64 := by
    rw [and_3F, or_80 _ (by omega)]; omega
  unfold EncodeRune
  rw [if_neg (by omega), if_neg (by omega), if_neg (by omega), if_pos h2, b0, b1, b2]

theorem shl_or (a b i : Nat) (hb : b < 2 ^ i) : (a <<< i) ||| b = a * 2 ^ i + b := by
  rw [Nat.shiftLeft_eq, Nat.mul_comm, Nat.mul_add_lt_is_or hb]

theorem DecodeRune_one (c : Nat) (rest : List Nat) (h : c ≤ 0x7F) :
    DecodeRune (c :: rest) = (c, 1) := by
  have hf : first c = 0xF0 := by unfold first; rw [if_pos (by omega)]
  unfold DecodeRune
  simp only [hf]
  rfl

theorem DecodeRune_two (h l : Nat) (rest : List Nat) (h1 : 2 ≤ h) (h2 : h < 32) (hl : l < 64) :
    DecodeRune ((0xC0 + h) :: (0x80 + l) :: rest) = (h * 64 + l, 2) := by
  have hf : first (0xC0 + h) = 0x02 := by
    unfold first
    rw [if_neg (by omega), if_neg (by omega), if_pos (by omega)]
  have e1 : (2 : Nat) &&& 7 = 2 := by decide
  have e2 : (2 : Nat) >>> 4 = 0 := by decide
  unfold DecodeRune
  simp only [hf, e1, e2, acceptRanges, List.length_cons, List.getD_cons_succ,
    List.getD_cons_zero]
  rw [if_neg (by omega), if_neg (by omega), if_neg (by omega), if_pos (by omega),
    and_C0_1F _ h2, and_80_3F _ hl, shl_or _ _ 6 (by omega)]
  rfl

theorem DecodeRune_three (a b l : Nat) (rest : List Nat) (ha : a < 16) (hb : b < 64)
    (hl : l < 64) (hmin : a = 0 → 32 ≤ b) (hsur : a = 13 → b < 32) :
    DecodeRune ((0xE0 + a) :: (0x80 + b) :: (0x80 + l) :: rest) = (a * 4096 + b * 64 + l, 3) := by
  have key : ∀ x, (x = 0x13 ∨ x = 0x23 ∨ x = 0x03) → first (0xE0 + a) = x →
      ¬ (0x80 + b < (acceptRanges (x >>> 4)).1 ∨ (acceptRanges (x >>> 4)).2 < 0x80 + b) →
      x &&& 7 = 3 →
      DecodeRune ((0xE0 + a) :: (0x80 + b) :: (0x80 + l) :: rest) = (a * 4096 + b * 64 + l, 3) := by
    intro x hx hf hacc hsz
    unfold DecodeRune
    simp only [hf, hsz, List.length_cons, List.getD_cons_succ, List.getD_cons_zero]
    rw [if_neg (by rcases hx with h | h | h <;> rw [h] <;> decide), if_neg (by omega),
      if_neg hacc, if_neg (by omega), if_neg (by omega), if_pos (by omega),
      and_E0_0F _ ha, and_80_3F _ hb, and_80_3F _ hl]
    have h1 : (a <<< 12) ||| (b <<< 6) = (a * 64 + b) <<< 6 := by
      rw [Nat.shiftLeft_eq b, Nat.shiftLeft_eq a, Nat.shiftLeft_eq (a * 64 + b)]
      have : b * 2 ^ 6 < 2 ^ 12 := by omega
      have h3 := Nat.mul_add_lt_is_or this a
      rw [Nat.mul_comm (2 ^ 12) a] at h3
      rw [← h3]
      omega
    rw [h1, shl_or _ _ 6 (by omega)]
    congr 1
    omega
  by_cases h0 : a = 0
  · subst h0
    exact key 0x13 (by simp) (by unfold first; simp) (by
      have := hmin rfl
      simp only [acceptRanges, show (0x13 : Nat) >>> 4 = 1 by decide]
      omega) (by decide)
  · by_cases h13 : a = 13
    · subst h13
      exact key 0x23 (by simp) (by unfold first; simp) (by
        have := hsur rfl
        simp only [acceptRanges, show (0x23 : Nat) >>> 4 = 2 by decide]
        omega) (by decide)
    · exact key 0x03 (by simp) (by
        unfold first
        rw [if_neg (by omega), if_neg (by omega), if_neg (by omega), if_neg (by omega)]
        by_cases hlt : 0xE0 + a < 0xED
        · rw [if_pos hlt]
        · rw [if_neg hlt, if_neg (by omega), if_pos (by omega)]) (by
        simp only [acceptRanges, show (0x03 : Nat) >>> 4 = 0 by decide]
        omega) (by decide)

/-- Decoding after encoding: `DecodeRune` reads back a code point below
`0x10000` that is not a surrogate from its UTF-8 encoding, whatever follows. -/
theorem DecodeRune_EncodeRune (c : Nat) (rest : List Nat) (h : c ≤ 0xFFFF)
    (hs : c < 0xD800 ∨ 0xE000 ≤ c) :
    DecodeRune (EncodeRune c ++ rest) = (c, (EncodeRune c).length) := by
  by_cases h1 : c ≤ 0x7F
  · rw [EncodeRune_one c h1]
    exact DecodeRune_one c rest h1
  · by_cases h2 : c ≤ 0x7FF
    · rw [EncodeRune_two c (by omega) h2]
      have := DecodeRune_two (c / 64) (c % 64) rest (by omega) (by omega) (by omega)
      simp only [List.cons_append, List.nil_append, List.length_cons, List.length_nil]
      rw [this]
      congr 1
      omega
    · rw [EncodeRune_three c (by omega) h hs]
      have := DecodeRune_three (c / 4096) (c / 64 % 64) (c % 64) rest (by omega) (by omega)
        (by omega) (by omega) (by omega)
      simp only [List.cons_append, List.nil_append, List.length_cons, List.length_nil]
      rw [this]
      congr 1
      omega

/-! ## Encoding followed by decoding -/

theorem encFirst_congr (T : Tables) (en : Encoder) (p q : List Nat)
    (h : DecodeRune p = DecodeRune q) : encFirst T en p = encFirst T en q := by
  unfold encFirst; rw [h]

theorem representable_le (T : Tables) (c : Nat) (h : representable T c) : c ≤ 0xFFFF := by
  rcases h.2.2.2 with ⟨e, _, he⟩ | ⟨e, _, he⟩ <;> rw [← he] <;> exact Nat.and_le_right

theorem EncodeRune_ne_nil (c : Nat) : EncodeRune c ≠ [] := by
  unfold EncodeRune
  split_ifs <;> simp

/-- The GSM bytes the encoder writes for a representable code point are below
128 and the decoder reads them back as one unit that gives the UTF-8 encoding
of the code point. -/
theorem enc_dec_unit (T : Tables) (en : Encoder) (c : Nat) (hc : tablesConsistent T)
    (hr : representable T c) :
    (∀ x ∈ (encFirst T en (EncodeRune c)).out, x < 128) ∧
    ∀ rest, segments (decFirst T) ((encFirst T en (EncodeRune c)).out ++ rest) =
      { out := EncodeRune c, width := (encFirst T en (EncodeRune c)).out.length,
        need := (EncodeRune c).length } :: segments (decFirst T) rest := by
  obtain ⟨hlen, hwf, hewf, henc, hext⟩ := hc
  obtain ⟨hne, hsc, h27, hin⟩ := hr
  have hle := representable_le T c ⟨hne, hsc, h27, hin⟩
  have hdr : DecodeRune (EncodeRune c) = (c, (EncodeRune c).length) := by
    have := DecodeRune_EncodeRune c [] hle hsc
    rwa [List.append_nil] at this
  have hbytes : ∀ d : utf8Enc, d.len ≤ d.data.length → d.bytes.length = d.len := by
    intro d hd
    unfold utf8Enc.bytes
    rw [List.length_take, Nat.min_eq_left hd]
  cases hlook : encLookup T c with
  | some got =>
    have hmem : got ∈ T.encode.take 0x80 := List.mem_of_find?_eq_some hlook
    have hcp : got &&& 0xFFFF = c := by
      have := List.find?_some hlook
      simpa using this
    obtain ⟨hb, hdec⟩ := henc got hmem
    by_cases hb27 : (got >>> 24) % 256 = 27
    · have hesc := h27 got hmem hcp hb27
      have hf : encFirst T en (EncodeRune c) =
          { out := [27, 27], width := (EncodeRune c).length, need := 2 } := by
        unfold encFirst
        rw [hdr]
        simp only []
        rw [if_neg hne, hlook]
        simp only []
        rw [if_pos hb27]
      rw [hf]
      refine ⟨by
        intro x hx
        simp only [List.mem_cons, List.mem_singleton, List.not_mem_nil, or_false, or_self] at hx
        rw [hx]; decide, ?_⟩
      intro rest
      cases hdd : T.escDecode 27 with
      | none => rw [hdd] at hesc; simp at hesc
      | some d =>
        rw [hdd] at hesc
        have hdb : d.bytes = EncodeRune c := by simpa using hesc
        have hfd : decFirst T (27 :: 27 :: rest) =
            { out := EncodeRune c, width := 2, need := (EncodeRune c).length } := by
          unfold decFirst decEntry
          simp only [List.head?_cons, Option.some_bind, if_true, hdd]
          rw [hdb, ← hdb, hbytes _ (hewf _ _ hdd)]
        simp only [List.cons_append, List.nil_append, List.length_cons, List.length_nil]
        rw [segments_cons _ (decFirst_width_pos T), hfd]
        rfl
    · have hf : encFirst T en (EncodeRune c) =
          { out := [(got >>> 24) % 256], width := (EncodeRune c).length, need := 2 } := by
        unfold encFirst
        rw [hdr]
        simp only []
        rw [if_neg hne, hlook]
        simp only []
        rw [if_neg hb27]
      rw [hf]
      refine ⟨by intro x hx; simp only [List.mem_singleton] at hx; rw [hx]; exact hb, ?_⟩
      intro rest
      have hmemd : T.decode.getD ((got >>> 24) % 256) { len := 0, data := [] } ∈ T.decode := by
        rw [List.getD_eq_getElem _ _ (Nat.lt_of_lt_of_le hb hlen)]
        exact List.getElem_mem _
      have hfd : decFirst T ((got >>> 24) % 256 :: rest) =
          { out := EncodeRune c, width := 1, need := (EncodeRune c).length } := by
        unfold decFirst decEntry
        simp only []
        rw [if_neg hb27]
        simp only []
        rw [← hcp, ← hdec, hbytes _ (hwf _ hmemd)]
      simp only [List.singleton_append, List.length_singleton]
      rw [segments_cons _ (decFirst_width_pos T), hfd]
      rfl
  | none =>
    have hnin : ¬ ∃ e ∈ T.encode.take 0x80, e &&& 0xFFFF = c := by
      rintro ⟨e, he, hce⟩
      unfold encLookup at hlook
      rw [List.find?_eq_none] at hlook
      exact hlook e he (by simpa using hce)
    have hex : ∃ e ∈ T.escEncode, e &&& 0xFFFF = c := by
      rcases hin with h | h
      · exact absurd h hnin
      · exact h
    obtain ⟨e0, he0, hce0⟩ := hex
    cases hel : extLookup T c with
    | none =>
      unfold extLookup at hel
      rw [List.find?_eq_none] at hel
      exact absurd (by simpa using hce0) (hel e0 he0)
    | some e =>
      have hmem : e ∈ T.escEncode := List.mem_of_find?_eq_some hel
      have hcp : e &&& 0xFFFF = c := by
        have := List.find?_some hel
        simpa using this
      obtain ⟨h1b, hg, hd⟩ := hext e hmem
      have hf : encFirst T en (EncodeRune c) =
          { out := [0x1B, extGsm e], width := (EncodeRune c).length, need := 3 } := by
        unfold encFirst
        rw [hdr]
        simp only []
        rw [if_neg hne, hlook]
        simp only []
        rw [hel]
        simp only []
        rw [h1b]
        rfl
      rw [hf]
      refine ⟨by
        intro x hx
        simp only [List.mem_cons, List.mem_singleton, List.not_mem_nil, or_false] at hx
        rcases hx with h | h
        · rw [h]; decide
        · rw [h]; exact hg, ?_⟩
      intro rest
      cases hdd : T.escDecode (extGsm e) with
      | none => rw [hdd] at hd; simp at hd
      | some d =>
        rw [hdd] at hd
        have hdb : d.bytes = EncodeRune c := by
          rw [← hcp]; simpa using hd
        have hfd : decFirst T (0x1B :: extGsm e :: rest) =
            { out := EncodeRune c, width := 2, need := (EncodeRune c).length } := by
          unfold decFirst decEntry
          simp only [List.head?_cons, Option.some_bind, if_true, hdd]
          rw [hdb, ← hdb, hbytes _ (hewf _ _ hdd)]
        simp only [List.cons_append, List.nil_append, List.length_cons, List.length_nil]
        rw [segments_cons _ (decFirst_width_pos T), hfd]
        rfl

/-- Units of the UTF-8 bytes of a string of representable code points, as the
encoder sees them: one unit per code point. -/
theorem enc_units_utf8 (T : Tables) (en : Encoder) (t : List Nat)
    (ht : ∀ c ∈ t, representable T c) :
    outOf (segments (encFirst T en) (utf8Bytes t)) =
      t.flatMap (fun c => (encFirst T en (EncodeRune c)).out) := by
  induction t with
  | nil => rfl
  | cons c t ih =>
    have hr := ht c (by simp)
    have hle := representable_le T c hr
    have hd1 := DecodeRune_EncodeRune c (utf8Bytes t) hle hr.2.1
    have hd0 := DecodeRune_EncodeRune c [] hle hr.2.1
    rw [List.append_nil] at hd0
    have hcongr := encFirst_congr T en _ _ (hd1.trans hd0.symm)
    have hu : utf8Bytes (c :: t) = EncodeRune c ++ utf8Bytes t := by
      simp [utf8Bytes]
    obtain ⟨b, bs, hb⟩ : ∃ b bs, EncodeRune c = b :: bs := by
      cases h : EncodeRune c with
      | nil => exact absurd h (EncodeRune_ne_nil c)
      | cons b bs => exact ⟨b, bs, rfl⟩
    rw [hu, List.flatMap_cons, ← ih (fun x hx => ht x (by simp [hx]))]
    have hw : (encFirst T en (EncodeRune c ++ utf8Bytes t)).width = (EncodeRune c).length := by
      rw [encFirst_width, hd1]
    have hseg : segments (encFirst T en) (EncodeRune c ++ utf8Bytes t) =
        encFirst T en (EncodeRune c ++ utf8Bytes t) ::
          segments (encFirst T en)
            ((EncodeRune c ++ utf8Bytes t).drop
              (encFirst T en (EncodeRune c ++ utf8Bytes t)).width) := by
      rw [hb, List.cons_append]
      exact segments_cons _ (encFirst_width_pos T en) _ _
    rw [hseg, outOf_cons, hw, List.drop_left, hcongr]

theorem enc_dec_units (T : Tables) (en : Encoder) (t : List Nat) (hc : tablesConsistent T)
    (ht : ∀ c ∈ t, representable T c) :
    (∀ x ∈ t.flatMap (fun c => (encFirst T en (EncodeRune c)).out), x < 128) ∧
    outOf (segments (decFirst T) (t.flatMap (fun c => (encFirst T en (EncodeRune c)).out))) =
      utf8Bytes t := by
  induction t with
  | nil => exact ⟨by simp, rfl⟩
  | cons c t ih =>
    obtain ⟨h1, h2⟩ := enc_dec_unit T en c hc (ht c (by simp))
    obtain ⟨i1, i2⟩ := ih (fun x hx => ht x (by simp [hx]))
    refine ⟨?_, ?_⟩
    · intro x hx
      rw [List.flatMap_cons, List.mem_append] at hx
      rcases hx with h | h
      · exact h1 x h
      · exact i1 x h
    · rw [List.flatMap_cons, h2, outOf_cons, i2]
      simp [utf8Bytes]
set_option maxRecDepth 100000 in
theorem sampleTables_consistent : tablesConsistent sampleTables := by
  have hd := sampleTables_defined [] (by simp)
  exact ⟨by decide, hd.2.1, hd.2.2, by decide, by decide⟩

set_option maxRecDepth 100000 in
theorem escTables_consistent : tablesConsistent escTables := by
  refine ⟨by decide, sampleTables_consistent.2.1, ?_, by decide, by decide⟩
  intro k e he
  by_cases hk : k = 0x1B
  · have h : some (utf8EncOf 0xA0) = some e := by
      simpa [escTables, hk] using he
    injection h with h
    rw [← h]
    exact utf8EncOf_len_le 0xA0 (by decide)
  · have h : sampleEscDecode k = some e := by
      simpa [escTables, hk] using he
    obtain ⟨c, hc, rfl⟩ := sampleEscDecode_eq k e h
    exact utf8EncOf_len_le c hc

set_option maxRecDepth 100000 in
theorem fffdAgreeTables_consistent : tablesConsistent fffdAgreeTables := by
  refine ⟨by decide, ?_, sampleTables_consistent.2.2.1, by decide, by decide⟩
  intro e he
  simp only [fffdAgreeTables, List.mem_map] at he
  obtain ⟨c, hc, rfl⟩ := he
  have hall : ∀ c ∈ sampleAlphabet.set 0x15 0xFFFD, c ≤ 0xFFFF := by decide
  exact utf8EncOf_len_le c (hall c hc)

set_option maxRecDepth 100000 in
/-- C4 (as stated, refuted): two tables that have the shape of the data model
and agree with each other, each with a code point of the encode table that does
not come back.  In the sample tables U+00A0 is paired with GSM byte `0x1B` and
`escDecode` has no entry for `0x1B`: the UTF-8 bytes `C2 A0` are encoded as
`1B 1B`, which the decoder reads as two units, giving `C2 A0 C2 A0`.  In the
tables that pair GSM byte `0x15` with U+FFFD in both directions, the UTF-8
bytes `EF BF BD` are encoded as the replacement byte `3F`, which the decoder
reads as `?`. -/
theorem encode_decode_escape_byte_doubled :
    tablesConsistent sampleTables ∧ encodeSorted sampleTables ∧
    (∃ e ∈ sampleTables.encode, e &&& 0xFFFF = 0xA0) ∧
    utf8Bytes [0xA0] = [0xC2, 0xA0] ∧
    Encoder.Transform sampleTables (NewEncoder 0) (List.replicate 8 0) [0xC2, 0xA0] true =
      .done { dst := 0x1B :: 0x1B :: List.replicate 6 0, nDst := 2, nSrc := 2, err := .nil } ∧
    Decoder.Transform sampleTables (List.replicate 8 0)
        ((0x1B :: 0x1B :: List.replicate 6 0).take 2) true =
      .done { dst := [0xC2, 0xA0, 0xC2, 0xA0, 0, 0, 0, 0], nDst := 4, nSrc := 2, err := .nil } ∧
    ([0xC2, 0xA0, 0xC2, 0xA0, 0, 0, 0, 0] : List Nat).take 4 ≠ [0xC2, 0xA0] ∧
    tablesConsistent fffdAgreeTables ∧ encodeSorted fffdAgreeTables ∧
    (∃ e ∈ fffdAgreeTables.encode, e &&& 0xFFFF = 0xFFFD) ∧
    utf8Bytes [0xFFFD] = [0xEF, 0xBF, 0xBD] ∧
    Encoder.Transform fffdAgreeTables (NewEncoder 0) (List.replicate 8 0) [0xEF, 0xBF, 0xBD]
        true =
      .done { dst := 0x3F :: List.replicate 7 0, nDst := 1, nSrc := 3, err := .nil } ∧
    Decoder.Transform fffdAgreeTables (List.replicate 8 0)
        ((0x3F :: List.replicate 7 0).take 1) true =
      .done { dst := 0x3F :: List.replicate 7 0, nDst := 1, nSrc := 1, err := .nil } ∧
    ((0x3F :: List.replicate 7 0).take 1 : List Nat) ≠ [0xEF, 0xBF, 0xBD] :=
  ⟨sampleTables_consistent, sampleTables_sorted, by decide, by decide, by decide, by decide,
    by decide, fffdAgreeTables_consistent, fffdTables_sorted, by decide, by decide, by decide,
    by decide, by decide⟩

/-- C4 (amended): for tables whose encode table has 128 strictly ascending
entries and that agree with each other, and for every string whose code points
are representable (scalar values other than U+FFFD that occur in the encode
table, or failing that in the extension table; a code point that the encode
table pairs with GSM byte `0x1B` only when the escape-decode entry of `0x1B` is
its UTF-8 encoding): encoding the UTF-8 bytes of the string and then decoding
the bytes written, each in one call with enough room, returns OK twice and
yields exactly the UTF-8 bytes of the string. -/
theorem encode_decode_roundtrip (T : Tables) (en : Encoder) (t dst1 dst2 : List Nat)
    (e1 e2 : Bool) (hs : encodeSorted T) (hc : tablesConsistent T)
    (ht : ∀ c ∈ t, representable T c)
    (hd1 : 2 * (utf8Bytes t).length + 2 ≤ dst1.length)
    (hd2 : (utf8Bytes t).length ≤ dst2.length) :
    ∃ r1 r2,
      Encoder.Transform T en dst1 (utf8Bytes t) e1 = .done r1 ∧
      r1.err = .nil ∧ r1.nSrc = (utf8Bytes t).length ∧
      Decoder.Transform T dst2 (r1.dst.take r1.nDst) e2 = .done r2 ∧
      r2.err = .nil ∧ r2.nSrc = r1.nDst ∧ r2.dst.take r2.nDst = utf8Bytes t := by
  have henc := encoder_transform_full T hs en dst1 (utf8Bytes t) e1 hd1
  have hunits := enc_units_utf8 T en t ht
  obtain ⟨hlt, hdec⟩ := enc_dec_units T en t hc ht
  rw [← hunits] at hlt hdec
  have ht1 : (writeAt dst1 0 (outOf (segments (encFirst T en) (utf8Bytes t)))).take
      (outOf (segments (encFirst T en) (utf8Bytes t))).length =
        outOf (segments (encFirst T en) (utf8Bytes t)) := by
    have := take_writeAt_zero dst1 (outOf (segments (encFirst T en) (utf8Bytes t)))
    rwa [Nat.zero_add] at this
  have hdef : decodeDefinedOn T (outOf (segments (encFirst T en) (utf8Bytes t))) :=
    ⟨fun c hcm => Nat.lt_of_lt_of_le (hlt c hcm) hc.1, hc.2.1, hc.2.2.1⟩
  have hneed := decSegments_need T _ _ rfl hdef
  have hall := fitCount_all_of_total
    (segments (decFirst T) (outOf (segments (encFirst T en) (utf8Bytes t))))
    (fun u hu => (hneed u hu).symm) dst2.length (by rw [hdec]; exact hd2)
  have hw := widthOf_segments (decFirst T)
    (fun c rest => ⟨decFirst_width_pos T c rest, decFirst_width_le T c rest⟩) _
    (outOf (segments (encFirst T en) (utf8Bytes t))) rfl
  have hdt := decoder_transform_eq T dst2 (outOf (segments (encFirst T en) (utf8Bytes t))) e2
    hdef
  rw [hall, List.take_length, hdec, hw] at hdt
  refine ⟨_, { dst := writeAt dst2 0 (utf8Bytes t), nDst := 0 + (utf8Bytes t).length,
               nSrc := 0 + (outOf (segments (encFirst T en) (utf8Bytes t))).length,
               err := .nil }, henc, ?_, ?_, ?_, ?_, ?_, ?_⟩
  · rfl
  · rfl
  · simp only [ht1]
    rw [hdt]
    simp
  · rfl
  · simp
  · exact take_writeAt_zero dst2 (utf8Bytes t)

set_option maxRecDepth 100000 in
/-- Witness of `encode_decode_roundtrip`: the twelve characters of the three
rows of `transTable` with the sample tables; and a string with two U+00A0,
which the encoder writes as `1B 1B`, with the tables whose escape-decode entry
of `0x1B` is U+00A0. -/
theorem encode_decode_roundtrip_witness :
    (∀ c ∈ [0x61, 0x53, 0x6B, 0x49, 0x69, 0xE8, 0xE9, 0xD8, 0x3A6, 0x0C, 0x5E, 0x20AC],
      representable sampleTables c) ∧
    (∃ r1 r2,
      Encoder.Transform sampleTables (NewEncoder 0) (List.replicate 38 0)
        (utf8Bytes [0x61, 0x53, 0x6B, 0x49, 0x69, 0xE8, 0xE9, 0xD8, 0x3A6, 0x0C, 0x5E, 0x20AC])
        true = .done r1 ∧
      r1.err = .nil ∧
      r1.nSrc = (utf8Bytes
        [0x61, 0x53, 0x6B, 0x49, 0x69, 0xE8, 0xE9, 0xD8, 0x3A6, 0x0C, 0x5E, 0x20AC]).length ∧
      Decoder.Transform sampleTables (List.replicate 18 0) (r1.dst.take r1.nDst) true =
        .done r2 ∧
      r2.err = .nil ∧ r2.nSrc = r1.nDst ∧
      r2.dst.take r2.nDst =
        utf8Bytes [0x61, 0x53, 0x6B, 0x49, 0x69, 0xE8, 0xE9, 0xD8, 0x3A6, 0x0C, 0x5E, 0x20AC]) ∧
    utf8Bytes [0x61, 0x53, 0x6B, 0x49, 0x69, 0xE8, 0xE9, 0xD8, 0x3A6, 0x0C, 0x5E, 0x20AC] =
      [0x61, 0x53, 0x6B, 0x49, 0x69, 0xC3, 0xA8, 0xC3, 0xA9, 0xC3, 0x98, 0xCE, 0xA6,
        0x0C, 0x5E, 0xE2, 0x82, 0xAC] ∧
    encodeSorted escTables ∧ tablesConsistent escTables ∧
    (∀ c ∈ [0x61, 0xA0, 0x0C, 0xA0], representable escTables c) ∧
    Encoder.Transform escTables (NewEncoder 0) (List.replicate 14 0)
        (utf8Bytes [0x61, 0xA0, 0x0C, 0xA0]) true =
      .done { dst := [0x61, 0x1B, 0x1B, 0x1B, 0x0A, 0x1B, 0x1B, 0, 0, 0, 0, 0, 0, 0],
              nDst := 7, nSrc := 6, err := .nil } ∧
    (∃ r1 r2,
      Encoder.Transform escTables (NewEncoder 0) (List.replicate 14 0)
        (utf8Bytes [0x61, 0xA0, 0x0C, 0xA0]) true = .done r1 ∧
      r1.err = .nil ∧ r1.nSrc = (utf8Bytes [0x61, 0xA0, 0x0C, 0xA0]).length ∧
      Decoder.Transform escTables (List.replicate 6 0) (r1.dst.take r1.nDst) true = .done r2 ∧
      r2.err = .nil ∧ r2.nSrc = r1.nDst ∧
      r2.dst.take r2.nDst = utf8Bytes [0x61, 0xA0, 0x0C, 0xA0]) ∧
    utf8Bytes [0x61, 0xA0, 0x0C, 0xA0] = [0x61, 0xC2, 0xA0, 0x0C, 0xC2, 0xA0] :=
  ⟨by unfold representable; decide,
    encode_decode_roundtrip sampleTables (NewEncoder 0)
      [0x61, 0x53, 0x6B, 0x49, 0x69, 0xE8, 0xE9, 0xD8, 0x3A6, 0x0C, 0x5E, 0x20AC]
      (List.replicate 38 0) (List.replicate 18 0) true true sampleTables_sorted
      sampleTables_consistent (by unfold representable; decide) (by decide) (by decide),
    by decide, sampleTables_sorted, escTables_consistent, by unfold representable; decide,
    by decide,
    encode_decode_roundtrip escTables (NewEncoder 0) [0x61, 0xA0, 0x0C, 0xA0]
      (List.replicate 14 0) (List.replicate 6 0) true true sampleTables_sorted
      escTables_consistent (by unfold representable; decide) (by decide) (by decide),
    by decide⟩

/-! ## Construction, capacity and consumed-count checks (C11, C12, C14, C15) -/

set_option maxRecDepth 100000 in
/-- C11 (refuted on X = [0x31]): `NewPacker` and `NewUnpacker` return the zero
value of their struct (cursor 0), while `Reset` sets the cursor to 1.  On the
one-byte input 0x31 with room for two bytes the packer just constructed writes
0x00 (the shift count `p.s - 1` wraps to 2^32 - 1) and ends with cursor 1,
where the packer that was Reset writes 0x31 and ends with cursor 2; the
unpacker just constructed writes 0x18 and ends with cursor 1, where the
unpacker that was Reset writes 0x31 and ends with cursor 2. -/
theorem fresh_differs_from_reset :
    SevenBitPacker.Transform NewPacker [0, 0] [0x31] true =
      .done ({ dst := [0x00, 0], nDst := 1, nSrc := 1, err := .nil }, { s := 1 }) ∧
    SevenBitPacker.Transform (SevenBitPacker.Reset NewPacker) [0, 0] [0x31] true =
      .done ({ dst := [0x31, 0], nDst := 1, nSrc := 1, err := .nil }, { s := 2 }) ∧
    SevenBitUnpacker.Transform NewUnpacker [0, 0] [0x31] true =
      .done ({ dst := [0x18, 0], nDst := 1, nSrc := 1, err := .nil },
        { borrowed := 0, s := 1 }) ∧
    SevenBitUnpacker.Transform (SevenBitUnpacker.Reset NewUnpacker) [0, 0] [0x31] true =
      .done ({ dst := [0x31, 0], nDst := 1, nSrc := 1, err := .nil },
        { borrowed := 0, s := 2 }) := by
  decide

set_option maxRecDepth 100000 in
/-- C12 (refuted): the unpacker checks the capacity before the write of each
input byte but not before the write of the eighth septet.  From the Reset
state, seven input bytes with a seven-byte destination end in an out-of-range
write at index 7; so does the seventh of seven one-byte calls that each get a
one-byte destination (the first six return normally with one byte written). -/
theorem unpacker_flush_out_of_range :
    SevenBitUnpacker.Transform (SevenBitUnpacker.Reset NewUnpacker) (List.replicate 7 0)
      [0x31, 0xD9, 0x8C, 0x56, 0xB3, 0xDD, 0x70] true = .panic ∧
    SevenBitUnpacker.Transform { borrowed := 0x16, s := 6 } [0] [0xDD] false =
      .done ({ dst := [0x36], nDst := 1, nSrc := 1, err := .nil },
        { borrowed := 0x37, s := 7 }) ∧
    SevenBitUnpacker.Transform { borrowed := 0x37, s := 7 } [0] [0x70] false = .panic := by
  decide

set_option maxRecDepth 100000 in
/-- C14 (refuted): the extension branch of the encoder reports a short
destination when `nDst + 2 >= len(dst)`, that is, unless three bytes remain.
With the sample tables and a two-byte destination the inputs 0x0C and E2 82 AC
give DestinationFull with nothing written and nothing consumed, although the
pair would fit; with a three-byte destination the pair is written. -/
theorem encoder_extension_needs_three_bytes :
    Encoder.Transform sampleTables (NewEncoder 0) [0, 0] [0x0C] true =
      .done { dst := [0, 0], nDst := 0, nSrc := 0, err := .ErrShortDst } ∧
    Encoder.Transform sampleTables (NewEncoder 0) [0, 0] [0xE2, 0x82, 0xAC] true =
      .done { dst := [0, 0], nDst := 0, nSrc := 0, err := .ErrShortDst } ∧
    Encoder.Transform sampleTables (NewEncoder 0) [0, 0, 0] [0x0C] true =
      .done { dst := [0x1B, 0x0A, 0], nDst := 2, nSrc := 1, err := .nil } ∧
    Encoder.Transform sampleTables (NewEncoder 0) [0, 0, 0] [0xE2, 0x82, 0xAC] true =
      .done { dst := [0x1B, 0x65, 0], nDst := 2, nSrc := 3, err := .nil } := by
  decide

set_option maxRecDepth 100000 in
/-- C15 (refuted): when the cursor wraps from 7 to 1 the packer counts one more
consumed septet without looking whether the input holds it.  From the Reset
state, seven septets with ample room return status OK with `nSrc = 8`, one more
than the length of the input; the same happens with fifteen septets
(`nSrc = 16`). -/
theorem packer_consumed_exceeds_input :
    SevenBitPacker.Transform (SevenBitPacker.Reset NewPacker) (List.replicate 16 0)
      [1, 2, 3, 4, 5, 6, 7] true =
      .done ({ dst := [0x01, 0xC1, 0x80, 0x50, 0x30, 0x1C, 0x00] ++ List.replicate 9 0,
               nDst := 7, nSrc := 8, err := .nil }, { s := 1 }) ∧
    [1, 2, 3, 4, 5, 6, 7].length < 8 ∧
    SevenBitPacker.Transform (SevenBitPacker.Reset NewPacker) (List.replicate 16 0)
      (List.replicate 15 0x41) true =
      .done ({ dst := [0xC1, 0x60, 0x30, 0x18, 0x0C, 0x06, 0x83, 0xC1, 0x60, 0x30, 0x18, 0x0C,
                 0x06, 0x01, 0, 0],
               nDst := 14, nSrc := 16, err := .nil }, { s := 1 }) ∧
    (List.replicate 15 0x41).length < 16 := by
  decide


/-! ## Shape of unpacking after packing (C19) -/

theorem map_getD_range_succ (S : List Nat) :
    (List.range (S.length + 1)).map (fun k => S.getD k 0) = S ++ [0] := by
  rw [List.range_succ, List.map_append, map_getD_range_length]
  simp

/-- C19: for septets `S` below 128, packing `S` in one call from the Reset
state with enough room and unpacking the written octets in one call from the
Reset state with enough room returns status OK twice; the unpacked bytes are
`S` itself when the length of `S` is not 7 modulo 8, they are `S` followed by
exactly one byte 0x00 when it is, and in both cases they start with `S`. -/
theorem unpack_after_pack_shape (p0 : SevenBitPacker) (u0 : SevenBitUnpacker)
    (S dst1 dst2 : List Nat) (e1 e2 : Bool)
    (hS : ∀ x ∈ S, x < 128)
    (hd1 : (7 * S.length + 7) / 8 ≤ dst1.length)
    (hd2 : 8 * ((7 * S.length + 7) / 8) / 7 ≤ dst2.length) :
    ∃ r1 p r2 u,
      SevenBitPacker.Transform (SevenBitPacker.Reset p0) dst1 S e1 = .done (r1, p) ∧
      r1.err = .nil ∧
      SevenBitUnpacker.Transform (SevenBitUnpacker.Reset u0) dst2 (r1.dst.take r1.nDst) e2 =
        .done (r2, u) ∧
      r2.err = .nil ∧
      (S.length % 8 ≠ 7 → r2.dst.take r2.nDst = S) ∧
      (S.length % 8 = 7 → r2.dst.take r2.nDst = S ++ [0]) ∧
      S <+: r2.dst.take r2.nDst := by
  have hp := pack_reset_eq S dst1 e1 hS hd1
  have htake : (refPack S ++ dst1.drop ((7 * S.length + 7) / 8)).take
      ((7 * S.length + 7) / 8) = refPack S :=
    take_append_length _ _ _ (refPack_length S).symm
  have hu := unpack_reset_eq (refPack S) dst2 e2 (refPack_lt S)
    (by rw [refPack_length]; exact hd2)
  rw [refPack_length] at hu
  have hout : (refUnpack (refPack S) ++
      dst2.drop (8 * ((7 * S.length + 7) / 8) / 7)).take (8 * ((7 * S.length + 7) / 8) / 7) =
      (List.range (8 * ((7 * S.length + 7) / 8) / 7)).map (fun k => S.getD k 0) := by
    rw [take_append_length _ _ _ (by rw [refUnpack_length, refPack_length]),
      refUnpack_refPack S hS]
  have hM1 : (7 * S.length + 7) / 8 = 7 * (S.length / 8) + S.length % 8 := by omega
  have h1 : S.length % 8 ≠ 7 → 8 * ((7 * S.length + 7) / 8) / 7 = S.length := by
    intro h7; rw [hM1]; omega
  have h2 : S.length % 8 = 7 → 8 * ((7 * S.length + 7) / 8) / 7 = S.length + 1 := by
    intro h7; rw [hM1]; omega
  refine ⟨_, _,
    { dst := refUnpack (refPack S) ++ dst2.drop (8 * ((7 * S.length + 7) / 8) / 7),
      nDst := 8 * ((7 * S.length + 7) / 8) / 7,
      nSrc := (7 * S.length + 7) / 8, err := .nil },
    { borrowed := unpackCarry (refPack S), s := (7 * S.length + 7) / 8 % 7 + 1 },
    hp, ?_, ?_, ?_, ?_, ?_, ?_⟩
  · rfl
  · simp only [htake]
    exact hu
  · rfl
  · intro h7
    simp only []
    rw [hout, h1 h7, map_getD_range_length]
  · intro h7
    simp only []
    rw [hout, h2 h7, map_getD_range_succ]
  · simp only []
    rw [hout]
    by_cases h7 : S.length % 8 = 7
    · rw [h2 h7, map_getD_range_succ]
      exact List.prefix_append S [0]
    · rw [h1 h7, map_getD_range_length]

set_option maxRecDepth 100000 in
/-- Witness of `unpack_after_pack_shape`: seven septets, where the extra 0x00
appears. -/
theorem unpack_after_pack_shape_witness :
    (∀ x ∈ [1, 2, 3, 4, 5, 6, 7], x < 128) ∧
    ∃ r1 p r2 u,
      SevenBitPacker.Transform (SevenBitPacker.Reset NewPacker) (List.replicate 7 0)
        [1, 2, 3, 4, 5, 6, 7] true = .done (r1, p) ∧
      r1.err = .nil ∧
      SevenBitUnpacker.Transform (SevenBitUnpacker.Reset NewUnpacker) (List.replicate 8 0)
        (r1.dst.take r1.nDst) false = .done (r2, u) ∧
      r2.err = .nil ∧
      ([1, 2, 3, 4, 5, 6, 7].length % 8 ≠ 7 → r2.dst.take r2.nDst = [1, 2, 3, 4, 5, 6, 7]) ∧
      ([1, 2, 3, 4, 5, 6, 7].length % 8 = 7 →
        r2.dst.take r2.nDst = [1, 2, 3, 4, 5, 6, 7] ++ [0]) ∧
      [1, 2, 3, 4, 5, 6, 7] <+: r2.dst.take r2.nDst :=
  ⟨by decide,
    unpack_after_pack_shape NewPacker NewUnpacker [1, 2, 3, 4, 5, 6, 7] (List.replicate 7 0)
      (List.replicate 8 0) true false (by decide) (by decide) (by decide)⟩


/-! ## Cursor invariant (C18) -/

theorem incU32_small (s : Nat) (h : s ≤ 7) : incU32 s = s + 1 := by
  unfold incU32; omega

/-- The packer loop returns for every destination, and keeps the cursor
within 1..7. -/
theorem pack_loop_cursor (src : List Nat) :
    ∀ fuel dst nDst nSrc i s, 1 ≤ s → s ≤ 7 → 0 < fuel → src.length + 2 ≤ fuel + i →
      ∃ r p, SevenBitPacker.loop src fuel dst nDst nSrc i s = .done (r, p) ∧
        1 ≤ p.s ∧ p.s ≤ 7 := by
  intro fuel
  induction fuel with
  | zero =>
    intro dst nDst nSrc i s h1 h7 hf0 hf
    omega
  | succ fuel ih =>
    intro dst nDst nSrc i s h1 h7 hf0 hf
    unfold SevenBitPacker.loop
    by_cases hi : i ≤ src.length
    · rw [if_pos hi]
      by_cases hd : nDst ≥ dst.length
      · rw [if_pos hd]
        exact ⟨_, _, rfl, h1, h7⟩
      · rw [if_neg hd]
        simp only [incU32_small s h7]
        by_cases h8 : s + 1 = 8
        · rw [if_pos h8]
          exact ih _ _ _ _ 1 (by omega) (by omega) (by omega) (by omega)
        · rw [if_neg h8]
          exact ih _ _ _ _ (s + 1) (by omega) (by omega) (by omega) (by omega)
    · rw [if_neg hi]
      exact ⟨_, _, rfl, h1, h7⟩

theorem pack_calls_cursor :
    ∀ (cs : List (List Nat × List Nat × Bool)) (p : SevenBitPacker), 1 ≤ p.s → p.s ≤ 7 →
      ∃ q, SevenBitPacker.calls p cs = .done q ∧ 1 ≤ q.s ∧ q.s ≤ 7 := by
  intro cs
  induction cs with
  | nil => intro p h1 h7; exact ⟨p, rfl, h1, h7⟩
  | cons c rest ih =>
    intro p h1 h7
    obtain ⟨r, p', hr, h1', h7'⟩ :=
      pack_loop_cursor c.2.1 (c.2.1.length + 1) c.1 0 0 1 p.s h1 h7 (by omega) (by omega)
    unfold SevenBitPacker.calls SevenBitPacker.Transform
    rw [hr]
    exact ih p' h1' h7'

theorem shrByte_carry_lt (c s : Nat) (hc : c < 256) (h1 : 1 ≤ s) (h7 : s ≤ 7) :
    shrByte c (subU32 8 s) < 2 ^ s := by
  have e : subU32 8 s = 8 - s := by unfold subU32; omega
  rw [e]
  unfold shrByte
  rw [if_pos (by omega), Nat.shiftRight_eq_div_pow]
  apply Nat.div_lt_of_lt_mul
  rw [← Nat.pow_add]
  have : 8 - s + s = 8 := by omega
  rw [this]
  exact hc

/-- The unpacker loop never uses up its step budget, and when it returns the
cursor is within 1..7 and the carried byte is below `2^(cursor-1)`. -/
theorem unpack_loop_cursor (src : List Nat) (hsrc : ∀ x ∈ src, x < 256) :
    ∀ fuel dst nDst nSrc j b s, 1 ≤ s → s ≤ 7 → b < 2 ^ (s - 1) → 0 < fuel →
      src.length + 1 ≤ fuel + j →
      SevenBitUnpacker.loop src fuel dst nDst nSrc j b s ≠ .timeout ∧
      ∀ r u, SevenBitUnpacker.loop src fuel dst nDst nSrc j b s = .done (r, u) →
        1 ≤ u.s ∧ u.s ≤ 7 ∧ u.borrowed < 2 ^ (u.s - 1) := by
  intro fuel
  induction fuel with
  | zero =>
    intro dst nDst nSrc j b s h1 h7 hb hf0 hf
    omega
  | succ fuel ih =>
    intro dst nDst nSrc j b s h1 h7 hb hf0 hf
    unfold SevenBitUnpacker.loop
    by_cases hj : j < src.length
    · rw [if_pos hj]
      by_cases hd : nDst ≥ dst.length
      · rw [if_pos hd]
        refine ⟨by simp, ?_⟩
        intro r u h
        injection h with h
        injection h with hr hu
        subst hu
        exact ⟨h1, h7, hb⟩
      · rw [if_neg hd]
        simp only [incU32_small s h7]
        by_cases h8 : s + 1 = 8
        · rw [if_pos h8]
          by_cases hd2 : nDst + 1 < (dst.set nDst
              (shrByte (shlByte (src.getD j 0) s) 1 ||| b)).length
          · rw [if_pos hd2]
            exact ih _ _ _ _ 0 1 (by omega) (by omega) (by decide) (by omega) (by omega)
          · rw [if_neg hd2]
            refine ⟨by simp, ?_⟩
            intro r u h
            cases h
        · rw [if_neg h8]
          have hc : src.getD j 0 < 256 := getD_lt_of_forall src 256 (by decide) hsrc j
          exact ih _ _ _ _ _ (s + 1) (by omega) (by omega)
            (by rw [Nat.add_sub_cancel]; exact shrByte_carry_lt _ s hc h1 h7) (by omega) (by omega)
    · rw [if_neg hj]
      refine ⟨by simp, ?_⟩
      intro r u h
      injection h with h
      injection h with hr hu
      subst hu
      exact ⟨h1, h7, hb⟩

theorem unpack_calls_cursor :
    ∀ (cs : List (List Nat × List Nat × Bool)) (u : SevenBitUnpacker),
      (∀ c ∈ cs, ∀ x ∈ c.2.1, x < 256) → 1 ≤ u.s → u.s ≤ 7 → u.borrowed < 2 ^ (u.s - 1) →
      SevenBitUnpacker.calls u cs ≠ .timeout ∧
      ∀ v, SevenBitUnpacker.calls u cs = .done v →
        1 ≤ v.s ∧ v.s ≤ 7 ∧ v.borrowed < 2 ^ (v.s - 1) := by
  intro cs
  induction cs with
  | nil =>
    intro u _ h1 h7 hb
    refine ⟨by simp [SevenBitUnpacker.calls], ?_⟩
    intro v h
    unfold SevenBitUnpacker.calls at h
    injection h with h
    subst h
    exact ⟨h1, h7, hb⟩
  | cons c rest ih =>
    intro u hcs h1 h7 hb
    have hl := unpack_loop_cursor c.2.1 (hcs c (List.mem_cons_self _ _))
      (c.2.1.length + 1) c.1 0 0 0 u.borrowed u.s h1 h7 hb (by omega) (by omega)
    have hT : SevenBitUnpacker.Transform u c.1 c.2.1 c.2.2 =
        SevenBitUnpacker.loop c.2.1 (c.2.1.length + 1) c.1 0 0 0 u.borrowed u.s := by
      unfold SevenBitUnpacker.Transform
      rw [if_neg (by omega)]
    unfold SevenBitUnpacker.calls
    rw [hT]
    cases hrun : SevenBitUnpacker.loop c.2.1 (c.2.1.length + 1) c.1 0 0 0 u.borrowed u.s with
    | done a =>
      obtain ⟨r, u'⟩ := a
      obtain ⟨h1', h7', hb'⟩ := hl.2 r u' hrun
      exact ih u' (fun c' hc' => hcs c' (List.mem_cons_of_mem _ hc')) h1' h7' hb'
    | panic =>
      refine ⟨by simp, ?_⟩
      intro v h
      cases h
    | timeout => exact absurd hrun hl.1

/-- C18: starting from the state set by Reset, after any finite sequence of
`Transform` calls with arbitrary inputs and destinations, the packer has
returned from every call and its cursor is within 1..7; and for the unpacker
(input bytes below 256), whenever the calls return normally the cursor is
within 1..7 and the carried byte is below `2^(cursor-1)`, so the cursor is not
8 when the next call is entered (the state before each call of a sequence is
the state after the calls before it).  The step budget of the model is never
used up. -/
theorem cursor_invariant (p0 : SevenBitPacker) (u0 : SevenBitUnpacker)
    (cs ds : List (List Nat × List Nat × Bool))
    (hds : ∀ c ∈ ds, ∀ x ∈ c.2.1, x < 256) :
    (∃ p, SevenBitPacker.calls (SevenBitPacker.Reset p0) cs = .done p ∧ 1 ≤ p.s ∧ p.s ≤ 7) ∧
    SevenBitUnpacker.calls (SevenBitUnpacker.Reset u0) ds ≠ .timeout ∧
    ∀ u, SevenBitUnpacker.calls (SevenBitUnpacker.Reset u0) ds = .done u →
      1 ≤ u.s ∧ u.s ≤ 7 ∧ u.borrowed < 2 ^ (u.s - 1) ∧ u.s ≠ 8 := by
  have h := unpack_calls_cursor ds (SevenBitUnpacker.Reset u0) hds (Nat.le_refl 1)
    (by simp [SevenBitUnpacker.Reset]) (by simp [SevenBitUnpacker.Reset])
  refine ⟨pack_calls_cursor cs (SevenBitPacker.Reset p0) (Nat.le_refl 1)
    (by simp [SevenBitPacker.Reset]), h.1, ?_⟩
  intro u hu
  obtain ⟨a, b, c⟩ := h.2 u hu
  exact ⟨a, b, c, by omega⟩

set_option maxRecDepth 100000 in
/-- Witness of `cursor_invariant`: a packer driven through two calls, the
second with a destination that is too short, and an unpacker driven through
two calls that return normally. -/
theorem cursor_invariant_witness :
    (∀ c ∈ [([0], [0x31], false), ([0, 0, 0], [0xD9, 0x8C], true)], ∀ x ∈ c.2.1, x < 256) ∧
    SevenBitUnpacker.calls (SevenBitUnpacker.Reset NewUnpacker)
      [([0], [0x31], false), ([0, 0, 0], [0xD9, 0x8C], true)] =
      .done { borrowed := 4, s := 4 } ∧
    (1 : Nat) ≤ 4 ∧ 4 ≤ 7 ∧ 4 < 2 ^ (4 - 1) ∧ 4 ≠ 8 :=
  ⟨by decide, by decide,
    (cursor_invariant NewPacker NewUnpacker
      [([0, 0], [1, 2, 3], false), ([0], [4, 5, 6, 7, 8, 9], true)]
      [([0], [0x31], false), ([0, 0, 0], [0xD9, 0x8C], true)] (by decide)).2.2
      { borrowed := 4, s := 4 } (by decide)⟩


/-! ## Encoder: the search loop on any table of 128 entries -/

theorem search_find_eq (T : Tables) (hlen : 128 ≤ T.encode.length) (en : Encoder)
    (r size : Nat) (dst : List Nat) (nDst nSrc : Nat) :
    ∀ (fuel low high : Nat), low ≤ high → high ≤ 128 → high < fuel + low →
      Encoder.search T en r size dst nDst nSrc fuel low high =
        match Encoder.find T r fuel low high with
        | some got =>
          (match store dst nDst ((got >>> 24) % 256) with
          | none => .panic
          | some dst1 =>
            if (got >>> 24) % 256 = 27 then
              (match store dst1 (nDst + 1) 27 with
              | none => .panic
              | some dst2 => .done (.next dst2 (nDst + 2) nSrc))
            else .done (.next dst1 (nDst + 1) nSrc))
        | none => Encoder.ext T en r size (T.escEncode.length + 1) dst nDst nSrc 0 := by
  intro fuel
  induction fuel with
  | zero => intro low high h0 h1 h2; omega
  | succ f ih =>
    intro low high h0 h1 h2
    rw [Encoder.search, Encoder.find]
    by_cases hlh : low ≥ high
    · rw [if_pos hlh, if_pos hlh]
    · rw [if_neg hlh, if_neg hlh]
      have hmid : (low + high) / 2 < T.encode.length := by omega
      have hget : T.encode[(low + high) / 2]? = some (T.encode.getD ((low + high) / 2) 0) := by
        rw [List.getD_eq_getElem _ _ hmid, List.getElem?_eq_getElem hmid]
      simp only [hget]
      by_cases hlt : T.encode.getD ((low + high) / 2) 0 &&& 0xFFFF < r
      · rw [if_pos hlt, if_pos hlt]
        exact ih _ _ (by omega) h1 (by omega)
      · rw [if_neg hlt, if_neg hlt]
        by_cases hgt : T.encode.getD ((low + high) / 2) 0 &&& 0xFFFF > r
        · rw [if_pos hgt, if_pos hgt]
          exact ih _ _ (by omega) (by omega) (by omega)
        · rw [if_neg hgt, if_neg hgt]

/-- What the binary search stops at is one of the 128 entries, and its code
point is the one searched for. -/
theorem find_some (T : Tables) (hlen : 128 ≤ T.encode.length) (r : Nat) :
    ∀ (fuel low high got : Nat), high ≤ 128 → Encoder.find T r fuel low high = some got →
      got ∈ T.encode.take 0x80 ∧ got &&& 0xFFFF = r := by
  intro fuel
  induction fuel with
  | zero => intro low high got _ h; simp [Encoder.find] at h
  | succ f ih =>
    intro low high got h1 h
    rw [Encoder.find] at h
    by_cases hlh : low ≥ high
    · rw [if_pos hlh] at h; cases h
    · rw [if_neg hlh] at h
      by_cases hlt : T.encode.getD ((low + high) / 2) 0 &&& 0xFFFF < r
      · rw [if_pos hlt] at h
        exact ih _ _ _ h1 h
      · rw [if_neg hlt] at h
        by_cases hgt : T.encode.getD ((low + high) / 2) 0 &&& 0xFFFF > r
        · rw [if_pos hgt] at h
          exact ih _ _ _ (by omega) h
        · rw [if_neg hgt] at h
          injection h with h
          subst h
          refine ⟨?_, by omega⟩
          have hmid : (low + high) / 2 < T.encode.length := by omega
          rw [List.getD_eq_getElem _ _ hmid, List.mem_take_iff_getElem]
          exact ⟨(low + high) / 2, by omega, rfl⟩

/-- A code point that is in none of the 128 entries is not found by the binary
search, whatever the order of the table. -/
theorem find_none_of_lookup (T : Tables) (hlen : 128 ≤ T.encode.length) (r : Nat)
    (h : encLookup T r = none) : Encoder.find T r 0x81 0x00 0x80 = none := by
  cases hf : Encoder.find T r 0x81 0x00 0x80 with
  | none => rfl
  | some got =>
    obtain ⟨hm, hr⟩ := find_some T hlen r _ _ _ _ (by omega) hf
    unfold encLookup at h
    rw [List.find?_eq_none] at h
    have := h got hm
    simp [hr] at this

/-- On a strictly ascending table the binary search is the linear lookup. -/
theorem find_sorted (T : Tables) (hs : encodeSorted T) (r : Nat) :
    ∀ (fuel low high : Nat), low ≤ high → high ≤ 128 → high < fuel + low →
      (∀ k, k < 128 → T.encode.getD k 0 &&& 0xFFFF = r → low ≤ k ∧ k < high) →
      Encoder.find T r fuel low high = encLookup T r := by
  intro fuel
  induction fuel with
  | zero => intro low high h0 h1 h2; omega
  | succ f ih =>
    intro low high h0 h1 h2 hinv
    rw [Encoder.find]
    by_cases hlh : low ≥ high
    · rw [if_pos hlh, encLookup_none T hs r (by
        intro k hk hr
        have := hinv k hk hr
        omega)]
    · rw [if_neg hlh]
      have hmid : (low + high) / 2 < 128 := by omega
      by_cases hlt : T.encode.getD ((low + high) / 2) 0 &&& 0xFFFF < r
      · rw [if_pos hlt]
        apply ih _ _ (by omega) h1 (by omega)
        intro k hk hr
        have hk2 := hinv k hk hr
        refine ⟨?_, hk2.2⟩
        by_contra hc
        rcases Nat.lt_or_ge k ((low + high) / 2) with h | h
        · have := encode_sorted_all T hs _ _ h hmid
          omega
        · have : k = (low + high) / 2 := by omega
          rw [this] at hr
          omega
      · rw [if_neg hlt]
        by_cases hgt : T.encode.getD ((low + high) / 2) 0 &&& 0xFFFF > r
        · rw [if_pos hgt]
          apply ih _ _ (by omega) (by omega) (by omega)
          intro k hk hr
          have hk2 := hinv k hk hr
          refine ⟨hk2.1, ?_⟩
          by_contra hc
          rcases Nat.lt_or_ge ((low + high) / 2) k with h | h
          · have := encode_sorted_all T hs _ _ h hk
            omega
          · have : k = (low + high) / 2 := by omega
            rw [this] at hr
            omega
        · rw [if_neg hgt, encLookup_of_index T hs r _ hmid (by omega)]

theorem encUnit_eq_encFirst (T : Tables) (hs : encodeSorted T) (en : Encoder) (p : List Nat) :
    encUnit T en p = encFirst T en p := by
  unfold encUnit encFirst
  rw [find_sorted T hs _ _ _ _ (by omega) (by omega) (by omega)
    (fun k hk _ => ⟨by omega, hk⟩)]


/-! ## Encoder: the loop on any table of 128 entries -/

theorem encUnit_width (T : Tables) (en : Encoder) (p : List Nat) :
    (encUnit T en p).width = (DecodeRune p).2 := by
  unfold encUnit
  split
  · rfl
  · split
    · rfl
    · split <;> rfl

theorem encUnit_width_pos (T : Tables) (en : Encoder) (c : Nat) (rest : List Nat) :
    1 ≤ (encUnit T en (c :: rest)).width := by
  rw [encUnit_width]; exact (DecodeRune_width c rest).1

theorem encUnit_width_le (T : Tables) (en : Encoder) (c : Nat) (rest : List Nat) :
    (encUnit T en (c :: rest)).width ≤ (c :: rest).length := by
  rw [encUnit_width]; exact (DecodeRune_width c rest).2

theorem encUnit_out_need (T : Tables) (en : Encoder) (p : List Nat) :
    (encUnit T en p).out.length ≤ 2 ∧ (encUnit T en p).need ≤ 3 ∧
      (encUnit T en p).out.length ≤ (encUnit T en p).need := by
  unfold encUnit
  split
  · simp
  · split
    · split <;> simp
    · split <;> simp

theorem encUnitSegments_bound (T : Tables) (en : Encoder) :
    ∀ (n : Nat) (src : List Nat), src.length = n →
      ∀ u ∈ segments (encUnit T en) src,
        u.out.length ≤ 2 ∧ u.need ≤ 3 ∧ u.out.length ≤ u.need := by
  intro n
  induction n using Nat.strong_induction_on with
  | _ n ih =>
    intro src hn u hu
    cases src with
    | nil => simp [segments_nil] at hu
    | cons c rest =>
      rw [segments_cons _ (encUnit_width_pos T en)] at hu
      rcases List.mem_cons.mp hu with h | h
      · rw [h]; exact encUnit_out_need T en _
      · have h1 := encUnit_width_pos T en c rest
        exact ih _ (by simp only [List.length_drop, ← hn, List.length_cons]; omega) _ rfl u h

theorem encoder_loop_unit (T : Tables) (hlen : 128 ≤ T.encode.length) (en : Encoder) (src : List Nat) :
    ∀ (fuel nSrc nDst : Nat) (dst : List Nat), nSrc ≤ src.length → src.length < fuel + nSrc →
      nDst ≤ dst.length →
      Encoder.loop T en src fuel dst nDst nSrc =
        .done (runSegs (segments (encUnit T en) (src.drop nSrc)) dst nDst nSrc) := by
  intro fuel
  induction fuel with
  | zero => intro nSrc nDst dst h1 h2; omega
  | succ f ih =>
    intro nSrc nDst dst h1 h2 h3
    rw [Encoder.loop]
    by_cases hi : nSrc < src.length
    · rw [if_pos hi]
      obtain ⟨c, rest, hcr⟩ : ∃ c rest, src.drop nSrc = c :: rest :=
        ⟨_, _, getD_drop_head src nSrc hi⟩
      have hlenr : (c :: rest).length = src.length - nSrc := by
        rw [← hcr, List.length_drop]
      obtain ⟨hw1, hw2⟩ := DecodeRune_width c rest
      rw [hlenr] at hw2
      rw [hcr, segments_cons _ (encUnit_width_pos T en), runSegs]
      have hdrop : (c :: rest).drop (encUnit T en (c :: rest)).width =
          src.drop (nSrc + (DecodeRune (c :: rest)).2) := by
        rw [encUnit_width, ← hcr, List.drop_drop]
      rw [hdrop]
      obtain ⟨ho2, hn3, hon⟩ := encUnit_out_need T en (c :: rest)
      by_cases hroom : (nDst : Int) ≥ (dst.length : Int) - 1
      · have hn2 : 2 ≤ (encUnit T en (c :: rest)).need := by
          unfold encUnit
          split
          · simp
          · split
            · simp
            · split <;> simp
        rw [if_pos hroom, if_pos (by omega)]
      · rw [if_neg hroom]
        have hr2 : nDst + 2 ≤ dst.length := by omega
        have hwl1 : ∀ v, (writeAt dst nDst [v]).length = dst.length := fun v =>
          writeAt_length _ _ _ (by simp only [List.length_singleton]; omega)
        have hwl2 : ∀ a b, (writeAt dst nDst [a, b]).length = dst.length := fun a b =>
          writeAt_length _ _ _ (by simp only [List.length_cons, List.length_nil]; omega)
        simp only []
        by_cases hre : (DecodeRune (c :: rest)).1 = RuneError
        · have hf : encUnit T en (c :: rest) =
              { out := [en.replacement], width := (DecodeRune (c :: rest)).2, need := 2 } := by
            unfold encUnit; rw [if_pos hre]
          rw [if_pos hre, store_writeAt _ _ _ (by omega), hf]
          simp only [List.length_singleton]
          rw [if_neg (by omega), ih _ _ _ (by omega) (by omega)
            (by rw [hwl1]; omega)]
        · rw [if_neg hre, search_find_eq T hlen en _ _ _ _ _ _ _ _ (by omega) (by omega)
            (by omega)]
          cases hlook : Encoder.find T (DecodeRune (c :: rest)).1 0x81 0x00 0x80 with
          | some got =>
            have hf : encUnit T en (c :: rest) =
                { out := if (got >>> 24) % 256 = 27 then [27, 27] else [(got >>> 24) % 256],
                  width := (DecodeRune (c :: rest)).2, need := 2 } := by
              unfold encUnit; rw [if_neg hre, hlook]
            rw [hf]
            simp only []
            rw [store_writeAt _ _ _ (by omega), if_neg (by omega)]
            simp only []
            by_cases h27 : (got >>> 24) % 256 = 27
            · rw [if_pos h27, if_pos h27, store_writeAt _ _ _
                (by rw [hwl1]; omega), h27, writeAt_two _ _ _ _ hr2]
              simp only [List.length_cons, List.length_nil]
              rw [ih _ _ _ (by omega) (by omega)
                (by rw [hwl2]; omega)]
            · rw [if_neg h27, if_neg h27]
              simp only [List.length_singleton]
              rw [ih _ _ _ (by omega) (by omega)
                (by rw [hwl1]; omega)]
          | none =>
            simp only []
            rw [ext_eq T en _ _ _ _ _ _ 0 (by omega) (by omega), List.drop_zero]
            cases hext : extLookup T (DecodeRune (c :: rest)).1 with
            | some e =>
              have hf : encUnit T en (c :: rest) =
                  { out := [(e >>> 24) % 256, (((e <<< 8) % 4294967296) >>> 24) % 256],
                    width := (DecodeRune (c :: rest)).2, need := 3 } := by
                unfold encUnit; rw [if_neg hre, hlook]; simp only []; rw [hext]
              unfold extLookup at hext
              rw [hf, hext]
              simp only []
              by_cases hfull : nDst + 2 ≥ dst.length
              · rw [if_pos hfull, if_pos (by omega)]
                simp only [Nat.add_sub_cancel]
              · rw [if_neg hfull, if_neg (by omega), store_writeAt _ _ _ (by omega)]
                simp only []
                rw [store_writeAt _ _ _
                  (by rw [hwl1]; omega), writeAt_two _ _ _ _ hr2]
                simp only [List.length_cons, List.length_nil]
                rw [ih _ _ _ (by omega) (by omega)
                  (by rw [hwl2]; omega)]
            | none =>
              have hf : encUnit T en (c :: rest) =
                  { out := [en.replacement], width := (DecodeRune (c :: rest)).2, need := 2 } := by
                unfold encUnit; rw [if_neg hre, hlook]; simp only []; rw [hext]
              unfold extLookup at hext
              rw [hf, hext]
              simp only []
              rw [store_writeAt _ _ _ (by omega)]
              simp only [List.length_singleton]
              rw [if_neg (by omega), ih _ _ _ (by omega) (by omega)
                (by rw [hwl1]; omega)]
    · have : nSrc = src.length := by omega
      subst this
      rw [if_neg hi, List.drop_length, segments_nil]
      rfl

/-- What one call of the encoder returns on any table of 128 entries, in terms
of the units of `src`. -/
theorem encoder_transform_unit (T : Tables) (hlen : 128 ≤ T.encode.length) (en : Encoder)
    (dst src : List Nat) (atEOF : Bool) :
    Encoder.Transform T en dst src atEOF =
      .done { dst := writeAt dst 0
                (outOf ((segments (encUnit T en) src).take
                  (fitCount dst.length (segments (encUnit T en) src)))),
              nDst := 0 + (outOf ((segments (encUnit T en) src).take
                  (fitCount dst.length (segments (encUnit T en) src)))).length,
              nSrc := 0 + widthOf ((segments (encUnit T en) src).take
                  (fitCount dst.length (segments (encUnit T en) src))),
              err := if fitCount dst.length (segments (encUnit T en) src) <
                  (segments (encUnit T en) src).length then .ErrShortDst else .nil } := by
  unfold Encoder.Transform
  rw [encoder_loop_unit T hlen en src _ _ _ _ (by omega) (by omega) (by omega), List.drop_zero,
    runSegs_eq _ (fun u hu => (encUnitSegments_bound T en _ src rfl u hu).2.2) _ _ _ (by omega)]
  rfl



/-! ## Units of a prefix that ends on a unit boundary -/

theorem getD_take (l : List Nat) (k i : Nat) :
    (l.take k).getD i 0 = if i < k then l.getD i 0 else 0 := by
  rw [List.getD_eq_getElem?_getD, List.getD_eq_getElem?_getD, List.getElem?_take]
  split_ifs <;> rfl

/-- A prefix that holds the whole first unit decodes to the same first unit. -/
theorem DecodeRune_take (p : List Nat) (n : Nat) (h : (DecodeRune p).2 ≤ n) :
    DecodeRune (p.take n) = DecodeRune p := by
  cases p with
  | nil => simp
  | cons c rest =>
    cases n with
    | zero =>
      have := (DecodeRune_width c rest).1
      omega
    | succ k =>
      rw [List.take_succ_cons]
      unfold DecodeRune at h ⊢
      simp only [List.length_cons, List.length_take, List.getD_cons_succ, getD_take] at h ⊢
      rcases first_size c with hx | ⟨hx, hz⟩
      · simp only [if_pos hx]
      · simp only [if_neg (by omega : ¬ first c ≥ 0xF0)] at h ⊢
        generalize first c &&& 7 = sz at hz h ⊢
        generalize acceptRanges (first c >>> 4) = acc at h ⊢
        generalize rest.getD 0 0 = b1 at h ⊢
        generalize rest.getD 1 0 = b2 at h ⊢
        generalize rest.getD 2 0 = b3 at h ⊢
        generalize rest.length = L at h ⊢
        rcases hz with hz | hz | hz
        · subst hz
          simp only [Nat.le_refl, if_true] at h ⊢
          split_ifs at h ⊢ <;> first | omega | (simp only [] at h; omega) | rfl
        · subst hz
          simp only [if_neg (by decide : ¬ ((3 : Nat) ≤ 2)), Nat.le_refl, if_true] at h ⊢
          split_ifs at h ⊢ <;> first | omega | (simp only [] at h; omega) | rfl
        · subst hz
          simp only [if_neg (by decide : ¬ ((4 : Nat) ≤ 2)),
            if_neg (by decide : ¬ ((4 : Nat) ≤ 3))] at h ⊢
          split_ifs at h ⊢ <;> first | omega | (simp only [] at h; omega) | rfl


theorem encUnit_take (T : Tables) (en : Encoder) (p : List Nat) (n : Nat)
    (h : (encUnit T en p).width ≤ n) : encUnit T en (p.take n) = encUnit T en p := by
  rw [encUnit_width] at h
  unfold encUnit
  rw [DecodeRune_take p n h]

theorem encUnit_need_ge (T : Tables) (en : Encoder) (p : List Nat) :
    2 ≤ (encUnit T en p).need := by
  unfold encUnit
  split
  · simp
  · split
    · simp
    · split <;> simp

/-- What one call of the encoder returns on any table of 128 entries and any
capacity: the counts are within the slices, the input is cut between two units,
the bytes written are the encoding of the units before the cut, and the call
stops early exactly when the next unit needs more room than is left. -/
theorem encoder_unit_spec (T : Tables) (en : Encoder) (dst src : List Nat) (atEOF : Bool)
    (hlen : 128 ≤ T.encode.length) :
    ∃ r, Encoder.Transform T en dst src atEOF = .done r ∧
      r.nDst ≤ dst.length ∧ r.nSrc ≤ src.length ∧ r.dst.length = dst.length ∧
      segments (encUnit T en) (src.take r.nSrc) ++ segments (encUnit T en) (src.drop r.nSrc) =
        segments (encUnit T en) src ∧
      r.dst.take r.nDst = outOf (segments (encUnit T en) (src.take r.nSrc)) ∧
      r.dst.drop r.nDst = dst.drop r.nDst ∧
      (r.err = .ErrShortDst ↔ r.nSrc < src.length) ∧
      (r.nSrc < src.length →
        dst.length - r.nDst < (encUnit T en (src.drop r.nSrc)).need) ∧
      (r.err = .nil ↔ r.nSrc = src.length) := by
  have hneed := fun u hu => (encUnitSegments_bound T en _ src rfl u hu).2.2
  have hle := outOf_fit_le (segments (encUnit T en) src) hneed dst.length
  have hwtot := widthOf_segments (encUnit T en)
    (fun c rest => ⟨encUnit_width_pos T en c rest, encUnit_width_le T en c rest⟩) _ src rfl
  have hwle := widthOf_take_le (segments (encUnit T en) src)
    (fitCount dst.length (segments (encUnit T en) src))
  have hpos := segments_width_pos (encUnit T en) (encUnit_width_pos T en) _ src rfl
  have hfc := fitCount_le (segments (encUnit T en) src) dst.length
  have hiff : fitCount dst.length (segments (encUnit T en) src) <
        (segments (encUnit T en) src).length ↔
      widthOf ((segments (encUnit T en) src).take
        (fitCount dst.length (segments (encUnit T en) src))) < src.length := by
    constructor
    · intro h
      have := widthOf_take_lt _ hpos _ h
      omega
    · intro h
      by_contra hn
      rw [List.take_of_length_le (by omega)] at h
      omega
  refine ⟨_, encoder_transform_unit T hlen en dst src atEOF, ?_, ?_, ?_, ?_, ?_, ?_, ?_, ?_, ?_⟩
  · simp only [Nat.zero_add]; exact hle
  · simp only [Nat.zero_add]; omega
  · simp only []
    exact writeAt_length _ _ _ (by omega)
  · simp only [Nat.zero_add]
    rw [segments_take (encUnit T en) (encUnit_width_pos T en) (encUnit_take T en),
      segments_drop (encUnit T en) (encUnit_width_pos T en), List.take_append_drop]
  · simp only []
    rw [take_writeAt_zero, Nat.zero_add,
      segments_take (encUnit T en) (encUnit_width_pos T en) (encUnit_take T en)]
  · simp only []
    rw [drop_writeAt_zero _ _ hle]
  · simp only [Nat.zero_add]
    rw [← hiff]
    by_cases hlt : fitCount dst.length (segments (encUnit T en) src) <
        (segments (encUnit T en) src).length
    · rw [if_pos hlt]
      exact ⟨fun _ => hlt, fun _ => rfl⟩
    · rw [if_neg hlt]
      exact ⟨fun h => (by cases h), fun h => absurd h hlt⟩
  · simp only [Nat.zero_add]
    intro h
    have hlt := hiff.mpr h
    have hstop := fitCount_stop (segments (encUnit T en) src) hneed dst.length hlt
    have hdrop := segments_drop (encUnit T en) (encUnit_width_pos T en)
      (fitCount dst.length (segments (encUnit T en) src)) src
    obtain ⟨c, rest, hcr⟩ : ∃ c rest, src.drop (widthOf ((segments (encUnit T en) src).take
        (fitCount dst.length (segments (encUnit T en) src)))) = c :: rest := by
      cases hd : src.drop (widthOf ((segments (encUnit T en) src).take
        (fitCount dst.length (segments (encUnit T en) src)))) with
      | nil =>
        have := congrArg List.length hd
        simp only [List.length_drop, List.length_nil] at this
        omega
      | cons c rest => exact ⟨c, rest, rfl⟩
    rw [hcr] at hdrop ⊢
    rw [segments_cons _ (encUnit_width_pos T en)] at hdrop
    rw [← hdrop] at hstop
    simp only [List.headD_cons] at hstop
    exact hstop
  · simp only [Nat.zero_add]
    rw [show (widthOf ((segments (encUnit T en) src).take
        (fitCount dst.length (segments (encUnit T en) src))) = src.length) ↔
      ¬ (fitCount dst.length (segments (encUnit T en) src) <
        (segments (encUnit T en) src).length) from by rw [hiff]; omega]
    by_cases hlt : fitCount dst.length (segments (encUnit T en) src) <
        (segments (encUnit T en) src).length
    · rw [if_pos hlt]
      exact ⟨fun h => (by cases h), fun h => absurd hlt h⟩
    · rw [if_neg hlt]
      exact ⟨fun _ => hlt, fun _ => rfl⟩


/-- The encoder with room for two bytes per input byte and two more, on any
table of 128 entries. -/
theorem encoder_transform_unit_full (T : Tables) (hlen : 128 ≤ T.encode.length) (en : Encoder)
    (dst src : List Nat) (atEOF : Bool) (hd : 2 * src.length + 2 ≤ dst.length) :
    Encoder.Transform T en dst src atEOF =
      .done { dst := writeAt dst 0 (outOf (segments (encUnit T en) src)),
              nDst := (outOf (segments (encUnit T en) src)).length,
              nSrc := src.length, err := .nil } := by
  have hw : ∀ c rest, 1 ≤ (encUnit T en (c :: rest)).width ∧
      (encUnit T en (c :: rest)).width ≤ (c :: rest).length :=
    fun c rest => ⟨encUnit_width_pos T en c rest, encUnit_width_le T en c rest⟩
  have hlen2 := segments_length_le (encUnit T en) hw src
  have hall := fitCount_all_of_bound 2 3 (segments (encUnit T en) src)
    (fun u hu => ⟨(encUnitSegments_bound T en _ src rfl u hu).1,
      (encUnitSegments_bound T en _ src rfl u hu).2.1⟩) dst.length (by omega)
  rw [encoder_transform_unit T hlen, hall, List.take_length,
    widthOf_segments (encUnit T en) hw _ src rfl]
  simp

/-! ## Properties of the encoder on any table of 128 entries (C13, C17, C20) -/

/-- C13: for every input, every output capacity and every encode table of at
least 128 entries, `Encoder.Transform` returns `(nDst, nSrc, status)` such that
`src[:nSrc]` ends between two units (the units of `src[:nSrc]` followed by the
units of `src[nSrc:]` are the units of `src`), `dst[:nDst]` is exactly the
encoding of the units of `src[:nSrc]` and the rest of `dst` is untouched; the
status is DestinationFull exactly when `nSrc < len(src)`, and then the unit that
starts at `src[nSrc]` is left whole in the input with nothing written for it.
So an extension pair or a doubled 0x1B is written in full with its input
consumed, or not at all.  On a strictly ascending table the encoding of a unit
is the one given by the linear lookup (`encFirst`). -/
theorem encoder_atomic_on_short_dst (T : Tables) (en : Encoder) (dst src : List Nat)
    (atEOF : Bool) (hlen : 128 ≤ T.encode.length) :
    (∃ r, Encoder.Transform T en dst src atEOF = .done r ∧
      r.nDst ≤ dst.length ∧ r.nSrc ≤ src.length ∧
      segments (encUnit T en) (src.take r.nSrc) ++ segments (encUnit T en) (src.drop r.nSrc) =
        segments (encUnit T en) src ∧
      r.dst.take r.nDst = outOf (segments (encUnit T en) (src.take r.nSrc)) ∧
      r.dst.drop r.nDst = dst.drop r.nDst ∧
      (r.err = .ErrShortDst ↔ r.nSrc < src.length) ∧
      (r.nSrc < src.length →
        dst.length - r.nDst < (encUnit T en (src.drop r.nSrc)).need) ∧
      (r.err = .nil ↔ r.nSrc = src.length)) ∧
    (encodeSorted T → ∀ p, encUnit T en p = encFirst T en p) := by
  obtain ⟨r, h0, h1, h2, _, h4, h5, h6, h7, h8, h9⟩ := encoder_unit_spec T en dst src atEOF hlen
  exact ⟨⟨r, h0, h1, h2, h4, h5, h6, h7, h8, h9⟩, fun hs p => encUnit_eq_encFirst T hs en p⟩

set_option maxRecDepth 100000 in
/-- Witness of `encoder_atomic_on_short_dst`: the sample tables, the input
`a` followed by a form feed, and three bytes of room (the call writes `a` and
stops before the form feed). -/
theorem encoder_atomic_on_short_dst_witness :
    128 ≤ sampleTables.encode.length ∧
    Encoder.Transform sampleTables (NewEncoder 0) [0, 0, 0] [0x61, 0x0C] true =
      .done { dst := [0x61, 0, 0], nDst := 1, nSrc := 1, err := .ErrShortDst } ∧
    ((∃ r, Encoder.Transform sampleTables (NewEncoder 0) [0, 0, 0] [0x61, 0x0C] true = .done r ∧
      r.nDst ≤ [0, 0, 0].length ∧ r.nSrc ≤ [0x61, 0x0C].length ∧
      segments (encUnit sampleTables (NewEncoder 0)) ([0x61, 0x0C].take r.nSrc) ++
          segments (encUnit sampleTables (NewEncoder 0)) ([0x61, 0x0C].drop r.nSrc) =
        segments (encUnit sampleTables (NewEncoder 0)) [0x61, 0x0C] ∧
      r.dst.take r.nDst =
        outOf (segments (encUnit sampleTables (NewEncoder 0)) ([0x61, 0x0C].take r.nSrc)) ∧
      r.dst.drop r.nDst = [0, 0, 0].drop r.nDst ∧
      (r.err = .ErrShortDst ↔ r.nSrc < [0x61, 0x0C].length) ∧
      (r.nSrc < [0x61, 0x0C].length →
        [0, 0, 0].length - r.nDst <
          (encUnit sampleTables (NewEncoder 0) ([0x61, 0x0C].drop r.nSrc)).need) ∧
      (r.err = .nil ↔ r.nSrc = [0x61, 0x0C].length)) ∧
    (encodeSorted sampleTables →
      ∀ p, encUnit sampleTables (NewEncoder 0) p = encFirst sampleTables (NewEncoder 0) p)) :=
  ⟨by decide, by decide,
    encoder_atomic_on_short_dst sampleTables (NewEncoder 0) [0, 0, 0] [0x61, 0x0C] true
      (by decide)⟩

/-- C17: for every `b`, the encoder built by `NewEncoder(b)` encodes a unit
that decodes to U+FFFD (every invalid UTF-8 unit does) and a unit whose code
point is in none of the 128 entries of the encode table and in no entry of the
extension table as exactly one byte, `b` when `b != 0` and 0x3F when `b = 0`,
and the unit has the width that `DecodeRune` reports (1 for an invalid unit),
between 1 and the bytes left; with room for two bytes per input byte and two
more, `Transform` returns status OK, consumes the whole input and writes the
encodings of its units one after the other. -/
theorem encoder_replacement_byte (T : Tables) (b : Nat) (dst src : List Nat) (atEOF : Bool)
    (hlen : 128 ≤ T.encode.length) (hd : 2 * src.length + 2 ≤ dst.length) :
    (∃ r, Encoder.Transform T (NewEncoder b) dst src atEOF = .done r ∧
      r.err = .nil ∧ r.nSrc = src.length ∧
      r.dst.take r.nDst = outOf (segments (encUnit T (NewEncoder b)) src)) ∧
    ∀ c rest,
      ((DecodeRune (c :: rest)).1 = RuneError ∨
        (encLookup T (DecodeRune (c :: rest)).1 = none ∧
          extLookup T (DecodeRune (c :: rest)).1 = none)) →
      encUnit T (NewEncoder b) (c :: rest) =
        { out := [if b = 0 then 0x3F else b], width := (DecodeRune (c :: rest)).2, need := 2 } ∧
      1 ≤ (DecodeRune (c :: rest)).2 ∧ (DecodeRune (c :: rest)).2 ≤ (c :: rest).length := by
  have hrep : (NewEncoder b).replacement = if b = 0 then 0x3F else b := by
    unfold NewEncoder
    split_ifs <;> rfl
  refine ⟨⟨_, encoder_transform_unit_full T hlen (NewEncoder b) dst src atEOF hd, rfl, rfl, ?_⟩,
    ?_⟩
  · simp only []
    have := take_writeAt_zero dst (outOf (segments (encUnit T (NewEncoder b)) src))
    rw [Nat.zero_add] at this
    exact this
  · intro c rest h
    refine ⟨?_, DecodeRune_width c rest⟩
    unfold encUnit
    by_cases hre : (DecodeRune (c :: rest)).1 = RuneError
    · rw [if_pos hre, hrep]
    · rw [if_neg hre]
      rcases h with h | ⟨h1, h2⟩
      · exact absurd h hre
      · rw [find_none_of_lookup T hlen _ h1]
        simp only []
        rw [h2, hrep]

set_option maxRecDepth 100000 in
/-- Witness of `encoder_replacement_byte`: the sample tables, `b = 0`, and the
input made of the invalid byte 0xFF and the grave accent U+0060, which is in
neither table; both are written as 0x3F. -/
theorem encoder_replacement_byte_witness :
    128 ≤ sampleTables.encode.length ∧ 2 * [0xFF, 0x60].length + 2 ≤ (List.replicate 6 0).length ∧
    Encoder.Transform sampleTables (NewEncoder 0) (List.replicate 6 0) [0xFF, 0x60] true =
      .done { dst := [0x3F, 0x3F, 0, 0, 0, 0], nDst := 2, nSrc := 2, err := .nil } ∧
    ((∃ r, Encoder.Transform sampleTables (NewEncoder 0) (List.replicate 6 0) [0xFF, 0x60] true =
        .done r ∧
      r.err = .nil ∧ r.nSrc = [0xFF, 0x60].length ∧
      r.dst.take r.nDst = outOf (segments (encUnit sampleTables (NewEncoder 0)) [0xFF, 0x60])) ∧
    ∀ c rest,
      ((DecodeRune (c :: rest)).1 = RuneError ∨
        (encLookup sampleTables (DecodeRune (c :: rest)).1 = none ∧
          extLookup sampleTables (DecodeRune (c :: rest)).1 = none)) →
      encUnit sampleTables (NewEncoder 0) (c :: rest) =
        { out := [if 0 = 0 then 0x3F else 0], width := (DecodeRune (c :: rest)).2, need := 2 } ∧
      1 ≤ (DecodeRune (c :: rest)).2 ∧ (DecodeRune (c :: rest)).2 ≤ (c :: rest).length) :=
  ⟨by decide, by decide, by decide,
    encoder_replacement_byte sampleTables 0 (List.replicate 6 0) [0xFF, 0x60] true
      (by decide) (by decide)⟩

/-- C20: given an encode table of at least 128 entries, for every input and
every destination of any capacity (0 and 1 included), `Encoder.Transform`
returns normally, that is, without an out-of-range write to `dst` and without
an out-of-range read of the encode table (either would end the run of the model
as `Run.panic`) and within the step budget; `dst` keeps its length, and the
call returns `nDst <= len(dst)`, `nSrc <= len(src)` and status OK or
DestinationFull. -/
theorem encoder_bounds_safe (T : Tables) (en : Encoder) (dst src : List Nat) (atEOF : Bool)
    (hlen : 128 ≤ T.encode.length) :
    ∃ r, Encoder.Transform T en dst src atEOF = .done r ∧
      r.dst.length = dst.length ∧ r.nDst ≤ dst.length ∧ r.nSrc ≤ src.length ∧
      (r.err = .nil ∨ r.err = .ErrShortDst) := by
  obtain ⟨r, h0, h1, h2, h3, _⟩ := encoder_unit_spec T en dst src atEOF hlen
  refine ⟨r, h0, h3, h1, h2, ?_⟩
  cases r.err
  · exact Or.inl rfl
  · exact Or.inr rfl

set_option maxRecDepth 100000 in
/-- Witness of `encoder_bounds_safe`: the sample tables, the no-break space
U+00A0 (GSM byte 0x1B, written twice) and a destination of one byte. -/
theorem encoder_bounds_safe_witness :
    128 ≤ sampleTables.encode.length ∧
    Encoder.Transform sampleTables (NewEncoder 0) [0] [0xC2, 0xA0] false =
      .done { dst := [0], nDst := 0, nSrc := 0, err := .ErrShortDst } ∧
    ∃ r, Encoder.Transform sampleTables (NewEncoder 0) [0] [0xC2, 0xA0] false = .done r ∧
      r.dst.length = [0].length ∧ r.nDst ≤ [0].length ∧ r.nSrc ≤ [0xC2, 0xA0].length ∧
      (r.err = .nil ∨ r.err = .ErrShortDst) :=
  ⟨by decide, by decide,
    encoder_bounds_safe sampleTables (NewEncoder 0) [0] [0xC2, 0xA0] false (by decide)⟩


/-! ## Packer: resumption after DestinationFull (C16) -/

theorem getD_drop (S : List Nat) (a i : Nat) : (S.drop a).getD i 0 = S.getD (a + i) 0 := by
  rw [List.getD_eq_getElem?_getD, List.getD_eq_getElem?_getD, List.getElem?_drop]

/-- One call of the packer entered with `p.s = t + 1` whose destination is used
up before the input: every byte of `dst` is written and the status is
DestinationFull. -/
theorem pack_transform_short (src dst : List Nat) (atEOF : Bool) (t : Nat) (ht : t < 7)
    (hfull : packI t dst.length ≤ src.length) :
    SevenBitPacker.Transform { s := t + 1 } dst src atEOF =
      .done ({ dst := (List.range dst.length).map (packByteAt t src), nDst := dst.length,
               nSrc := packI t dst.length - 1, err := .ErrShortDst },
             { s := packS t dst.length }) := by
  have hMn : dst.length < src.length := by unfold packI at hfull; omega
  have h0 : packI t 0 = 1 := by unfold packI; omega
  have hs0 : packS t 0 = t + 1 := by unfold packS; omega
  have key := pack_loop_steps src t dst.length (src.length + 1 - dst.length) 0 0 dst
    (by right
        unfold packI at hfull ⊢
        omega)
    (by omega)
  rw [h0, hs0] at key
  unfold SevenBitPacker.Transform
  rw [show src.length + 1 = src.length + 1 - dst.length + dst.length by omega]
  simp only [Nat.sub_self] at key
  rw [key]
  obtain ⟨f, hf⟩ : ∃ f, src.length + 1 - dst.length = f + 1 :=
    ⟨src.length - dst.length, by omega⟩
  rw [hf, SevenBitPacker.loop]
  simp only [Nat.zero_add, List.take_zero, List.nil_append, List.range_eq_range', hfull,
    if_true, List.drop_length, List.append_nil, List.length_map, List.length_range',
    ge_iff_le, Nat.le_refl]

/-- The byte written in iteration `j` of a call that resumes after `W` bytes is
the byte written in iteration `W + j` of a single call from the Reset state. -/
theorem packByteAt_drop (S : List Nat) (W j : Nat) (hW : packI 0 W - 1 ≤ S.length) :
    packByteAt (W % 7) (S.drop (packI 0 W - 1)) j = packByteAt 0 S (W + j) := by
  unfold packByteAt
  rw [getD_drop, getD_drop, List.length_drop]
  have e1 : packI 0 W - 1 + (packI (W % 7) j - 1) = packI 0 (W + j) - 1 := by
    unfold packI; omega
  have e2 : packI 0 W - 1 + packI (W % 7) j = packI 0 (W + j) := by
    unfold packI; omega
  have e3 : packS (W % 7) j = packS 0 (W + j) := by
    unfold packS; omega
  have e4 : (packI (W % 7) j < S.length - (packI 0 W - 1)) ↔ (packI 0 (W + j) < S.length) := by
    rw [← e2]; omega
  rw [e1, e2, e3]
  simp only [e4]

theorem map_packByteAt_drop (S : List Nat) (W cnt : Nat) (hW : packI 0 W - 1 ≤ S.length) :
    (List.range cnt).map (packByteAt (W % 7) (S.drop (packI 0 W - 1))) =
      (List.range' W cnt).map (packByteAt 0 S) := by
  rw [List.range'_eq_map_range, List.map_map]
  refine List.map_congr_left ?_
  intro j _
  rw [Function.comp_apply]
  exact packByteAt_drop S W j hW

/-- Driving the packer from the state reached after `W` bytes of output: the
buffers receive the next bytes of the single-call output, as many as fit. -/
theorem pack_drive_eq (S : List Nat) (atEOF : Bool) (M : Nat)
    (hM : M = (7 * S.length + 7) / 8) :
    ∀ (bufs : List (List Nat)), (∀ b ∈ bufs, 1 ≤ b.length) → ∀ W, W < M →
      SevenBitPacker.drive atEOF bufs { s := packS 0 W } (S.drop (packI 0 W - 1)) =
        .done ((List.range' W (min M (W + (bufs.map List.length).sum) - W)).map
            (packByteAt 0 S),
          packI 0 (min M (W + (bufs.map List.length).sum)) - packI 0 W,
          (if min M (W + (bufs.map List.length).sum) < M then Err.ErrShortDst else Err.nil),
          { s := packS 0 (min M (W + (bufs.map List.length).sum)) }) := by
  intro bufs
  induction bufs with
  | nil =>
    intro _ W hW
    rw [SevenBitPacker.drive]
    simp only [List.map_nil, List.sum_nil, Nat.add_zero, Nat.min_eq_right (Nat.le_of_lt hW),
      Nat.sub_self, List.range'_zero, if_pos hW]
  | cons dst rest ih =>
    intro hb W hW
    have hcap : 1 ≤ dst.length := hb dst (List.mem_cons_self _ _)
    have hps : packS 0 W = W % 7 + 1 := by unfold packS; rw [Nat.zero_add]
    have hcW : packI 0 W - 1 ≤ S.length := by unfold packI; simp only [Nat.zero_add]; omega
    rw [SevenBitPacker.drive, hps]
    simp only [List.map_cons, List.sum_cons]
    by_cases hfit : M ≤ W + dst.length
    · have hT := pack_transform_from (S.drop (packI 0 W - 1)) dst atEOF (W % 7) (M - W)
        (by omega)
        (by right; rw [List.length_drop]; unfold packI; simp only [Nat.zero_add]; omega)
        (by rw [List.length_drop]; unfold packI; simp only [Nat.zero_add]; omega) (by omega)
      have hmin : min M (W + (dst.length + (rest.map List.length).sum)) = M := by omega
      rw [hT]
      simp only [hmin]
      simp only [if_true, Nat.lt_irrefl, if_false]
      rw [take_append_length _ _ _ (by simp), map_packByteAt_drop S W _ hcW]
      have e1 : packI (W % 7) (M - W) - 1 = packI 0 M - packI 0 W := by unfold packI; simp only [Nat.zero_add]; omega
      have e2 : packS (W % 7) (M - W) = packS 0 M := by unfold packS; simp only [Nat.zero_add]; omega
      rw [e1, e2]
    · have hT := pack_transform_short (S.drop (packI 0 W - 1)) dst atEOF (W % 7) (by omega)
        (by rw [List.length_drop]; unfold packI; simp only [Nat.zero_add]; omega)
      rw [hT]
      simp only [if_neg (by decide : ¬ Err.ErrShortDst = Err.nil)]
      have e1 : packI 0 W - 1 + (packI (W % 7) dst.length - 1) =
          packI 0 (W + dst.length) - 1 := by unfold packI; simp only [Nat.zero_add]; omega
      have e2 : packS (W % 7) dst.length = packS 0 (W + dst.length) := by
        unfold packS; simp only [Nat.zero_add]; omega
      rw [List.drop_drop, e1, e2,
        ih (fun b hb2 => hb b (List.mem_cons_of_mem _ hb2)) (W + dst.length) (by omega)]
      simp only []
      have e3 : W + dst.length + (rest.map List.length).sum =
          W + (dst.length + (rest.map List.length).sum) := by omega
      rw [e3, List.take_of_length_le (by simp), map_packByteAt_drop S W _ hcW,
        ← List.map_append]
      have l1 : List.range' W dst.length ++ List.range' (W + dst.length)
            (min M (W + (dst.length + (rest.map List.length).sum)) - (W + dst.length)) =
          List.range' W (min M (W + (dst.length + (rest.map List.length).sum)) - W) := by
        rw [List.range'_append_1]
        congr 1
        omega
      have l2 : packI (W % 7) dst.length - 1 +
            (packI 0 (min M (W + (dst.length + (rest.map List.length).sum))) -
              packI 0 (W + dst.length)) =
          packI 0 (min M (W + (dst.length + (rest.map List.length).sum))) - packI 0 W := by
        unfold packI
        simp only [Nat.zero_add]
        omega
      rw [l1, l2]

/-- Driving the packer from the Reset state over a non-empty list of buffers
of at least one byte each: the buffers receive the first bytes of the
single-call output, as many as fit. -/
theorem pack_drive_reset (S : List Nat) (atEOF : Bool) (bufs : List (List Nat))
    (hb : ∀ b ∈ bufs, 1 ≤ b.length) (hne : bufs ≠ []) :
    SevenBitPacker.drive atEOF bufs { s := 1 } S =
      .done ((List.range (min ((7 * S.length + 7) / 8) (bufs.map List.length).sum)).map
          (packByteAt 0 S),
        min ((7 * S.length + 7) / 8) (bufs.map List.length).sum +
          min ((7 * S.length + 7) / 8) (bufs.map List.length).sum / 7,
        (if min ((7 * S.length + 7) / 8) (bufs.map List.length).sum < (7 * S.length + 7) / 8
          then Err.ErrShortDst else Err.nil),
        { s := min ((7 * S.length + 7) / 8) (bufs.map List.length).sum % 7 + 1 }) := by
  by_cases hM0 : (7 * S.length + 7) / 8 = 0
  · have hS : S = [] := by
      apply List.eq_nil_of_length_eq_zero
      omega
    subst hS
    cases bufs with
    | nil => exact absurd rfl hne
    | cons b rest =>
      have hT := pack_transform_from [] b atEOF 0 0 (by decide) (Or.inl rfl)
        (by unfold packI; simp) (by omega)
      rw [SevenBitPacker.drive, hT]
      simp [packI, packS]
  · have h := pack_drive_eq S atEOF _ rfl bufs hb 0 (by omega)
    have e1 : packS 0 0 = 1 := rfl
    have e2 : packI 0 0 - 1 = 0 := rfl
    rw [e1, e2, List.drop_zero] at h
    rw [h]
    simp only [Nat.zero_add, Nat.sub_zero, List.range_eq_range']
    have e3 : ∀ X, packI 0 X - packI 0 0 = X + X / 7 := by
      intro X; unfold packI; simp only [Nat.zero_add]; omega
    have e4 : ∀ X, packS 0 X = X % 7 + 1 := by
      intro X; unfold packS; rw [Nat.zero_add]
    rw [e3, e4]

/-- C16: for septets `S` below 128 and every non-empty list of destination
buffers that hold at least one byte each, resetting a packer and calling
`Transform` on the still unconsumed remainder of `S` with the next buffer until
a call returns OK (or the buffers run out) writes, buffer after buffer, the
first bytes of what a single call on `S` with ample room writes, as many as the
buffers hold together: only whole output bytes, with consumed count
`k + k / 7` and cursor `k % 7 + 1` after `k` bytes.  The last status is
DestinationFull exactly when the buffers together hold fewer bytes than the
single call writes; then the consumed count is below the length of `S` and the
cursor is the consumed count modulo 8, plus 1.  Otherwise the last status is OK
and the concatenated bytes, the consumed count and the final state are those of
the single call. -/
theorem packer_resumes_after_short_dst (p0 : SevenBitPacker) (S dst : List Nat)
    (bufs : List (List Nat)) (e1 e2 : Bool)
    (hS : ∀ x ∈ S, x < 128) (hb : ∀ b ∈ bufs, 1 ≤ b.length) (hne : bufs ≠ [])
    (hd : (7 * S.length + 7) / 8 ≤ dst.length) :
    ∃ r p out n e q,
      SevenBitPacker.Transform (SevenBitPacker.Reset p0) dst S e1 = .done (r, p) ∧
      r.err = .nil ∧
      SevenBitPacker.drive e2 bufs (SevenBitPacker.Reset p0) S = .done (out, n, e, q) ∧
      out = (r.dst.take r.nDst).take (bufs.map List.length).sum ∧
      n = out.length + out.length / 7 ∧ q.s = out.length % 7 + 1 ∧
      (e = .ErrShortDst ↔ (bufs.map List.length).sum < r.nDst) ∧
      (e = .ErrShortDst → n < S.length ∧ q.s = n % 8 + 1) ∧
      (e = .nil → out = r.dst.take r.nDst ∧ n = r.nSrc ∧ q = p) := by
  have hp := pack_reset_eq S dst e1 hS hd
  have hdr := pack_drive_reset S e2 bufs hb hne
  have href : (List.range ((7 * S.length + 7) / 8)).map (packByteAt 0 S) = refPack S := by
    unfold refPack
    apply List.map_congr_left
    intro k _
    exact packByteAt_eq_ref S hS k
  have htake : (refPack S ++ dst.drop ((7 * S.length + 7) / 8)).take
      ((7 * S.length + 7) / 8) = refPack S :=
    take_append_length _ _ _ (refPack_length S).symm
  have hout : (List.range (min ((7 * S.length + 7) / 8) (bufs.map List.length).sum)).map
      (packByteAt 0 S) = (refPack S).take (bufs.map List.length).sum := by
    rw [← href, ← List.map_take, List.take_range, Nat.min_comm]
  have hlen : ((List.range (min ((7 * S.length + 7) / 8) (bufs.map List.length).sum)).map
      (packByteAt 0 S)).length = min ((7 * S.length + 7) / 8) (bufs.map List.length).sum := by
    simp
  refine ⟨_, _, _, _, _, _, hp, rfl, hdr, ?_, ?_, ?_, ?_, ?_, ?_⟩
  · simp only [htake]
    exact hout
  · rw [hlen]
  · rw [hlen]
  · simp only []
    by_cases hlt : min ((7 * S.length + 7) / 8) (bufs.map List.length).sum <
        (7 * S.length + 7) / 8
    · rw [if_pos hlt]
      exact ⟨fun _ => by omega, fun _ => rfl⟩
    · rw [if_neg hlt]
      exact ⟨fun h => (by cases h), fun h => absurd h (by omega)⟩
  · simp only []
    by_cases hlt : min ((7 * S.length + 7) / 8) (bufs.map List.length).sum <
        (7 * S.length + 7) / 8
    · intro _
      omega
    · rw [if_neg hlt]
      intro h
      cases h
  · simp only []
    by_cases hlt : min ((7 * S.length + 7) / 8) (bufs.map List.length).sum <
        (7 * S.length + 7) / 8
    · rw [if_pos hlt]
      intro h
      cases h
    · intro _
      have hmin : min ((7 * S.length + 7) / 8) (bufs.map List.length).sum =
          (7 * S.length + 7) / 8 := by omega
      rw [hmin, href, htake]
      refine ⟨rfl, ?_, ?_⟩
      · unfold packI; simp only [Nat.zero_add]; omega
      · unfold packS; rw [Nat.zero_add]

set_option maxRecDepth 100000 in
/-- Witness of `packer_resumes_after_short_dst`: nine septets packed into
buffers of one byte each. -/
theorem packer_resumes_after_short_dst_witness :
    (∀ x ∈ [0x31, 0x32, 0x33, 0x34, 0x35, 0x36, 0x37, 0x38, 0x39], x < 128) ∧
    (∀ b ∈ List.replicate 8 [0], 1 ≤ b.length) ∧
    SevenBitPacker.drive true (List.replicate 8 [0]) (SevenBitPacker.Reset NewPacker)
      [0x31, 0x32, 0x33, 0x34, 0x35, 0x36, 0x37, 0x38, 0x39] =
      .done ([0x31, 0xD9, 0x8C, 0x56, 0xB3, 0xDD, 0x70, 0x39], 9, .nil, { s := 2 }) ∧
    ∃ r p out n e q,
      SevenBitPacker.Transform (SevenBitPacker.Reset NewPacker) (List.replicate 9 0)
        [0x31, 0x32, 0x33, 0x34, 0x35, 0x36, 0x37, 0x38, 0x39] true = .done (r, p) ∧
      r.err = .nil ∧
      SevenBitPacker.drive true (List.replicate 8 [0]) (SevenBitPacker.Reset NewPacker)
        [0x31, 0x32, 0x33, 0x34, 0x35, 0x36, 0x37, 0x38, 0x39] = .done (out, n, e, q) ∧
      out = (r.dst.take r.nDst).take ((List.replicate 8 [0]).map List.length).sum ∧
      n = out.length + out.length / 7 ∧ q.s = out.length % 7 + 1 ∧
      (e = .ErrShortDst ↔ ((List.replicate 8 [0]).map List.length).sum < r.nDst) ∧
      (e = .ErrShortDst →
        n < [0x31, 0x32, 0x33, 0x34, 0x35, 0x36, 0x37, 0x38, 0x39].length ∧
        q.s = n % 8 + 1) ∧
      (e = .nil → out = r.dst.take r.nDst ∧ n = r.nSrc ∧ q = p) :=
  ⟨by decide, by decide, by decide,
    packer_resumes_after_short_dst NewPacker
      [0x31, 0x32, 0x33, 0x34, 0x35, 0x36, 0x37, 0x38, 0x39] (List.replicate 9 0)
      (List.replicate 8 [0]) true true (by decide) (by decide) (by decide) (by decide)⟩

end Gsm
